import Mathlib

/-!
Shallow embedding of the token-based pool memory manager (tbman.cpp) and
verification of its specification claims.

Modelling conventions, used throughout:

* Memory addresses and sizes are natural numbers (byte addresses).  The NULL
  pointer is address `0`; the platform allocator model never returns `0`.
* The platform aligned allocator `_aligned_malloc(alignment, size)` is
  modelled by a monotone address counter: it returns the counter rounded up
  to the requested alignment and advances the counter past the allocation,
  so distinct live platform allocations never overlap.
* Fatal errors (`ERR(...)`, which aborts the process) and dereferences of
  addresses that are not valid pool headers are modelled by `Option`, with
  `none` meaning the run aborts.
* `header_size` parameters model the platform constant
  `sizeof(token_manager_s)`.
* Byte contents of blocks (`memcpy`) are not modelled; the claims are about
  addresses, sizes and bookkeeping state.
-/

set_option autoImplicit false

/-- Minimum alignment of memory blocks (tbman.cpp:47, `#define TBMAN_ALIGN 0x100`). -/
def TBMAN_ALIGN : Nat := 0x100

/-- Round `n` up to the next multiple of `a`. -/
def align_up (n a : Nat) : Nat := (n + a - 1) / a * a

/-- Model of the platform `_aligned_malloc(alignment, size)`: given the current
    allocator counter, return the allocated address and the new counter. -/
def platform_aligned_alloc (next_addr alignment size : Nat) : Nat × Nat :=
  let addr := align_up next_addr alignment
  (addr, addr + size)

/-- Header of one memory pool, `struct token_manager_s` (tbman.cpp:100-116).
    `base` is the address of the header, which is also the pool base address.
    The intrusive `token_stack` array is modelled as a list of naturals (the
    code stores `uint16_t` tokens; all tokens are `< stack_size ≤ 0x10000`, so
    no truncation occurs for valid block pointers).  The `parent` pointer is
    implicit: the owning block manager holds this record in its `data` vector,
    and `parent_index` is the slot it currently occupies there. -/
structure token_manager_s where
  base : Nat
  pool_size : Nat
  block_size : Nat
  stack_size : Nat
  stack_index : Nat
  aligned : Bool
  parent_index : Nat
  token_stack : List Nat
deriving Repr, DecidableEq, Inhabited

/-- Number of blocks at the start of the pool occupied by the header plus the
    token stack: `reserved_size / block_size` rounded up (tbman.cpp:135-136),
    where `reserved_size = sizeof(token_manager_s) + sizeof(uint16_t) * stack_size`
    and `header_size` models `sizeof(token_manager_s)`. -/
def token_manager_s_reserved_blocks (header_size pool_size block_size : Nat) : Nat :=
  let stack_size := pool_size / block_size
  let reserved_size := header_size + 2 * stack_size
  reserved_size / block_size + (if reserved_size % block_size > 0 then 1 else 0)

/-- `token_manager_s_create` (tbman.cpp:131-157).  The caller supplies the pool
    address `base` obtained from the platform allocator; the three fatal
    configuration checks (`pool_size` not a power of two, `stack_size`
    exceeding `0x10000`, `pool_size` too small for the header plus one free
    block) are modelled by returning `none`.  The `aligned` flag is true iff
    the pool address is a multiple of `pool_size`
    (`((intptr_t) o & (intptr_t)(pool_size - 1)) == 0`, tbman.cpp:149). -/
def token_manager_s_create (header_size pool_size block_size base : Nat) :
    Option token_manager_s :=
  if pool_size &&& (pool_size - 1) != 0 then none
  else
    let stack_size := pool_size / block_size
    if stack_size > 0x10000 then none
    else
      let reserved_blocks := token_manager_s_reserved_blocks header_size pool_size block_size
      if stack_size < reserved_blocks + 1 then none
      else some
        { base := base
          pool_size := pool_size
          block_size := block_size
          stack_size := stack_size
          stack_index := 0
          aligned := base &&& (pool_size - 1) == 0
          parent_index := 0
          token_stack := (List.range stack_size).map fun i =>
            if i + reserved_blocks < stack_size then i + reserved_blocks else 0 }

/-- `token_manager_s_is_full` (tbman.cpp:169-171): the manager is full when the
    token at the current stack position is the sentinel `0`. -/
def token_manager_s_is_full (o : token_manager_s) : Bool :=
  o.token_stack.getD o.stack_index 0 == 0

/-- `token_manager_s_is_empty` (tbman.cpp:175-177). -/
def token_manager_s_is_empty (o : token_manager_s) : Bool :=
  o.stack_index == 0

/-- `token_manager_s_alloc` (tbman.cpp:181-187): hand out the block address
    `base + token_stack[stack_index] * block_size` and increment `stack_index`.
    Returns the new state and the block address. -/
def token_manager_s_alloc (o : token_manager_s) : token_manager_s × Nat :=
  ({ o with stack_index := o.stack_index + 1 },
   o.base + o.token_stack.getD o.stack_index 0 * o.block_size)

/-- Iterated `token_manager_s_alloc`, discarding the returned block addresses. -/
def token_manager_s_alloc_iter : Nat → token_manager_s → token_manager_s
  | 0, o => o
  | n + 1, o => token_manager_s_alloc_iter n (token_manager_s_alloc o).1

/-- Atomic steps performed by `token_manager_s_free`, recorded in execution
    order: the full-to-free notification to the parent, the decrement of
    `stack_index` together with the write of the derived token at the new
    position (`pop_write new_stack_index token`), and the free-to-empty
    notification to the parent. -/
inductive free_step where
  | notify_full_to_free : free_step
  | pop_write : Nat → Nat → free_step
  | notify_free_to_empty : free_step
deriving Repr, DecidableEq

/-- `token_manager_s_free` (tbman.cpp:196-215).  The derived token is
    `(ptr - base) / block_size` (tbman.cpp:202).  If the manager is currently
    full (`token_stack[stack_index] == 0`) the parent is notified full-to-free
    before the decrement; then `stack_index` is decremented and the token is
    written at the new position; if `stack_index` is now `0` the parent is
    notified free-to-empty.  The state effect on the parent block manager is
    modelled in `block_manager_s_child_free` below; here the notifications are
    recorded as a trace of `free_step`s in the order the code performs them.
    (The `RTCHECKS` assertions are debug-build only and are not modelled.) -/
def token_manager_s_free (o : token_manager_s) (ptr : Nat) :
    token_manager_s × List free_step :=
  let token := (ptr - o.base) / o.block_size
  let ev1 : List free_step :=
    if o.token_stack.getD o.stack_index 0 == 0 then [.notify_full_to_free] else []
  let new_index := o.stack_index - 1
  let o1 := { o with stack_index := new_index,
                     token_stack := o.token_stack.set new_index token }
  let ev2 : List free_step := if new_index == 0 then [.notify_free_to_empty] else []
  (o1, ev1 ++ [.pop_write new_index token] ++ ev2)

/-- Model of `btree_vd_s`, the ordered set of pool base addresses: a list of
    keys.  `btree_vd_s_set` fails (the code raises a fatal error from the
    returned status) when the key is already present. -/
def btree_vd_s_set (t : List Nat) (k : Nat) : Option (List Nat) :=
  if t.contains k then none else some (k :: t)

/-- Removal from the pool-address set; fails when the key is absent (the code
    raises a fatal error from the returned status). -/
def btree_vd_s_remove (t : List Nat) (k : Nat) : Option (List Nat) :=
  if t.contains k then some (t.erase k) else none

/-- `btree_vd_s_largest_below_equal`: the largest stored key that is `≤ q`. -/
def btree_vd_s_largest_below_equal (t : List Nat) (q : Nat) : Option Nat :=
  (t.filter fun k => decide (k ≤ q)).max?

/-- Model of `btree_ps_s`, the map from external block address to granted byte
    size: an association list. -/
def btree_ps_s_val (t : List (Nat × Nat)) (k : Nat) : Option Nat :=
  t.lookup k

/-- Insertion into the external map; fails when the key is already present. -/
def btree_ps_s_set (t : List (Nat × Nat)) (k v : Nat) : Option (List (Nat × Nat)) :=
  if (t.lookup k).isSome then none else some ((k, v) :: t)

/-- Removal from the external map; fails when the key is absent. -/
def btree_ps_s_remove (t : List (Nat × Nat)) (k : Nat) : Option (List (Nat × Nat)) :=
  if (t.lookup k).isSome then some (t.filter fun kv => kv.1 != k) else none

/-- `struct block_manager_s` (tbman.cpp:288-299).  `data` is the packed vector
    of owned token managers (the code's `size` is its length; the capacity
    field `space` and the reallocation of the raw pointer array are memory
    management noise and are not modelled).  The shared `internal_btree`
    handle is modelled by threading the pool-address tree through the
    operations.  `sweep_hysteresis` always holds its default `0.125` (set in
    `block_manager_s_init`, tbman.cpp:306, and never modified), so it is kept
    implicit; the comparison against it is done in exact arithmetic. -/
structure block_manager_s where
  pool_size : Nat
  block_size : Nat
  align : Bool
  data : List token_manager_s
  free_index : Nat
  aligned : Bool
deriving Repr, DecidableEq, Inhabited

/-- `block_manager_s_create` (tbman.cpp:322-330) together with
    `block_manager_s_init` (tbman.cpp:303-307): a fresh manager is empty and
    `aligned`. -/
def block_manager_s_create (pool_size block_size : Nat) (align : Bool) : block_manager_s :=
  { pool_size := pool_size, block_size := block_size, align := align,
    data := [], free_index := 0, aligned := true }

/-- `block_manager_s_alloc` (tbman.cpp:344-371).  When every pool is full
    (`free_index == size`) a new token manager is created from a fresh
    platform allocation (aligned to `pool_size` when `align` is set, else to
    `TBMAN_ALIGN`), its slot is recorded in `parent_index`, the block
    manager's `aligned` flag is dropped if the new pool is unaligned (in the
    code this also calls `tbman_s_lost_alignment` on the parent, reported here
    by the returned `lost` flag), and the pool base is registered in the
    pool-address tree.  The request is then delegated to the token manager at
    `free_index`, and `free_index` is incremented if that manager is now full.
    Returns (new state, new pool-address tree, block address, lost-alignment
    flag, new platform-allocator counter). -/
def block_manager_s_alloc (header_size : Nat) (o : block_manager_s) (btree : List Nat)
    (next_addr : Nat) : Option (block_manager_s × List Nat × Nat × Bool × Nat) := do
  let (o, btree, lost, next_addr) ←
    if o.free_index == o.data.length then do
      let (new_base, next_addr) := platform_aligned_alloc next_addr
        (if o.align then o.pool_size else TBMAN_ALIGN) o.pool_size
      let tm0 ← token_manager_s_create header_size o.pool_size o.block_size new_base
      let tm := { tm0 with parent_index := o.data.length }
      let lost := o.aligned && !tm.aligned
      let btree ← btree_vd_s_set btree tm.base
      pure ({ o with data := o.data ++ [tm], aligned := o.aligned && tm.aligned },
            btree, lost, next_addr)
    else
      pure (o, btree, false, next_addr)
  let child := o.data.getD o.free_index default
  let (child, ret) := token_manager_s_alloc child
  let o := { o with data := o.data.set o.free_index child }
  let o := if token_manager_s_is_full child then { o with free_index := o.free_index + 1 }
           else o
  pure (o, btree, ret, lost, next_addr)

/-- `block_manager_s_full_to_free` (tbman.cpp:376-390): a child reports turning
    full to free.  `child_slot` is the slot currently holding the reporting
    child (the code passes the child's address; the slot is read back from the
    child's `parent_index` field, as the code does at tbman.cpp:382).
    `free_index` is decremented and the child is swapped with the manager at
    the former slot `free_index`, updating both `parent_index` fields. -/
def block_manager_s_full_to_free (o : block_manager_s) (child_slot : Nat) : block_manager_s :=
  let child := o.data.getD child_slot default
  let free_index := o.free_index - 1
  let child_index := child.parent_index
  let swapc_index := free_index
  let swapc := o.data.getD swapc_index default
  let data := (o.data.set swapc_index { child with parent_index := swapc_index }).set
      child_index { swapc with parent_index := child_index }
  { o with data := data, free_index := free_index }

/-- `block_manager_s_empty_tail` (tbman.cpp:394-399): the number of trailing
    empty token managers (the code scans backwards from the end of the vector
    while the entries are empty). -/
def block_manager_s_empty_tail (o : block_manager_s) : Nat :=
  (o.data.reverse.takeWhile token_manager_s_is_empty).length

/-- `block_manager_s_free_to_empty` (tbman.cpp:404-435): a child reports
    turning free to empty.  If the child is not already inside the trailing
    empty region it is swapped with the slot just below that region
    (`swapc_index = size - empty_tail - 1`, guarded by
    `child_index < swapc_index`) and the local `empty_tail` count is
    incremented.  Then, if `empty_tail > (size - empty_tail) * sweep_hysteresis`
    (default `0.125`; evaluated here in exact arithmetic as
    `8 * empty_tail > size - empty_tail`), the trailing empty managers are
    destroyed one by one, last slot first, each being deregistered from the
    pool-address tree.  Returns (new state, new pool-address tree, destroyed
    token managers in destruction order).  The swap phase (tbman.cpp:405-418)
    is `block_manager_s_f2e_phase`: it moves the reporting child to the tail
    of the trailing empty region when it is not already inside it, returning
    the updated state and the local `empty_tail` count. -/
def block_manager_s_f2e_phase (o : block_manager_s) (child_slot : Nat) :
    block_manager_s × Nat :=
  let child := o.data.getD child_slot default
  let child_index := child.parent_index
  let empty_tail := block_manager_s_empty_tail o
  if empty_tail < o.data.length then
    let swapc_index := o.data.length - empty_tail - 1
    if child_index < swapc_index then
      let swapc := o.data.getD swapc_index default
      let data := (o.data.set child_index { swapc with parent_index := child_index }).set
          swapc_index { child with parent_index := swapc_index }
      ({ o with data := data }, empty_tail + 1)
    else (o, empty_tail)
  else (o, empty_tail)

def block_manager_s_free_to_empty (o : block_manager_s) (btree : List Nat)
    (child_slot : Nat) : Option (block_manager_s × List Nat × List token_manager_s) := do
  let (o, empty_tail) := block_manager_s_f2e_phase o child_slot
  if 8 * empty_tail > o.data.length - empty_tail then
    let removed := o.data.reverse.takeWhile token_manager_s_is_empty
    let kept := (o.data.reverse.dropWhile token_manager_s_is_empty).reverse
    let btree ← removed.foldlM (fun t tm => btree_vd_s_remove t tm.base) btree
    pure ({ o with data := kept }, btree, removed)
  else
    pure (o, btree, [])

/-- One free request arriving at a token manager of this block manager.  The
    memory manager calls `token_manager_s_free` directly on the owning token
    manager (tbman.cpp:687,691); this function is that call together with the
    state effect of the `full_to_free` / `free_to_empty` callbacks it posts to
    its parent, in the order the code performs them (tbman.cpp:196-215):
    the full-to-free swap happens before the stack update (while the child is
    still in the full region), the free-to-empty handling after it. -/
def block_manager_s_child_free (o : block_manager_s) (btree : List Nat)
    (child_slot ptr : Nat) : Option (block_manager_s × List Nat × List token_manager_s) := do
  let child := o.data.getD child_slot default
  let (o, slot) :=
    if token_manager_s_is_full child then
      (block_manager_s_full_to_free o child_slot, o.free_index - 1)
    else (o, child_slot)
  let child := o.data.getD slot default
  let child := (token_manager_s_free child ptr).1
  let o := { o with data := o.data.set slot child }
  if token_manager_s_is_empty child then
    block_manager_s_free_to_empty o btree slot
  else
    pure (o, btree, [])

/-- Loop condition of the `size_mask` normalisation loop in `tbman_s_init`
    (tbman.cpp:548): keep shifting while
    `size_mask < min_block_size || ((size_mask << 1) & min_block_size) != 0`. -/
def tbman_mask_cond (min_block_size size_mask : Nat) : Bool :=
  decide (size_mask < min_block_size) || ((size_mask <<< 1) &&& min_block_size != 0)

/-- The `while` loop at tbman.cpp:548, modelled with fuel: one unit of fuel per
    execution of the loop body `size_mask <<= 1`.  `none` means the loop has
    not finished within `fuel` iterations; the loop terminates if and only if
    some amount of fuel suffices. -/
def tbman_mask_loop (min_block_size : Nat) : Nat → Nat → Option Nat
  | fuel, size_mask =>
    if tbman_mask_cond min_block_size size_mask then
      match fuel with
      | 0 => none
      | f + 1 => tbman_mask_loop min_block_size f (size_mask <<< 1)
    else some size_mask

/-- The block-size generation loop of `tbman_s_init` (tbman.cpp:552-573),
    modelled with fuel (one unit per emitted block size).  Each iteration with
    `block_size ≤ max_block_size` emits `block_size`; if the emitted size
    exceeds `size_mask`, both `size_mask` and `size_inc` are shifted left; the
    next candidate is `block_size + size_inc` with the updated increment.
    Only the emitted block sizes are produced here; the creation of the block
    managers from them is in `tbman_s_init`. -/
def tbman_ladder_loop (max_block_size : Nat) : Nat → Nat → Nat → Nat → Option (List Nat)
  | fuel, block_size, size_inc, size_mask =>
    if block_size ≤ max_block_size then
      match fuel with
      | 0 => none
      | f + 1 =>
        let (size_mask, size_inc) :=
          if block_size > size_mask then (size_mask <<< 1, size_inc <<< 1)
          else (size_mask, size_inc)
        (tbman_ladder_loop max_block_size f (block_size + size_inc) size_inc size_mask).map
          (fun l => block_size :: l)
    else some []

/-- The size-class ladder computed by `tbman_s_init` (tbman.cpp:545-573) for a
    given configuration: the mask loop starts from `(1 << stepping_method) - 1`
    and the generation loop from `block_size = size_inc = min_block_size`.
    The fuel amounts are generous: the claim C4 theorems below show they
    suffice whenever the loops terminate at all. -/
def tbman_block_sizes (min_block_size max_block_size stepping_method : Nat) :
    Option (List Nat) := do
  let size_mask ← tbman_mask_loop min_block_size (min_block_size + 1)
      ((1 <<< stepping_method) - 1)
  tbman_ladder_loop max_block_size (max_block_size + 1) min_block_size min_block_size size_mask

/-- `struct tbman_s` (tbman.cpp:517-528).  The mutex is not part of the data
    model (see `tbman_entry_point_locks` below for the locking discipline);
    `next_addr` is the platform-allocator counter described in the header of
    this file. -/
structure tbman_s where
  data : List block_manager_s
  pool_size : Nat
  min_block_size : Nat
  max_block_size : Nat
  aligned : Bool
  block_size_array : List Nat
  internal_btree : List Nat
  external_btree : List (Nat × Nat)
  next_addr : Nat
deriving Repr, DecidableEq, Inhabited

/-- `tbman_s_init` (tbman.cpp:532-583): build one block manager per generated
    block size (the geometric growth of the manager array is dropped; the
    resulting vector is the same), copy the block sizes into
    `block_size_array`, and compute `aligned` as the conjunction of the
    children's flags (trivially true here since fresh block managers hold no
    pools).  `none` models the non-terminating mask loop. -/
def tbman_s_init (pool_size min_block_size max_block_size stepping_method : Nat)
    (full_align : Bool) : Option tbman_s := do
  let sizes ← tbman_block_sizes min_block_size max_block_size stepping_method
  let bms := sizes.map fun b => block_manager_s_create pool_size b full_align
  pure
    { data := bms
      pool_size := pool_size
      min_block_size := min_block_size
      max_block_size := max_block_size
      aligned := bms.foldl (fun a bm => a && bm.aligned) true
      block_size_array := bms.map block_manager_s.block_size
      internal_btree := []
      external_btree := []
      next_addr := TBMAN_ALIGN }

/-- The linear scan for the first size class whose block size is at least
    `requested_size` (tbman.cpp:661-666, repeated at tbman.cpp:721-726). -/
def tbman_find_class : List Nat → Nat → Option Nat
  | [], _ => none
  | b :: rest, requested_size =>
    if requested_size ≤ b then some 0
    else (tbman_find_class rest requested_size).map (· + 1)

/-- Slot of the token manager with pool base address `base` inside one block
    manager's vector. -/
def tm_slot_of_base (l : List token_manager_s) (base : Nat) : Option Nat :=
  l.findIdx? fun tm => tm.base == base

/-- Dereferencing a pool header address: locate the token manager whose header
    lies at address `base`.  The code casts the address to `token_manager_s*`;
    in the model the manager state owns every pool, so the cast becomes a
    lookup of the unique token manager with that base address, returning the
    owning class index and the slot inside it. -/
def tbman_find_token_manager (o : tbman_s) (base : Nat) : Option (Nat × Nat) :=
  (o.data.findIdx? fun bm => (tm_slot_of_base bm.data base).isSome).bind fun bi =>
    (tm_slot_of_base (o.data.getD bi default).data base).map fun ti => (bi, ti)

/-- `tbman_s_mem_alloc` (tbman.cpp:659-680): scan `block_size_array` for the
    first fitting class and delegate to its block manager, granting that
    class's block size; when no class fits, take the allocation from the
    platform (`_aligned_malloc(TBMAN_ALIGN, requested_size)`), register
    `ptr -> requested_size` in the external tree and grant `requested_size`.
    Returns (new state, pointer, granted size). -/
def tbman_s_mem_alloc (header_size : Nat) (o : tbman_s) (requested_size : Nat) :
    Option (tbman_s × Nat × Nat) :=
  match tbman_find_class o.block_size_array requested_size with
  | some i => do
    let bm := o.data.getD i default
    let (bm, internal_btree, ptr, lost, next_addr) ←
      block_manager_s_alloc header_size bm o.internal_btree o.next_addr
    pure ({ o with data := o.data.set i bm, internal_btree := internal_btree,
                   next_addr := next_addr,
                   aligned := if lost then false else o.aligned },
          ptr, bm.block_size)
  | none => do
    let (ptr, next_addr) := platform_aligned_alloc o.next_addr TBMAN_ALIGN requested_size
    let external_btree ← btree_ps_s_set o.external_btree ptr requested_size
    pure ({ o with external_btree := external_btree, next_addr := next_addr },
          ptr, requested_size)

/-- Free one internal block: `token_manager_s_free` on the token manager whose
    header lies at `base`, together with the callbacks it posts (the code
    calls the function directly on the pool header pointer,
    tbman.cpp:687,691). -/
def tbman_s_free_internal (o : tbman_s) (base ptr : Nat) : Option tbman_s := do
  let (bi, ti) ← tbman_find_token_manager o base
  let bm := o.data.getD bi default
  let (bm, internal_btree, _) ← block_manager_s_child_free bm o.internal_btree ti ptr
  pure { o with data := o.data.set bi bm, internal_btree := internal_btree }

/-- Owner determination shared by `tbman_s_mem_free` and `tbman_s_mem_realloc`
    (tbman.cpp:685-690 and 704-710): the aligned fast path masks the pointer
    down to the pool base (`ptr & ~(pool_size - 1)`, written here as
    `ptr - ptr % pool_size`, which is the same number for a power-of-two pool
    size); it is taken iff a size hint is present, the hint is at most
    `max_block_size`, and the manager is `aligned`.  Otherwise the
    pool-address tree is queried for the largest base `≤ ptr`, which owns the
    pointer iff `ptr - base < pool_size`. -/
def tbman_owner_base (o : tbman_s) (current_ptr : Nat) (current_size : Option Nat) :
    Option Nat :=
  if (match current_size with
      | some cs => decide (cs ≤ o.max_block_size) && o.aligned
      | none => false) then
    some (current_ptr - current_ptr % o.pool_size)
  else
    match btree_vd_s_largest_below_equal o.internal_btree current_ptr with
    | some block_ptr =>
      if current_ptr - block_ptr < o.pool_size then some block_ptr else none
    | none => none

/-- `tbman_s_mem_free` (tbman.cpp:684-697).  `current_size = none` models a
    NULL `current_size` pointer.  When the owner is internal the block goes
    back to its token manager; otherwise the pointer is removed from the
    external tree (a fatal error if absent) and returned to the platform. -/
def tbman_s_mem_free (o : tbman_s) (current_ptr : Nat) (current_size : Option Nat) :
    Option tbman_s :=
  match tbman_owner_base o current_ptr current_size with
  | some base => tbman_s_free_internal o base current_ptr
  | none => do
    let external_btree ← btree_ps_s_remove o.external_btree current_ptr
    pure { o with external_btree := external_btree }

/-- `tbman_s_mem_realloc` (tbman.cpp:701-774).  Owner determination as in
    `tbman_s_mem_free`.  Internal owner of block size `B0`: growing beyond
    `B0` allocates afresh (`tbman_s_mem_alloc`), copies and frees the old
    block; otherwise the smallest fitting class is determined, and when it is
    a different class the request moves there, else the block stays in place
    with `granted = B0`.  External owner: a request fitting the manager moves
    inside; an oversize request keeps the block when
    `requested < recorded ∧ requested ≥ recorded/2`, else a fresh external
    block is allocated, registered, and the old one deregistered and freed. -/
def tbman_s_mem_realloc (header_size : Nat) (o : tbman_s) (current_ptr : Nat)
    (current_size : Option Nat) (requested_size : Nat) : Option (tbman_s × Nat × Nat) :=
  match tbman_owner_base o current_ptr current_size with
  | some base => do
    let (bi, ti) ← tbman_find_token_manager o base
    let tm := (o.data.getD bi default).data.getD ti default
    if requested_size > tm.block_size then do
      let (o, reserved_ptr, granted) ← tbman_s_mem_alloc header_size o requested_size
      let o ← tbman_s_free_internal o base current_ptr
      pure (o, reserved_ptr, granted)
    else
      match tbman_find_class o.block_size_array requested_size with
      | none => none
      | some i =>
        let bm := o.data.getD i default
        if bm.block_size != tm.block_size then do
          let (bm, internal_btree, reserved_ptr, lost, next_addr) ←
            block_manager_s_alloc header_size bm o.internal_btree o.next_addr
          let o := { o with data := o.data.set i bm, internal_btree := internal_btree,
                            next_addr := next_addr,
                            aligned := if lost then false else o.aligned }
          let o ← tbman_s_free_internal o base current_ptr
          pure (o, reserved_ptr, bm.block_size)
        else
          pure (o, current_ptr, tm.block_size)
  | none =>
    if requested_size ≤ o.max_block_size then do
      let (o, reserved_ptr, granted) ← tbman_s_mem_alloc header_size o requested_size
      let external_btree ← btree_ps_s_remove o.external_btree current_ptr
      pure ({ o with external_btree := external_btree }, reserved_ptr, granted)
    else do
      let current_ext_bytes ← btree_ps_s_val o.external_btree current_ptr
      if decide (requested_size < current_ext_bytes) &&
         decide (requested_size ≥ current_ext_bytes >>> 1) then
        pure (o, current_ptr, current_ext_bytes)
      else do
        let (reserved_ptr, next_addr) :=
          platform_aligned_alloc o.next_addr TBMAN_ALIGN requested_size
        let external_btree ← btree_ps_s_set o.external_btree reserved_ptr requested_size
        let external_btree ← btree_ps_s_remove external_btree current_ptr
        pure ({ o with external_btree := external_btree, next_addr := next_addr },
              reserved_ptr, requested_size)

/-- `tbman_s_alloc` (tbman.cpp:778-795): the unified malloc / realloc / free
    entry point.  `current_ptr = 0` models NULL.  Returns (new state, returned
    pointer with `0` for NULL, granted size with `0` when freeing). -/
def tbman_s_alloc (header_size : Nat) (o : tbman_s) (current_ptr requested_size : Nat) :
    Option (tbman_s × Nat × Nat) :=
  if requested_size == 0 then
    if current_ptr != 0 then do
      let o ← tbman_s_mem_free o current_ptr none
      pure (o, 0, 0)
    else pure (o, 0, 0)
  else
    if current_ptr != 0 then
      tbman_s_mem_realloc header_size o current_ptr none requested_size
    else
      tbman_s_mem_alloc header_size o requested_size

/-- `tbman_s_nalloc` (tbman.cpp:799-817): as `tbman_s_alloc` but with a size
    hint; `current_size == 0` promises that `current_ptr` is not used for free
    or realloc. -/
def tbman_s_nalloc (header_size : Nat) (o : tbman_s)
    (current_ptr current_size requested_size : Nat) : Option (tbman_s × Nat × Nat) :=
  if requested_size == 0 then
    if current_size != 0 then do
      let o ← tbman_s_mem_free o current_ptr (some current_size)
      pure (o, 0, 0)
    else pure (o, 0, 0)
  else
    if current_size != 0 then
      tbman_s_mem_realloc header_size o current_ptr (some current_size) requested_size
    else
      tbman_s_mem_alloc header_size o requested_size

/-- The public Manager entry points named in the concurrency section of the
    specification. -/
inductive tbman_entry_point where
  | alloc : tbman_entry_point
  | nalloc : tbman_entry_point
  | granted_space : tbman_entry_point
  | total_granted_space : tbman_entry_point
  | total_instances : tbman_entry_point
  | for_each_instance : tbman_entry_point
deriving Repr, DecidableEq

/-- Whether the body of each public entry point performs its reading or
    mutating work under a `lock_guard` on the manager mutex.  Transcribed from
    the source: `tbman_s_alloc` locks at tbman.cpp:779, `tbman_s_nalloc` at
    tbman.cpp:800, `tbman_s_total_granted_space` at tbman.cpp:985,
    `tbman_s_total_instances` at tbman.cpp:1007, `tbman_s_for_each_instance`
    collects its snapshot under the guard at tbman.cpp:1045 (its instance
    count is obtained through `tbman_s_total_instances`, which locks), while
    `tbman_s_granted_space` (tbman.cpp:958-973) contains no `lock_guard` at
    all: it reads both trees without acquiring the mutex. -/
def tbman_entry_point_locks : tbman_entry_point → Bool
  | .alloc => true
  | .nalloc => true
  | .granted_space => false
  | .total_granted_space => true
  | .total_instances => true
  | .for_each_instance => true

/-- Well-formedness of one token manager's stack bookkeeping, with
    `S = stack_size` and `rb` the reserved block count: the stack holds `S`
    entries, `1 ≤ rb < S`, at most `S - rb` blocks are ever live, and every
    entry at or above `stack_index` is a token below `S` that is nonzero
    exactly when its position is below `S - rb` (so the sentinel `0` sits at
    position `S - rb` and above).  `token_manager_s_create` establishes this
    and `token_manager_s_alloc` / `token_manager_s_free` preserve it. -/
def token_manager_wf (header_size : Nat) (tm : token_manager_s) : Prop :=
  let S := tm.stack_size
  let rb := token_manager_s_reserved_blocks header_size tm.pool_size tm.block_size
  tm.token_stack.length = S ∧
  1 ≤ rb ∧ rb + 1 ≤ S ∧
  tm.stack_index ≤ S - rb ∧
  ∀ j, tm.stack_index ≤ j → j < S →
    (tm.token_stack.getD j 0 ≠ 0 ↔ j < S - rb) ∧ tm.token_stack.getD j 0 < S

/-- The inductive invariant of a block manager: `free_index` is within range,
    every slot knows its own position (`parent_index`), every held token
    manager is well formed, the slots below `free_index` are exactly the full
    ones, and the empty managers occupy a contiguous tail of the vector. -/
def block_manager_inv (header_size : Nat) (o : block_manager_s) : Prop :=
  o.free_index ≤ o.data.length ∧
  (∀ k, k < o.data.length → (o.data.getD k default).parent_index = k) ∧
  (∀ tm, tm ∈ o.data → token_manager_wf header_size tm) ∧
  (∀ k, k < o.free_index → token_manager_s_is_full (o.data.getD k default) = true) ∧
  (∀ k, o.free_index ≤ k → k < o.data.length →
    token_manager_s_is_full (o.data.getD k default) = false) ∧
  (∀ j k, j ≤ k → k < o.data.length →
    token_manager_s_is_empty (o.data.getD j default) = true →
    token_manager_s_is_empty (o.data.getD k default) = true)

/-- Block-manager states (paired with the pool-address tree they register
    into) reachable from a fresh manager by its operations: alloc requests
    (tbman.cpp:344-371, with the platform allocator free to be in any state)
    and free requests for a live, non-reserved block of one of its pools
    (`token_manager_s_free` together with the `full_to_free` /
    `free_to_empty` callbacks it posts, tbman.cpp:196-215). -/
inductive block_manager_reachable (header_size pool_size block_size : Nat) (align : Bool) :
    block_manager_s → List Nat → Prop
  | init : block_manager_reachable header_size pool_size block_size align
      (block_manager_s_create pool_size block_size align) []
  | alloc (o : block_manager_s) (btree : List Nat) (next_addr : Nat)
      (o' : block_manager_s) (btree' : List Nat) (ptr : Nat) (lost : Bool) (next' : Nat) :
      block_manager_reachable header_size pool_size block_size align o btree →
      block_manager_s_alloc header_size o btree next_addr = some (o', btree', ptr, lost, next') →
      block_manager_reachable header_size pool_size block_size align o' btree'
  | free (o : block_manager_s) (btree : List Nat) (slot ptr : Nat)
      (o' : block_manager_s) (btree' : List Nat) (removed : List token_manager_s) :
      block_manager_reachable header_size pool_size block_size align o btree →
      slot < o.data.length →
      1 ≤ (o.data.getD slot default).stack_index →
      token_manager_s_reserved_blocks header_size
          (o.data.getD slot default).pool_size (o.data.getD slot default).block_size ≤
        (ptr - (o.data.getD slot default).base) / (o.data.getD slot default).block_size →
      (ptr - (o.data.getD slot default).base) / (o.data.getD slot default).block_size <
        (o.data.getD slot default).stack_size →
      block_manager_s_child_free o btree slot ptr = some (o', btree', removed) →
      block_manager_reachable header_size pool_size block_size align o' btree'

/-- Manager states reachable through the public entry points: construction
    with any configuration the initialisation accepts, followed by any
    sequence of `tbman_s_alloc` / `tbman_s_nalloc` calls that do not hit a
    fatal error. -/
inductive tbman_reachable (header_size : Nat) : tbman_s → Prop
  | init (pool_size min_block_size max_block_size stepping_method : Nat) (full_align : Bool)
      (s : tbman_s) :
      tbman_s_init pool_size min_block_size max_block_size stepping_method full_align = some s →
      tbman_reachable header_size s
  | alloc (s : tbman_s) (current_ptr requested_size : Nat) (s' : tbman_s) (p g : Nat) :
      tbman_reachable header_size s →
      tbman_s_alloc header_size s current_ptr requested_size = some (s', p, g) →
      tbman_reachable header_size s'
  | nalloc (s : tbman_s) (current_ptr current_size requested_size : Nat)
      (s' : tbman_s) (p g : Nat) :
      tbman_reachable header_size s →
      tbman_s_nalloc header_size s current_ptr current_size requested_size = some (s', p, g) →
      tbman_reachable header_size s'

/-- The sweep condition of `block_manager_s_free_to_empty` for a given free
    report, evaluated exactly as the code does at tbman.cpp:420: the local
    `empty_tail` value after the optional swap into the trailing empty region,
    compared against `(size - empty_tail) * sweep_hysteresis` with the default
    hysteresis `0.125` in exact arithmetic. -/
def block_manager_s_sweep_fires (o : block_manager_s) (child_slot : Nat) : Bool :=
  let empty_tail := (block_manager_s_f2e_phase o child_slot).2
  8 * empty_tail > o.data.length - empty_tail

/-- Concrete token manager used by witness theorems: a pool of 512 bytes with
    64-byte blocks at address 256 (so `stack_size = 8`, one reserved block,
    `token_stack = [1,2,3,4,5,6,7,0]`), after one allocation. -/
def example_tm : token_manager_s :=
  (token_manager_s_alloc ((token_manager_s_create 48 512 64 256).getD default)).1

/-- The manager built by `tbman_s_init` with the default configuration
    (tbman.cpp:40-44): `pool_size 0x10000`, block sizes 8 to 16384, stepping
    method 1, full alignment. -/
def tbman_default_state : tbman_s :=
  (tbman_s_init 65536 8 16384 1 true).getD default

/-- Soundness of one block manager's alignment bookkeeping: when its `aligned`
    flag still stands, every pool it currently holds is pool-size aligned.
    (The converse is not claimed: the code never raises the flag back, see the
    claim C8 theorems.) -/
def block_manager_aligned_ok (bm : block_manager_s) : Prop :=
  bm.aligned = true → ∀ tm ∈ bm.data, tm.aligned = true

/-- Soundness of the whole manager's alignment bookkeeping: a standing manager
    flag vouches for all block manager flags, and each standing block manager
    flag vouches for its pools. -/
def tbman_aligned_ok (s : tbman_s) : Prop :=
  (s.aligned = true → ∀ bm ∈ s.data, bm.aligned = true) ∧
  ∀ bm ∈ s.data, block_manager_aligned_ok bm

/-- Structural bookkeeping facts of one block manager that hold in every state
    the public entry points can produce, even for free requests on pointers
    that were never handed out (the C code does not guard against those):
    `free_index` never exceeds the vector length, every held pool records its
    own slot in `parent_index`, and every pool below `free_index` is non-empty
    and reports full.  (The converse of the last point - non-full pools only
    at or above `free_index` - holds only for well-formed frees and is part of
    the claim C3 invariant, not of this one.) -/
def block_manager_struct_ok (bm : block_manager_s) : Prop :=
  bm.free_index ≤ bm.data.length ∧
  (∀ k, k < bm.data.length → (bm.data.getD k default).parent_index = k) ∧
  (∀ k, k < bm.free_index → token_manager_s_is_empty (bm.data.getD k default) = false) ∧
  (∀ k, k < bm.free_index → token_manager_s_is_full (bm.data.getD k default) = true)

/-- The combined invariant carried through the claim C8 induction. -/
def tbman_C8_inv (s : tbman_s) : Prop :=
  tbman_aligned_ok s ∧ ∀ bm ∈ s.data, block_manager_struct_ok bm

/-- A small manager configuration (`pool_size 4096`, classes 8 to 1024,
    stepping 1, full alignment) used by the claim C1 theorems; its pools have
    at most 512 tokens, which keeps the concrete evaluations shallow. -/
def tbman_small_state : tbman_s :=
  (tbman_s_init 4096 8 1024 1 true).getD default

/-- Decidable per-class facts about the first allocation from the small
    manager configuration, used by the claim C1 theorems: allocating from the
    fresh class `i` succeeds, returns a nonzero pointer inside the single new
    pool at address 4096, registers exactly that pool, and grants the class
    block size; all other classes stay poolless.  (`n` does not appear: the
    internal path of `tbman_s_mem_alloc` uses the request size only to select
    the class.) -/
def tbman_C1_class_ok (i : Nat) : Bool :=
  match block_manager_s_alloc 48 (tbman_small_state.data.getD i default)
      tbman_small_state.internal_btree tbman_small_state.next_addr with
  | none => false
  | some (bm1, ib1, p1, _, _) =>
    (p1 != 0) && (ib1 == [4096]) && decide (4096 ≤ p1) && decide (p1 - 4096 < 4096) &&
    (tm_slot_of_base bm1.data 4096 == some 0) &&
    ((bm1.data.getD 0 default).block_size == bm1.block_size) &&
    (bm1.block_size == tbman_small_state.block_size_array.getD i 0) &&
    ((List.range 8).all fun j => (j == i) ||
      (tm_slot_of_base (tbman_small_state.data.getD j default).data 4096).isNone)

/-! Helper lemmas about list access. -/

theorem list_getD_set_self {l : List Nat} {i a : Nat} (h : i < l.length) :
    (l.set i a).getD i 0 = a := by
  simp [List.getD_eq_getElem?_getD, List.getElem?_set_self, List.getElem?_eq_getElem, h]

theorem list_getD_set_ne {l : List Nat} {i j a : Nat} (h : i ≠ j) :
    (l.set i a).getD j 0 = l.getD j 0 := by
  simp [List.getD_eq_getElem?_getD, List.getElem?_set_ne h]

/-- Inversion of a successful `token_manager_s_create`: the three checks
    passed and the result is the literal fresh header. -/
theorem token_manager_s_create_some {header_size pool_size block_size base : Nat}
    {o : token_manager_s}
    (h : token_manager_s_create header_size pool_size block_size base = some o) :
    pool_size &&& (pool_size - 1) = 0 ∧
    pool_size / block_size ≤ 0x10000 ∧
    token_manager_s_reserved_blocks header_size pool_size block_size + 1 ≤
      pool_size / block_size ∧
    o = { base := base, pool_size := pool_size, block_size := block_size,
          stack_size := pool_size / block_size, stack_index := 0,
          aligned := base &&& (pool_size - 1) == 0, parent_index := 0,
          token_stack := (List.range (pool_size / block_size)).map fun i =>
            if i + token_manager_s_reserved_blocks header_size pool_size block_size <
               pool_size / block_size
            then i + token_manager_s_reserved_blocks header_size pool_size block_size
            else 0 } := by
  unfold token_manager_s_create at h
  split at h
  next hc1 => exact absurd h (by simp)
  next hc1 =>
    dsimp only at h
    split at h
    next hc2 => exact absurd h (by simp)
    next hc2 =>
      split at h
      next hc3 => exact absurd h (by simp)
      next hc3 =>
        exact ⟨by simpa using hc1, by omega, by omega, (Option.some.inj h).symm⟩

/-- The reserved block count is positive as soon as the stack is nonempty
    (the reserved region holds at least the header). -/
theorem token_manager_s_reserved_blocks_pos (header_size pool_size block_size : Nat)
    (h : 1 ≤ pool_size / block_size) :
    1 ≤ token_manager_s_reserved_blocks header_size pool_size block_size := by
  unfold token_manager_s_reserved_blocks
  dsimp only
  by_cases hmod : (header_size + 2 * (pool_size / block_size)) % block_size > 0
  · rw [if_pos hmod]
    exact Nat.le_add_left 1 _
  · rw [if_neg hmod]
    have hmod0 : (header_size + 2 * (pool_size / block_size)) % block_size = 0 :=
      Nat.eq_zero_of_not_pos hmod
    have hd := Nat.div_add_mod (header_size + 2 * (pool_size / block_size)) block_size
    rw [hmod0, Nat.add_zero] at hd
    rcases Nat.eq_zero_or_pos ((header_size + 2 * (pool_size / block_size)) / block_size)
      with h0 | hpos
    · rw [h0, Nat.mul_zero] at hd
      omega
    · omega

/-- Iterated allocation leaves the token stack unchanged and advances
    `stack_index` by the number of allocations. -/
theorem token_manager_s_alloc_iter_state (k : Nat) (o : token_manager_s) :
    (token_manager_s_alloc_iter k o).token_stack = o.token_stack ∧
    (token_manager_s_alloc_iter k o).stack_index = o.stack_index + k := by
  induction k generalizing o with
  | zero => simp [token_manager_s_alloc_iter]
  | succ n ih =>
    have h := ih (token_manager_s_alloc o).1
    constructor
    · rw [token_manager_s_alloc_iter, h.1]
      rfl
    · rw [token_manager_s_alloc_iter, h.2]
      show o.stack_index + 1 + n = o.stack_index + (n + 1)
      omega

theorem range_map_getD (S k : Nat) (f : Nat → Nat) (hk : k < S) :
    ((List.range S).map f).getD k 0 = f k := by
  simp [List.getD_eq_getElem?_getD, List.getElem?_map, List.getElem?_range, hk]

/-- C5: a freshly created token manager with stack size `S` and reserved block
    count `rb = ceil((sizeof(header) + 2*S)/B)` has `token_stack[k] = k + rb`
    for `k + rb < S` and `0` otherwise; consequently the fresh manager (with
    `stack_index = 0`) is not full, and during successive allocations
    `is_full()` first becomes true after exactly `S - rb` of them. -/
theorem claim_C5_fresh_stack (header_size pool_size block_size base : Nat)
    (o : token_manager_s)
    (h : token_manager_s_create header_size pool_size block_size base = some o) :
    (∀ k, k < o.stack_size →
      o.token_stack.getD k 0 =
        if k + token_manager_s_reserved_blocks header_size pool_size block_size < o.stack_size
        then k + token_manager_s_reserved_blocks header_size pool_size block_size
        else 0) ∧
    token_manager_s_is_full o = false ∧
    (∀ k, k ≤ o.stack_size - token_manager_s_reserved_blocks header_size pool_size block_size →
      token_manager_s_is_full (token_manager_s_alloc_iter k o) =
        decide (k = o.stack_size -
          token_manager_s_reserved_blocks header_size pool_size block_size)) := by
  obtain ⟨hc1, hc2, hc3, ho⟩ := token_manager_s_create_some h
  subst ho
  dsimp only
  set S := pool_size / block_size with hS
  set rb := token_manager_s_reserved_blocks header_size pool_size block_size with hrb
  have hrb1 : 1 ≤ rb := token_manager_s_reserved_blocks_pos header_size pool_size block_size
    (by omega)
  have hstack : ∀ k, k < S →
      (((List.range S).map fun i => if i + rb < S then i + rb else 0).getD k 0) =
      if k + rb < S then k + rb else 0 := fun k hk => range_map_getD S k _ hk
  refine ⟨fun k hk => hstack k hk, ?_, ?_⟩
  · unfold token_manager_s_is_full
    dsimp only
    rw [hstack 0 (by omega), if_pos (by omega)]
    have hne : 0 + rb ≠ 0 := by omega
    simpa using hne
  · intro k hk
    obtain ⟨hts, hsi⟩ := token_manager_s_alloc_iter_state k
      { base := base, pool_size := pool_size, block_size := block_size,
        stack_size := S, stack_index := 0,
        aligned := base &&& (pool_size - 1) == 0, parent_index := 0,
        token_stack := (List.range S).map fun i => if i + rb < S then i + rb else 0 }
    unfold token_manager_s_is_full
    rw [hts, hsi]
    dsimp only
    rw [Nat.zero_add, hstack k (by omega)]
    rcases Nat.lt_or_ge k (S - rb) with hlt | hge
    · have h1 : k + rb ≠ 0 := by omega
      have h2 : ¬(k = S - rb) := by omega
      rw [if_pos (by omega)]
      simp [h1, h2]
    · have hkeq : k = S - rb := by omega
      rw [if_neg (by omega)]
      simp [hkeq]

/-- C5 witness: the concrete example pool (512-byte pool, 64-byte blocks) is
    freshly created not-full. -/
theorem claim_C5_fresh_stack_witness :
    token_manager_s_is_full ((token_manager_s_create 48 512 64 256).getD default) = false := by
  have h := claim_C5_fresh_stack 48 512 64 256
    ((token_manager_s_create 48 512 64 256).getD default) (by decide)
  exact h.2.1

/-- C2: freeing a live block decrements `stack_index` and writes the derived
    token `(ptr - base) / block_size` at the new position, preceded by a
    full-to-free notification to the parent exactly when the manager was full
    (`token_stack[stack_index] == 0`) before the decrement, and followed by a
    free-to-empty notification exactly when the decremented index is `0` -
    in that order. -/
theorem claim_C2_free_order (o : token_manager_s) (ptr : Nat)
    (hlive : 1 ≤ o.stack_index) :
    token_manager_s_free o ptr =
      ({ o with
           stack_index := o.stack_index - 1,
           token_stack := o.token_stack.set (o.stack_index - 1)
             ((ptr - o.base) / o.block_size) },
       (if token_manager_s_is_full o = true then [free_step.notify_full_to_free] else []) ++
         [free_step.pop_write (o.stack_index - 1) ((ptr - o.base) / o.block_size)] ++
         (if o.stack_index - 1 = 0 then [free_step.notify_free_to_empty] else [])) := by
  unfold token_manager_s_free token_manager_s_is_full
  simp

/-- C2 witness: the trace and state update of a free on the concrete example
    pool with one live block. -/
theorem claim_C2_free_order_witness :
    token_manager_s_free example_tm 384 =
      ({ example_tm with
           stack_index := example_tm.stack_index - 1,
           token_stack := example_tm.token_stack.set (example_tm.stack_index - 1)
             ((384 - example_tm.base) / example_tm.block_size) },
       (if token_manager_s_is_full example_tm = true then [free_step.notify_full_to_free]
        else []) ++
         [free_step.pop_write (example_tm.stack_index - 1)
           ((384 - example_tm.base) / example_tm.block_size)] ++
         (if example_tm.stack_index - 1 = 0 then [free_step.notify_free_to_empty] else [])) :=
  claim_C2_free_order example_tm 384 (by decide)

/-- C10: for a live block `ptr = base + t * block_size` of a token manager,
    `free(ptr)` immediately followed by `alloc()` hands back exactly `ptr`
    (and the free leaves the manager non-full, so the alloc is permitted). -/
theorem claim_C10_lifo (o : token_manager_s) (t ptr : Nat)
    (hptr : ptr = o.base + t * o.block_size)
    (hB : 1 ≤ o.block_size)
    (ht : 1 ≤ t)
    (hlive : 1 ≤ o.stack_index)
    (hlen : o.stack_index ≤ o.token_stack.length) :
    token_manager_s_is_full (token_manager_s_free o ptr).1 = false ∧
    (token_manager_s_alloc (token_manager_s_free o ptr).1).2 = ptr := by
  subst hptr
  have htok : (o.base + t * o.block_size - o.base) / o.block_size = t := by
    rw [Nat.add_sub_cancel_left, Nat.mul_div_cancel t (by omega)]
  have hset : ((token_manager_s_free o (o.base + t * o.block_size)).1).token_stack.getD
      (o.stack_index - 1) 0 = t := by
    unfold token_manager_s_free
    dsimp only
    rw [htok]
    exact list_getD_set_self (by omega)
  have hidx : ((token_manager_s_free o (o.base + t * o.block_size)).1).stack_index =
      o.stack_index - 1 := by
    unfold token_manager_s_free
    rfl
  constructor
  · unfold token_manager_s_is_full
    rw [hidx, hset]
    simp
    omega
  · unfold token_manager_s_alloc
    dsimp only
    rw [hidx, hset]
    unfold token_manager_s_free
    rfl

/-- C10 witness: freeing block 2 of the concrete example pool and allocating
    again returns address 384. -/
theorem claim_C10_lifo_witness :
    token_manager_s_is_full (token_manager_s_free example_tm 384).1 = false ∧
    (token_manager_s_alloc (token_manager_s_free example_tm 384).1).2 = 384 :=
  claim_C10_lifo example_tm 2 384 (by decide) (by decide) (by decide) (by decide) (by decide)

theorem list_getD_set_self' {α : Type _} {l : List α} {i : Nat} {a d : α}
    (h : i < l.length) : (l.set i a).getD i d = a := by
  simp [List.getD_eq_getElem?_getD, List.getElem?_set_self, List.getElem?_eq_getElem, h]

theorem list_getD_set_ne' {α : Type _} {l : List α} {i j : Nat} {a d : α}
    (h : i ≠ j) : (l.set i a).getD j d = l.getD j d := by
  simp [List.getD_eq_getElem?_getD, List.getElem?_set_ne h]

theorem list_getD_reverse {α : Type _} {l : List α} {i : Nat} {d : α} (h : i < l.length) :
    l.reverse.getD i d = l.getD (l.length - 1 - i) d := by
  simp [List.getD_eq_getElem?_getD, List.getElem?_reverse h]

/-- Characterisation of the length of a `takeWhile` run: every element of the
    run satisfies the predicate and the first element after it (when any)
    does not. -/
theorem list_takeWhile_length_spec {α : Type _} (p : α → Bool) (l : List α) (d : α) :
    (l.takeWhile p).length ≤ l.length ∧
    (∀ i, i < (l.takeWhile p).length → p (l.getD i d) = true) ∧
    ((l.takeWhile p).length < l.length → p (l.getD (l.takeWhile p).length d) = false) := by
  induction l with
  | nil => simp
  | cons x xs ih =>
    obtain ⟨ih1, ih2, ih3⟩ := ih
    by_cases h : p x = true
    · rw [List.takeWhile_cons, if_pos h]
      refine ⟨by simpa using ih1, ?_, ?_⟩
      · intro i hi
        cases i with
        | zero => simpa using h
        | succ m =>
          rw [List.getD_cons_succ]
          exact ih2 m (by simpa using hi)
      · intro hlt
        simp only [List.length_cons] at hlt
        rw [List.length_cons, List.getD_cons_succ]
        exact ih3 (by omega)
    · rw [List.takeWhile_cons, if_neg h]
      refine ⟨by simp, by simp, ?_⟩
      intro _
      simpa using (Bool.not_eq_true (p x)).mp h

/-- `takeWhile` after `dropWhile` finds nothing. -/
theorem list_takeWhile_dropWhile {α : Type _} (p : α → Bool) (l : List α) :
    (l.dropWhile p).takeWhile p = [] := by
  induction l with
  | nil => rfl
  | cons x xs ih =>
    by_cases h : p x = true
    · rw [List.dropWhile_cons, if_pos h]
      exact ih
    · rw [List.dropWhile_cons, if_neg h, List.takeWhile_cons, if_neg h]

/-- The empty tail of a block manager is a maximal run: all entries at or
    above `length - empty_tail` are empty and the entry just below it (when
    it exists) is not. -/
theorem block_manager_s_empty_tail_spec (o : block_manager_s) :
    block_manager_s_empty_tail o ≤ o.data.length ∧
    (∀ k, o.data.length - block_manager_s_empty_tail o ≤ k → k < o.data.length →
      token_manager_s_is_empty (o.data.getD k default) = true) ∧
    (block_manager_s_empty_tail o < o.data.length →
      token_manager_s_is_empty
        (o.data.getD (o.data.length - block_manager_s_empty_tail o - 1) default) = false) := by
  obtain ⟨h1, h2, h3⟩ :=
    list_takeWhile_length_spec token_manager_s_is_empty o.data.reverse
      (default : token_manager_s)
  rw [List.length_reverse] at h1 h3
  unfold block_manager_s_empty_tail
  set et := (o.data.reverse.takeWhile token_manager_s_is_empty).length with het
  refine ⟨h1, ?_, ?_⟩
  · intro k hk1 hk2
    have hi : o.data.length - 1 - k < et := by omega
    have := h2 (o.data.length - 1 - k) hi
    rw [list_getD_reverse (by omega)] at this
    have hkk : o.data.length - 1 - (o.data.length - 1 - k) = k := by omega
    rwa [hkk] at this
  · intro hlt
    have := h3 hlt
    rw [list_getD_reverse (by omega)] at this
    have hkk : o.data.length - 1 - et = o.data.length - et - 1 := by omega
    rwa [hkk] at this

theorem list_takeWhile_ne_nil {α : Type _} (p : α → Bool) (l : List α) (d : α)
    (hl : 0 < l.length) (hp : p (l.getD 0 d) = true) : l.takeWhile p ≠ [] := by
  cases l with
  | nil => simp at hl
  | cons x xs =>
    rw [List.getD_cons_zero] at hp
    rw [List.takeWhile_cons, if_pos hp]
    simp

/-- Record updates that only change `parent_index` do not affect emptiness. -/
theorem is_empty_parent_index (tm : token_manager_s) (k : Nat) :
    token_manager_s_is_empty { tm with parent_index := k } = token_manager_s_is_empty tm := rfl

/-- After the swap phase of a free-to-empty report for an empty child of a
    block manager whose slots know their positions, the vector length is
    unchanged and the last slot holds an empty token manager. -/
theorem block_manager_s_f2e_phase_spec (o : block_manager_s) (child_slot : Nat)
    (hslot : child_slot < o.data.length)
    (hempty : token_manager_s_is_empty (o.data.getD child_slot default) = true)
    (hpi : ∀ k, k < o.data.length → (o.data.getD k default).parent_index = k) :
    (block_manager_s_f2e_phase o child_slot).1.data.length = o.data.length ∧
    token_manager_s_is_empty
      ((block_manager_s_f2e_phase o child_slot).1.data.getD
        (o.data.length - 1) default) = true := by
  obtain ⟨het1, het2, het3⟩ := block_manager_s_empty_tail_spec o
  have hci : (o.data.getD child_slot default).parent_index = child_slot := hpi _ hslot
  unfold block_manager_s_f2e_phase
  dsimp only
  rw [hci]
  set n := o.data.length with hn
  set et := block_manager_s_empty_tail o with het
  by_cases hc1 : et < n
  · by_cases hc2 : child_slot < n - et - 1
    · rw [if_pos hc1, if_pos hc2]
      dsimp only
      refine ⟨by simp [List.length_set], ?_⟩
      by_cases het0 : et = 0
      · have hsw : n - et - 1 = n - 1 := by omega
        rw [hsw, list_getD_set_self' (by rw [List.length_set]; omega)]
        simpa [token_manager_s_is_empty] using hempty
      · rw [list_getD_set_ne' (by omega), list_getD_set_ne' (by omega)]
        exact het2 (n - 1) (by omega) (by omega)
    · rw [if_pos hc1, if_neg hc2]
      dsimp only
      refine ⟨rfl, ?_⟩
      by_cases het0 : et = 0
      · exfalso
        have h3 := het3 hc1
        have hidx : n - et - 1 = child_slot := by omega
        rw [hidx, hempty] at h3
        exact absurd h3 (by simp)
      · exact het2 (n - 1) (by omega) (by omega)
  · rw [if_neg hc1]
    dsimp only
    refine ⟨rfl, ?_⟩
    exact het2 (n - 1) (by omega) (by omega)

/-- C7: in a free-to-empty report for an empty child of a well-formed block
    manager (slots know their positions, empties form a contiguous tail), the
    trailing empty managers are destroyed if and only if the sweep condition
    `empty_tail > (size - empty_tail) * sweep_hysteresis` (default hysteresis
    `0.125`) holds for the local `empty_tail` value; when it fires, every
    trailing empty token manager is removed (the empty tail of the result is
    zero) and each removed pool base is deregistered from the pool-address
    tree; when it does not fire, no token manager is destroyed and the tree
    is unchanged. -/
theorem claim_C7_sweep (o : block_manager_s) (btree : List Nat) (child_slot : Nat)
    (o' : block_manager_s) (btree' : List Nat) (removed : List token_manager_s)
    (hslot : child_slot < o.data.length)
    (hempty : token_manager_s_is_empty (o.data.getD child_slot default) = true)
    (hpi : ∀ k, k < o.data.length → (o.data.getD k default).parent_index = k)
    (htail : ∀ j k, j ≤ k → k < o.data.length →
      token_manager_s_is_empty (o.data.getD j default) = true →
      token_manager_s_is_empty (o.data.getD k default) = true)
    (hrun : block_manager_s_free_to_empty o btree child_slot = some (o', btree', removed)) :
    (block_manager_s_sweep_fires o child_slot = true ↔ removed ≠ []) ∧
    (∀ tm ∈ removed, token_manager_s_is_empty tm = true) ∧
    (block_manager_s_sweep_fires o child_slot = true →
      block_manager_s_empty_tail o' = 0 ∧
      removed.foldlM (fun t tm => btree_vd_s_remove t tm.base) btree = some btree' ∧
      o'.data.length + removed.length = o.data.length) ∧
    (block_manager_s_sweep_fires o child_slot = false →
      removed = [] ∧ btree' = btree ∧ o'.data.length = o.data.length) := by
  obtain ⟨hlen1, hlast⟩ := block_manager_s_f2e_phase_spec o child_slot hslot hempty hpi
  unfold block_manager_s_free_to_empty at hrun
  unfold block_manager_s_sweep_fires
  rcases hph : block_manager_s_f2e_phase o child_slot with ⟨o1, et1⟩
  rw [hph] at hrun hlen1 hlast
  dsimp only at hrun hlen1 hlast ⊢
  rw [hlen1] at hrun
  by_cases hfire : 8 * et1 > o.data.length - et1
  · rw [if_pos hfire] at hrun
    rcases hf : List.foldlM (fun t tm => btree_vd_s_remove t tm.base) btree
        (List.takeWhile token_manager_s_is_empty o1.data.reverse) with _ | b
    · rw [hf] at hrun
      simp at hrun
    · rw [hf] at hrun
      simp only [Option.bind_eq_bind, Option.some_bind, Option.some.injEq, Prod.mk.injEq] at hrun
      obtain ⟨ho', hb, hrem⟩ := hrun
      have hne : List.takeWhile token_manager_s_is_empty o1.data.reverse ≠ [] := by
        apply list_takeWhile_ne_nil _ _ (default : token_manager_s)
        · rw [List.length_reverse, hlen1]
          omega
        · have h0 : (0 : Nat) < o1.data.length := by rw [hlen1]; omega
          rw [list_getD_reverse h0, hlen1]
          simpa using hlast
      refine ⟨⟨fun _ => hne, fun _ => decide_eq_true hfire⟩, ?_, ?_, ?_⟩
      · intro tm htm
        exact List.mem_takeWhile_imp htm
      · intro _
        refine ⟨?_, hf, ?_⟩
        · unfold block_manager_s_empty_tail
          dsimp only
          rw [List.reverse_reverse, list_takeWhile_dropWhile]
          rfl
        · dsimp only
          have hsplit := congrArg List.length
            (List.takeWhile_append_dropWhile token_manager_s_is_empty o1.data.reverse)
          rw [List.length_append, List.length_reverse] at hsplit
          rw [List.length_reverse]
          omega
      · intro hfalse
        rw [decide_eq_true hfire] at hfalse
        exact Bool.noConfusion hfalse
  · rw [if_neg hfire] at hrun
    simp only [Option.pure_def, Option.some.injEq, Prod.mk.injEq] at hrun
    obtain ⟨ho', hb, hrem⟩ := hrun
    refine ⟨⟨?_, ?_⟩, ?_, ?_, ?_⟩
    · intro ht
      exact absurd (of_decide_eq_true ht) hfire
    · intro hne
      exact absurd hrem.symm hne
    · intro tm htm
      rw [← hrem] at htm
      exact absurd htm (List.not_mem_nil tm)
    · intro ht
      exact absurd (of_decide_eq_true ht) hfire
    · intro _
      exact ⟨hrem.symm, hb.symm, by rw [← ho']; exact hlen1⟩

/-- C7 witness: a block manager holding exactly one (empty) pool sweeps it on
    the free-to-empty report, leaving no trailing empties. -/
theorem claim_C7_sweep_witness :
    block_manager_s_empty_tail
      { pool_size := 512, block_size := 64, align := false,
        data := ([] : List token_manager_s), free_index := 0, aligned := false } = 0 := by
  have h := claim_C7_sweep
    { pool_size := 512, block_size := 64, align := false,
      data := [(token_manager_s_create 48 512 64 256).getD default], free_index := 0,
      aligned := false }
    [256] 0
    { pool_size := 512, block_size := 64, align := false,
      data := ([] : List token_manager_s), free_index := 0, aligned := false }
    [] [(token_manager_s_create 48 512 64 256).getD default]
    (by decide) (by decide)
    (by
      intro k hk
      have hk0 : k = 0 := by
        simp only [List.length_singleton] at hk
        omega
      rw [hk0]
      decide)
    (by
      intro j k hjk hk he
      have hk0 : k = 0 := by
        simp only [List.length_singleton] at hk
        omega
      have hj0 : j = 0 := by omega
      rw [hk0]
      rw [hj0] at he
      exact he)
    (by decide)
  exact (h.2.2.1 (by decide)).1

/-- A successful create yields a well-formed token manager. -/
theorem token_manager_wf_create {header_size pool_size block_size base : Nat}
    {o : token_manager_s}
    (h : token_manager_s_create header_size pool_size block_size base = some o) :
    token_manager_wf header_size o := by
  obtain ⟨hc1, hc2, hc3, ho⟩ := token_manager_s_create_some h
  subst ho
  unfold token_manager_wf
  dsimp only
  set S := pool_size / block_size with hS
  set rb := token_manager_s_reserved_blocks header_size pool_size block_size with hrb
  have hrb1 : 1 ≤ rb := token_manager_s_reserved_blocks_pos header_size pool_size block_size
    (by omega)
  refine ⟨by simp, hrb1, hc3, by omega, ?_⟩
  intro j _ hj
  rw [range_map_getD S j _ hj]
  by_cases hcase : j + rb < S
  · rw [if_pos hcase]
    exact ⟨by constructor <;> omega, by omega⟩
  · rw [if_neg hcase]
    exact ⟨by constructor <;> omega, by omega⟩

/-- Changing only `parent_index` preserves well-formedness. -/
theorem token_manager_wf_parent_index {header_size : Nat} {tm : token_manager_s} (k : Nat)
    (h : token_manager_wf header_size tm) :
    token_manager_wf header_size { tm with parent_index := k } := h

/-- Under well-formedness, fullness means the stack index has reached its
    maximum `S - rb`. -/
theorem token_manager_wf_is_full_iff {header_size : Nat} {tm : token_manager_s}
    (h : token_manager_wf header_size tm) :
    (token_manager_s_is_full tm = true ↔
      tm.stack_index = tm.stack_size -
        token_manager_s_reserved_blocks header_size tm.pool_size tm.block_size) := by
  obtain ⟨hlen, hrb1, hrbS, hidx, hrange⟩ := h
  have hx := hrange tm.stack_index (Nat.le_refl _) (by omega)
  unfold token_manager_s_is_full
  constructor
  · intro hf
    have h0 : tm.token_stack.getD tm.stack_index 0 = 0 := by simpa using hf
    by_contra hne
    exact absurd h0 (hx.1.mpr (by omega))
  · intro he
    have h0 : tm.token_stack.getD tm.stack_index 0 = 0 := by
      by_contra hne
      have := hx.1.mp hne
      omega
    simpa using h0

/-- Under well-formedness, a full manager is not empty. -/
theorem token_manager_wf_full_not_empty {header_size : Nat} {tm : token_manager_s}
    (h : token_manager_wf header_size tm)
    (hf : token_manager_s_is_full tm = true) :
    token_manager_s_is_empty tm = false := by
  obtain ⟨hlen, hrb1, hrbS, hidx, hrange⟩ := h
  have := (token_manager_wf_is_full_iff ⟨hlen, hrb1, hrbS, hidx, hrange⟩).mp hf
  unfold token_manager_s_is_empty
  simp only [beq_eq_false_iff_ne, ne_eq]
  omega

/-- Allocation from a non-full well-formed manager preserves well-formedness;
    only `stack_index` changes. -/
theorem token_manager_wf_alloc {header_size : Nat} {tm : token_manager_s}
    (h : token_manager_wf header_size tm)
    (hnf : token_manager_s_is_full tm = false) :
    token_manager_wf header_size (token_manager_s_alloc tm).1 := by
  obtain ⟨hlen, hrb1, hrbS, hidx, hrange⟩ := h
  have hlt : tm.stack_index < tm.stack_size -
      token_manager_s_reserved_blocks header_size tm.pool_size tm.block_size := by
    have hiff := token_manager_wf_is_full_iff ⟨hlen, hrb1, hrbS, hidx, hrange⟩
    rcases Nat.lt_or_ge tm.stack_index (tm.stack_size -
        token_manager_s_reserved_blocks header_size tm.pool_size tm.block_size) with hc | hc
    · exact hc
    · exact absurd (hiff.mpr (by omega)) (by rw [hnf]; simp)
  unfold token_manager_s_alloc
  unfold token_manager_wf
  dsimp only
  refine ⟨hlen, hrb1, hrbS, by omega, ?_⟩
  intro j hj1 hj2
  exact hrange j (by omega) hj2

/-- The stack write performed by a free of a valid non-reserved token
    preserves well-formedness; the result is not full, and it is empty exactly
    when the decremented index is zero. -/
theorem token_manager_wf_free {header_size : Nat} {tm : token_manager_s} {ptr : Nat}
    (h : token_manager_wf header_size tm)
    (hlive : 1 ≤ tm.stack_index)
    (htok1 : 1 ≤ (ptr - tm.base) / tm.block_size)
    (htok2 : (ptr - tm.base) / tm.block_size < tm.stack_size) :
    token_manager_wf header_size (token_manager_s_free tm ptr).1 ∧
    token_manager_s_is_full (token_manager_s_free tm ptr).1 = false ∧
    token_manager_s_is_empty (token_manager_s_free tm ptr).1 =
      (tm.stack_index - 1 == 0) := by
  obtain ⟨hlen, hrb1, hrbS, hidx, hrange⟩ := h
  unfold token_manager_s_free
  dsimp only
  set tok := (ptr - tm.base) / tm.block_size with htok
  have hlt : tm.stack_index - 1 < tm.token_stack.length := by omega
  have hget : (tm.token_stack.set (tm.stack_index - 1) tok).getD (tm.stack_index - 1) 0 =
      tok := list_getD_set_self hlt
  refine ⟨?_, ?_, by rfl⟩
  · unfold token_manager_wf
    dsimp only
    refine ⟨by simpa using hlen, hrb1, hrbS, by omega, ?_⟩
    intro j hj1 hj2
    rcases Nat.eq_or_lt_of_le hj1 with hj | hj
    · rw [← hj, hget]
      exact ⟨by constructor <;> omega, by omega⟩
    · rw [list_getD_set_ne (by omega)]
      exact hrange j (by omega) hj2
  · unfold token_manager_s_is_full
    dsimp only
    rw [hget]
    simp only [beq_eq_false_iff_ne, ne_eq]
    omega

/-- Record updates that only change `parent_index` do not affect fullness. -/
theorem is_full_parent_index (tm : token_manager_s) (k : Nat) :
    token_manager_s_is_full { tm with parent_index := k } = token_manager_s_is_full tm := rfl

/-- Under well-formedness, an empty manager is not full. -/
theorem token_manager_wf_empty_not_full {header_size : Nat} {tm : token_manager_s}
    (h : token_manager_wf header_size tm)
    (he : token_manager_s_is_empty tm = true) :
    token_manager_s_is_full tm = false := by
  have hidx : tm.stack_index = 0 := by
    have : (tm.stack_index == 0) = true := he
    simpa using this
  rcases hfull : token_manager_s_is_full tm with _ | _
  · rfl
  · have := (token_manager_wf_is_full_iff h).mp hfull
    obtain ⟨_, hrb1, hrbS, _, _⟩ := h
    omega

theorem list_getD_mem {α : Type _} [Inhabited α] {l : List α} {k : Nat}
    (h : k < l.length) : l.getD k default ∈ l := by
  rw [List.getD_eq_getElem?_getD, List.getElem?_eq_getElem h]
  exact List.getElem_mem h

/-- Element access after a double `set` (the shape of every swap in the block
    manager): the outer write wins, then the inner one, then the original. -/
theorem list_swap_getD {α : Type _} [Inhabited α] (l : List α) (i j : Nat) (a b : α)
    (hi : i < l.length) (hj : j < l.length) (k : Nat) :
    ((l.set i a).set j b).getD k default =
      if k = j then b else if k = i then a else l.getD k default := by
  by_cases hkj : k = j
  · rw [if_pos hkj, hkj, list_getD_set_self' (by simpa using hj)]
  · rw [if_neg hkj, list_getD_set_ne' (fun hh => hkj hh.symm)]
    by_cases hki : k = i
    · rw [if_pos hki, hki, list_getD_set_self' hi]
    · rw [if_neg hki, list_getD_set_ne' (fun hh => hki hh.symm)]

/-- Effect of a full-to-free report on an invariant-satisfying block manager:
    `free_index` is decremented, the reporting child lands at the new
    `free_index` (still full at this instant - the caller's stack update makes
    it non-full right after), all other invariant ingredients persist, and the
    slots at or above the old `free_index` are untouched. -/
theorem block_manager_s_full_to_free_spec {header_size : Nat} {o : block_manager_s}
    {slot : Nat}
    (hinv : block_manager_inv header_size o)
    (hslot : slot < o.data.length)
    (hfull : token_manager_s_is_full (o.data.getD slot default) = true) :
    (block_manager_s_full_to_free o slot).data.length = o.data.length ∧
    (block_manager_s_full_to_free o slot).free_index = o.free_index - 1 ∧
    (block_manager_s_full_to_free o slot).data.getD (o.free_index - 1) default =
      { o.data.getD slot default with parent_index := o.free_index - 1 } ∧
    (∀ k, k < o.data.length →
      ((block_manager_s_full_to_free o slot).data.getD k default).parent_index = k) ∧
    (∀ tm ∈ (block_manager_s_full_to_free o slot).data, token_manager_wf header_size tm) ∧
    (∀ k, k < o.free_index - 1 →
      token_manager_s_is_full ((block_manager_s_full_to_free o slot).data.getD k default) =
        true) ∧
    (∀ k, o.free_index ≤ k → k < o.data.length →
      token_manager_s_is_full ((block_manager_s_full_to_free o slot).data.getD k default) =
        false) ∧
    (∀ j k, j ≤ k → k < o.data.length →
      token_manager_s_is_empty ((block_manager_s_full_to_free o slot).data.getD j default) =
        true →
      token_manager_s_is_empty ((block_manager_s_full_to_free o slot).data.getD k default) =
        true) := by
  obtain ⟨h1, h2, h3, h4, h5, h6⟩ := hinv
  have hsf : slot < o.free_index := by
    by_contra hc
    rw [h5 slot (by omega) hslot] at hfull
    exact Bool.noConfusion hfull
  have hfi1 : 1 ≤ o.free_index := by omega
  have hfilt : o.free_index - 1 < o.data.length := by omega
  have hci : (o.data.getD slot default).parent_index = slot := h2 slot hslot
  have hswfull : token_manager_s_is_full (o.data.getD (o.free_index - 1) default) = true :=
    h4 _ (by omega)
  unfold block_manager_s_full_to_free
  dsimp only
  rw [hci]
  have hget := fun k => list_swap_getD o.data (o.free_index - 1) slot
    { o.data.getD slot default with parent_index := o.free_index - 1 }
    { o.data.getD (o.free_index - 1) default with parent_index := slot } hfilt hslot k
  have hlen : ((o.data.set (o.free_index - 1)
      { o.data.getD slot default with parent_index := o.free_index - 1 }).set slot
      { o.data.getD (o.free_index - 1) default with parent_index := slot }).length =
      o.data.length := by simp
  refine ⟨hlen, rfl, ?_, ?_, ?_, ?_, ?_, ?_⟩
  · rw [hget (o.free_index - 1)]
    by_cases hc : o.free_index - 1 = slot
    · rw [if_pos hc, hc]
    · rw [if_neg hc, if_pos rfl]
  · intro k hk
    rw [hget k]
    by_cases hc1 : k = slot
    · rw [if_pos hc1, hc1]
    · rw [if_neg hc1]
      by_cases hc2 : k = o.free_index - 1
      · rw [if_pos hc2, hc2]
      · rw [if_neg hc2]
        exact h2 k hk
  · intro tm htm
    rcases List.mem_or_eq_of_mem_set htm with htm1 | htm1
    · rcases List.mem_or_eq_of_mem_set htm1 with htm2 | htm2
      · exact h3 tm htm2
      · rw [htm2]
        exact token_manager_wf_parent_index _ (h3 _ (list_getD_mem hslot))
    · rw [htm1]
      exact token_manager_wf_parent_index _ (h3 _ (list_getD_mem hfilt))
  · intro k hk
    rw [hget k]
    by_cases hc1 : k = slot
    · rw [if_pos hc1, is_full_parent_index]
      exact hswfull
    · rw [if_neg hc1]
      by_cases hc2 : k = o.free_index - 1
      · omega
      · rw [if_neg hc2]
        exact h4 k (by omega)
  · intro k hk1 hk2
    rw [hget k]
    rw [if_neg (by omega), if_neg (by omega)]
    exact h5 k hk1 hk2
  · intro j k hjk hk hej
    rw [hget j] at hej
    rw [hget k]
    by_cases hj1 : j = slot
    · rw [if_pos hj1, is_empty_parent_index] at hej
      rw [token_manager_wf_full_not_empty (h3 _ (list_getD_mem hfilt)) hswfull] at hej
      exact Bool.noConfusion hej
    · rw [if_neg hj1] at hej
      by_cases hj2 : j = o.free_index - 1
      · rw [if_pos hj2, is_empty_parent_index] at hej
        rw [token_manager_wf_full_not_empty (h3 _ (list_getD_mem hslot)) hfull] at hej
        exact Bool.noConfusion hej
      · rw [if_neg hj2] at hej
        have hjfi : o.free_index ≤ j := by
          by_contra hc
          rw [token_manager_wf_full_not_empty (h3 _ (list_getD_mem (by omega)))
            (h4 j (by omega))] at hej
          exact Bool.noConfusion hej
        rw [if_neg (by omega), if_neg (by omega)]
        exact h6 j k hjk hk hej

theorem list_getD_append_left {α : Type _} {l l' : List α} {k : Nat} (h : k < l.length)
    (d : α) : (l ++ l').getD k d = l.getD k d := by
  simp [List.getD_eq_getElem?_getD, List.getElem?_append, h]

/-- Every list splits into the reversed drop and take of its reverse: the part
    kept by the sweep followed by the removed trailing run. -/
theorem list_rev_decomp {α : Type _} (p : α → Bool) (l : List α) :
    l = (l.reverse.dropWhile p).reverse ++ (l.reverse.takeWhile p).reverse := by
  conv_lhs => rw [← List.reverse_reverse l, ← List.takeWhile_append_dropWhile p l.reverse]
  rw [List.reverse_append]

theorem list_getD_dropWhile_rev {α : Type _} [Inhabited α] (p : α → Bool) (l : List α)
    (k : Nat) (hk : k < (l.reverse.dropWhile p).reverse.length) :
    (l.reverse.dropWhile p).reverse.getD k default = l.getD k default := by
  conv_rhs => rw [list_rev_decomp p l]
  rw [list_getD_append_left hk]

/-- Dropping all trailing empty token managers (the sweep loop of
    `free_to_empty`) preserves the block manager invariant. -/
theorem block_manager_inv_drop_trailing {header_size : Nat} (o : block_manager_s)
    (hinv : block_manager_inv header_size o) :
    block_manager_inv header_size
      { o with data := (o.data.reverse.dropWhile token_manager_s_is_empty).reverse } := by
  obtain ⟨h1, h2, h3, h4, h5, h6⟩ := hinv
  obtain ⟨het1, het2, het3⟩ := block_manager_s_empty_tail_spec o
  have hdec := list_rev_decomp token_manager_s_is_empty o.data
  have hlen : (o.data.reverse.dropWhile token_manager_s_is_empty).reverse.length =
      o.data.length - block_manager_s_empty_tail o := by
    have h := congrArg List.length hdec
    rw [List.length_append] at h
    simp only [List.length_reverse] at h ⊢
    unfold block_manager_s_empty_tail
    omega
  have hkeep : ∀ k, k < o.data.length - block_manager_s_empty_tail o →
      (o.data.reverse.dropWhile token_manager_s_is_empty).reverse.getD k default =
      o.data.getD k default := by
    intro k hk
    exact list_getD_dropWhile_rev _ _ k (by omega)
  have hmem : ∀ tm, tm ∈ (o.data.reverse.dropWhile token_manager_s_is_empty).reverse →
      tm ∈ o.data := by
    intro tm htm
    rw [hdec]
    exact List.mem_append_left _ htm
  have hfi : o.free_index ≤ o.data.length - block_manager_s_empty_tail o := by
    by_cases het0 : block_manager_s_empty_tail o = 0
    · omega
    · have hp0 : o.data.length - block_manager_s_empty_tail o < o.data.length := by omega
      have hemp := het2 (o.data.length - block_manager_s_empty_tail o) (Nat.le_refl _) hp0
      by_contra hc
      have hfull := h4 (o.data.length - block_manager_s_empty_tail o) (by omega)
      rw [token_manager_wf_full_not_empty (h3 _ (list_getD_mem hp0)) hfull] at hemp
      exact Bool.noConfusion hemp
  have hnoemp : ∀ k, k < o.data.length - block_manager_s_empty_tail o →
      token_manager_s_is_empty (o.data.getD k default) = false := by
    intro k hk
    by_cases hcase : token_manager_s_is_empty (o.data.getD k default) = true
    · exfalso
      have hlt : block_manager_s_empty_tail o < o.data.length := by omega
      have := h6 k (o.data.length - block_manager_s_empty_tail o - 1) (by omega) (by omega)
        hcase
      rw [het3 hlt] at this
      exact Bool.noConfusion this
    · simpa using hcase
  refine ⟨?_, ?_, ?_, ?_, ?_, ?_⟩
  · dsimp only
    rw [hlen]
    exact hfi
  · intro k hk
    dsimp only at hk ⊢
    rw [hlen] at hk
    rw [hkeep k hk]
    exact h2 k (by omega)
  · intro tm htm
    exact h3 tm (hmem tm htm)
  · intro k hk
    dsimp only at hk ⊢
    rw [hkeep k (by omega)]
    exact h4 k hk
  · intro k hk1 hk2
    dsimp only at hk1 hk2 ⊢
    rw [hlen] at hk2
    rw [hkeep k (by omega)]
    exact h5 k hk1 (by omega)
  · intro j k hjk hk hej
    dsimp only at hk hej ⊢
    rw [hlen] at hk
    rw [hkeep j (by omega)] at hej
    rw [hnoemp j (by omega)] at hej
    exact Bool.noConfusion hej

/-- The swap phase of a free-to-empty report restores the full invariant,
    given the invariant ingredients with the contiguity hole at the reporting
    (just-emptied) child. -/
theorem block_manager_inv_f2e_phase {header_size : Nat} {o : block_manager_s} {slot : Nat}
    (h1 : o.free_index ≤ o.data.length)
    (h2 : ∀ k, k < o.data.length → (o.data.getD k default).parent_index = k)
    (h3 : ∀ tm ∈ o.data, token_manager_wf header_size tm)
    (h4 : ∀ k, k < o.free_index → token_manager_s_is_full (o.data.getD k default) = true)
    (h5 : ∀ k, o.free_index ≤ k → k < o.data.length →
      token_manager_s_is_full (o.data.getD k default) = false)
    (hslot : slot < o.data.length)
    (hemptyc : token_manager_s_is_empty (o.data.getD slot default) = true)
    (hbelow : ∀ j, j < slot → token_manager_s_is_empty (o.data.getD j default) = false)
    (habove : ∀ j k, slot < j → j ≤ k → k < o.data.length →
      token_manager_s_is_empty (o.data.getD j default) = true →
      token_manager_s_is_empty (o.data.getD k default) = true) :
    block_manager_inv header_size (block_manager_s_f2e_phase o slot).1 := by
  obtain ⟨het1, het2, het3⟩ := block_manager_s_empty_tail_spec o
  have hci : (o.data.getD slot default).parent_index = slot := h2 slot hslot
  have hsfi : o.free_index ≤ slot := by
    by_contra hc
    have hfull := h4 slot (by omega)
    rw [token_manager_wf_empty_not_full (h3 _ (list_getD_mem hslot)) hemptyc] at hfull
    exact Bool.noConfusion hfull
  unfold block_manager_s_f2e_phase
  dsimp only
  rw [hci]
  set n := o.data.length with hn
  set et := block_manager_s_empty_tail o with het
  by_cases hc1 : et < n
  · have hswne : token_manager_s_is_empty (o.data.getD (n - et - 1) default) = false := by
      have := het3 hc1
      have hidx : n - et - 1 = n - et - 1 := rfl
      exact this
    by_cases hc2 : slot < n - et - 1
    · rw [if_pos hc1, if_pos hc2]
      dsimp only
      have hswlt : n - et - 1 < n := by omega
      have hget := fun k => list_swap_getD o.data slot (n - et - 1)
        { o.data.getD (n - et - 1) default with parent_index := slot }
        { o.data.getD slot default with parent_index := n - et - 1 } hslot hswlt k
      have hchar : ∀ x, x < n →
          token_manager_s_is_empty (((o.data.set slot
            { o.data.getD (n - et - 1) default with parent_index := slot }).set (n - et - 1)
            { o.data.getD slot default with parent_index := n - et - 1 }).getD x default) =
            true →
          n - et - 1 ≤ x := by
        intro x hx hex
        rw [hget x] at hex
        by_cases hx1 : x = n - et - 1
        · omega
        · rw [if_neg hx1] at hex
          by_cases hx2 : x = slot
          · rw [if_pos hx2, is_empty_parent_index, hswne] at hex
            exact Bool.noConfusion hex
          · rw [if_neg hx2] at hex
            rcases Nat.lt_or_ge x slot with hxs | hxs
            · rw [hbelow x hxs] at hex
              exact Bool.noConfusion hex
            · have hxs' : slot < x := by omega
              by_contra hcc
              have := habove x (n - et - 1) hxs' (by omega) (by omega) hex
              rw [hswne] at this
              exact Bool.noConfusion this
      refine ⟨?_, ?_, ?_, ?_, ?_, ?_⟩
      · dsimp only
        simpa using h1
      · intro k hk
        dsimp only at hk ⊢
        simp only [List.length_set] at hk
        rw [hget k]
        by_cases hk1 : k = n - et - 1
        · rw [if_pos hk1, hk1]
        · rw [if_neg hk1]
          by_cases hk2 : k = slot
          · rw [if_pos hk2, hk2]
          · rw [if_neg hk2]
            exact h2 k hk
      · intro tm htm
        dsimp only at htm
        rcases List.mem_or_eq_of_mem_set htm with htm1 | htm1
        · rcases List.mem_or_eq_of_mem_set htm1 with htm2 | htm2
          · exact h3 tm htm2
          · rw [htm2]
            exact token_manager_wf_parent_index _ (h3 _ (list_getD_mem hswlt))
        · rw [htm1]
          exact token_manager_wf_parent_index _ (h3 _ (list_getD_mem hslot))
      · intro k hk
        dsimp only at hk ⊢
        rw [hget k, if_neg (by omega), if_neg (by omega)]
        exact h4 k hk
      · intro k hk1 hk2
        dsimp only at hk2 ⊢
        simp only [List.length_set] at hk2
        rw [hget k]
        by_cases hk3 : k = n - et - 1
        · rw [if_pos hk3, is_full_parent_index]
          exact token_manager_wf_empty_not_full (h3 _ (list_getD_mem hslot)) hemptyc
        · rw [if_neg hk3]
          by_cases hk4 : k = slot
          · rw [if_pos hk4, is_full_parent_index]
            exact h5 (n - et - 1) (by omega) (by omega)
          · rw [if_neg hk4]
            exact h5 k hk1 hk2
      · intro j k hjk hk hej
        dsimp only at hk hej ⊢
        simp only [List.length_set] at hk
        have hj := hchar j (by omega) hej
        rw [hget k]
        by_cases hk1 : k = n - et - 1
        · rw [if_pos hk1, is_empty_parent_index]
          exact hemptyc
        · rw [if_neg hk1]
          have hk2 : n - et ≤ k := by omega
          rw [if_neg (by omega)]
          exact het2 k (by omega) (by omega)
    · rw [if_pos hc1, if_neg hc2]
      dsimp only
      have hssw : n - et - 1 < slot := by
        rcases Nat.lt_or_ge (n - et - 1) slot with hx | hx
        · exact hx
        · have hxx : slot = n - et - 1 := by omega
          rw [hxx, hswne] at hemptyc
          exact Bool.noConfusion hemptyc
      refine ⟨h1, h2, h3, h4, h5, ?_⟩
      intro j k hjk hk hej
      have hjge : n - et ≤ j := by
        by_cases hj1 : j = slot
        · omega
        · rcases Nat.lt_or_ge j slot with hjs | hjs
          · rw [hbelow j hjs] at hej
            exact Bool.noConfusion hej
          · omega
      exact het2 k (by omega) hk
  · rw [if_neg hc1]
    dsimp only
    refine ⟨h1, h2, h3, h4, h5, ?_⟩
    intro j k hjk hk _
    exact het2 k (by omega) hk

/-- A free-to-empty report (swap phase plus conditional sweep) restores and
    preserves the block manager invariant. -/
theorem block_manager_inv_f2e {header_size : Nat} {o : block_manager_s} {btree : List Nat}
    {slot : Nat} {o' : block_manager_s} {btree' : List Nat}
    {removed : List token_manager_s}
    (h1 : o.free_index ≤ o.data.length)
    (h2 : ∀ k, k < o.data.length → (o.data.getD k default).parent_index = k)
    (h3 : ∀ tm ∈ o.data, token_manager_wf header_size tm)
    (h4 : ∀ k, k < o.free_index → token_manager_s_is_full (o.data.getD k default) = true)
    (h5 : ∀ k, o.free_index ≤ k → k < o.data.length →
      token_manager_s_is_full (o.data.getD k default) = false)
    (hslot : slot < o.data.length)
    (hemptyc : token_manager_s_is_empty (o.data.getD slot default) = true)
    (hbelow : ∀ j, j < slot → token_manager_s_is_empty (o.data.getD j default) = false)
    (habove : ∀ j k, slot < j → j ≤ k → k < o.data.length →
      token_manager_s_is_empty (o.data.getD j default) = true →
      token_manager_s_is_empty (o.data.getD k default) = true)
    (hrun : block_manager_s_free_to_empty o btree slot = some (o', btree', removed)) :
    block_manager_inv header_size o' := by
  have hphase := block_manager_inv_f2e_phase h1 h2 h3 h4 h5 hslot hemptyc hbelow habove
  unfold block_manager_s_free_to_empty at hrun
  rcases hph : block_manager_s_f2e_phase o slot with ⟨o3, et1⟩
  rw [hph] at hphase hrun
  dsimp only at hphase hrun
  by_cases hfire : 8 * et1 > o3.data.length - et1
  · rw [if_pos hfire] at hrun
    rcases hf : List.foldlM (fun t tm => btree_vd_s_remove t tm.base) btree
        (List.takeWhile token_manager_s_is_empty o3.data.reverse) with _ | b
    · rw [hf] at hrun
      simp at hrun
    · rw [hf] at hrun
      simp only [Option.bind_eq_bind, Option.some_bind, Option.some.injEq,
        Prod.mk.injEq] at hrun
      obtain ⟨ho', hb, hrem⟩ := hrun
      exact block_manager_inv_drop_trailing o3 hphase
  · rw [if_neg hfire] at hrun
    simp only [Option.pure_def, Option.some.injEq, Prod.mk.injEq] at hrun
    obtain ⟨ho', hb, hrem⟩ := hrun
    rw [← ho']
    exact hphase

/-- Common continuation of a free request after the optional full-to-free
    phase: the stack write on the child at `slot1` followed by the conditional
    free-to-empty report.  The hypotheses are what both phases establish:
    the partition may have its non-full guarantee missing exactly at `slot1`
    (where the child sits, still full in the full-to-free case), and the
    empty-tail contiguity holds outright. -/
theorem block_manager_inv_free_write {header_size : Nat} {o1 : block_manager_s}
    {btree : List Nat} {slot1 ptr : Nat} {o' : block_manager_s} {btree' : List Nat}
    {removed : List token_manager_s}
    (G1 : o1.free_index ≤ o1.data.length)
    (G2 : ∀ k, k < o1.data.length → (o1.data.getD k default).parent_index = k)
    (G3 : ∀ tm ∈ o1.data, token_manager_wf header_size tm)
    (G4 : ∀ k, k < o1.free_index → token_manager_s_is_full (o1.data.getD k default) = true)
    (G5 : ∀ k, o1.free_index ≤ k → k < o1.data.length → k ≠ slot1 →
      token_manager_s_is_full (o1.data.getD k default) = false)
    (G6 : ∀ j k, j ≤ k → k < o1.data.length →
      token_manager_s_is_empty (o1.data.getD j default) = true →
      token_manager_s_is_empty (o1.data.getD k default) = true)
    (hslot1 : slot1 < o1.data.length)
    (hfi_le : o1.free_index ≤ slot1)
    (hlive1 : 1 ≤ (o1.data.getD slot1 default).stack_index)
    (htok1 : token_manager_s_reserved_blocks header_size
        (o1.data.getD slot1 default).pool_size (o1.data.getD slot1 default).block_size ≤
      (ptr - (o1.data.getD slot1 default).base) / (o1.data.getD slot1 default).block_size)
    (htok2 : (ptr - (o1.data.getD slot1 default).base) /
        (o1.data.getD slot1 default).block_size < (o1.data.getD slot1 default).stack_size)
    (hrun : (if token_manager_s_is_empty
          (token_manager_s_free (o1.data.getD slot1 default) ptr).1 then
        block_manager_s_free_to_empty
          { o1 with data := (o1.data.set slot1 (token_manager_s_free (o1.data.getD slot1 default) ptr).1) } btree slot1
      else
        some ({ o1 with data := (o1.data.set slot1 (token_manager_s_free (o1.data.getD slot1 default) ptr).1) }, btree, [])) =
      some (o', btree', removed)) :
    block_manager_inv header_size o' := by
  have hwf1 : token_manager_wf header_size (o1.data.getD slot1 default) :=
    G3 _ (list_getD_mem hslot1)
  have hrbpos : 1 ≤ token_manager_s_reserved_blocks header_size
      (o1.data.getD slot1 default).pool_size (o1.data.getD slot1 default).block_size :=
    hwf1.2.1
  obtain ⟨hwf2, hnf2, hemp2⟩ := token_manager_wf_free hwf1 hlive1 (by omega) htok2
  have hnonemp1 : token_manager_s_is_empty (o1.data.getD slot1 default) = false := by
    unfold token_manager_s_is_empty
    simp only [beq_eq_false_iff_ne, ne_eq]
    omega
  have hpi2 : (token_manager_s_free (o1.data.getD slot1 default) ptr).1.parent_index =
      (o1.data.getD slot1 default).parent_index := rfl
  have hpislot : (o1.data.getD slot1 default).parent_index = slot1 := G2 slot1 hslot1
  -- facts about the written state
  have K1 : ({ o1 with data := (o1.data.set slot1 (token_manager_s_free (o1.data.getD slot1 default) ptr).1) } :
        block_manager_s).data.length = o1.data.length := by simp
  have Kget : ∀ k, (o1.data.set slot1
      (token_manager_s_free (o1.data.getD slot1 default) ptr).1).getD k default =
      if k = slot1 then (token_manager_s_free (o1.data.getD slot1 default) ptr).1
      else o1.data.getD k default := by
    intro k
    by_cases hk : k = slot1
    · rw [if_pos hk, hk, list_getD_set_self' hslot1]
    · rw [if_neg hk, list_getD_set_ne' (fun hh => hk hh.symm)]
  have K2 : ∀ k, k < o1.data.length → ((o1.data.set slot1
      (token_manager_s_free (o1.data.getD slot1 default) ptr).1).getD k
        default).parent_index = k := by
    intro k hk
    rw [Kget k]
    by_cases hk1 : k = slot1
    · rw [if_pos hk1, hpi2, hpislot, hk1]
    · rw [if_neg hk1]
      exact G2 k hk
  have K3 : ∀ tm ∈ o1.data.set slot1
      (token_manager_s_free (o1.data.getD slot1 default) ptr).1,
      token_manager_wf header_size tm := by
    intro tm htm
    rcases List.mem_or_eq_of_mem_set htm with htm1 | htm1
    · exact G3 tm htm1
    · rw [htm1]
      exact hwf2
  have K4 : ∀ k, k < o1.free_index → token_manager_s_is_full ((o1.data.set slot1
      (token_manager_s_free (o1.data.getD slot1 default) ptr).1).getD k default) = true := by
    intro k hk
    rw [Kget k, if_neg (by omega)]
    exact G4 k hk
  have K5 : ∀ k, o1.free_index ≤ k → k < o1.data.length →
      token_manager_s_is_full ((o1.data.set slot1
        (token_manager_s_free (o1.data.getD slot1 default) ptr).1).getD k default) =
        false := by
    intro k hk1 hk2
    rw [Kget k]
    by_cases hk3 : k = slot1
    · rw [if_pos hk3]
      exact hnf2
    · rw [if_neg hk3]
      exact G5 k hk1 hk2 hk3
  have Kbelow : ∀ j, j < slot1 → token_manager_s_is_empty ((o1.data.set slot1
      (token_manager_s_free (o1.data.getD slot1 default) ptr).1).getD j default) =
      false := by
    intro j hj
    rw [Kget j, if_neg (by omega)]
    by_cases hcase : token_manager_s_is_empty (o1.data.getD j default) = true
    · exfalso
      have := G6 j slot1 (by omega) hslot1 hcase
      rw [hnonemp1] at this
      exact Bool.noConfusion this
    · simpa using hcase
  have Kabove : ∀ j k, slot1 < j → j ≤ k → k < o1.data.length →
      token_manager_s_is_empty ((o1.data.set slot1
        (token_manager_s_free (o1.data.getD slot1 default) ptr).1).getD j default) =
        true →
      token_manager_s_is_empty ((o1.data.set slot1
        (token_manager_s_free (o1.data.getD slot1 default) ptr).1).getD k default) =
        true := by
    intro j k hj hjk hk hej
    rw [Kget j, if_neg (by omega)] at hej
    rw [Kget k, if_neg (by omega)]
    exact G6 j k hjk hk hej
  by_cases hemp : token_manager_s_is_empty
      (token_manager_s_free (o1.data.getD slot1 default) ptr).1 = true
  · rw [if_pos hemp] at hrun
    refine block_manager_inv_f2e ?_ ?_ ?_ ?_ ?_ ?_ ?_ ?_ ?_ hrun
    · dsimp only
      rw [K1]
      exact G1
    · dsimp only
      intro k hk
      rw [K1] at hk
      exact K2 k hk
    · dsimp only
      exact K3
    · dsimp only
      exact K4
    · dsimp only
      intro k hk1 hk2
      rw [K1] at hk2
      exact K5 k hk1 hk2
    · dsimp only
      rw [K1]
      exact hslot1
    · dsimp only
      rw [Kget slot1, if_pos rfl]
      exact hemp
    · dsimp only
      exact Kbelow
    · dsimp only
      intro j k hj hjk hk hej
      rw [K1] at hk
      exact Kabove j k hj hjk hk hej
  · rw [if_neg hemp] at hrun
    simp only [Option.some.injEq, Prod.mk.injEq] at hrun
    obtain ⟨ho', hb, hrem⟩ := hrun
    rw [← ho']
    refine ⟨?_, ?_, ?_, ?_, ?_, ?_⟩
    · dsimp only
      rw [K1]
      exact G1
    · dsimp only
      intro k hk
      rw [K1] at hk
      exact K2 k hk
    · dsimp only
      exact K3
    · dsimp only
      exact K4
    · dsimp only
      intro k hk1 hk2
      rw [K1] at hk2
      exact K5 k hk1 hk2
    · dsimp only
      intro j k hjk hk hej
      rw [K1] at hk
      by_cases hj1 : j = slot1
      · rw [Kget j, if_pos hj1] at hej
        exact absurd hej hemp
      · by_cases hjs : j < slot1
        · rw [Kbelow j hjs] at hej
          exact Bool.noConfusion hej
        · exact Kabove j k (by omega) hjk hk hej

/-- A free request on a live, non-reserved block preserves the block manager
    invariant through all three phases (optional full-to-free, stack write,
    optional free-to-empty with sweep). -/
theorem block_manager_inv_child_free {header_size : Nat} {o : block_manager_s}
    {btree : List Nat} {slot ptr : Nat} {o' : block_manager_s} {btree' : List Nat}
    {removed : List token_manager_s}
    (hinv : block_manager_inv header_size o)
    (hslot : slot < o.data.length)
    (hlive : 1 ≤ (o.data.getD slot default).stack_index)
    (htok1 : token_manager_s_reserved_blocks header_size
        (o.data.getD slot default).pool_size (o.data.getD slot default).block_size ≤
      (ptr - (o.data.getD slot default).base) / (o.data.getD slot default).block_size)
    (htok2 : (ptr - (o.data.getD slot default).base) /
        (o.data.getD slot default).block_size < (o.data.getD slot default).stack_size)
    (hrun : block_manager_s_child_free o btree slot ptr = some (o', btree', removed)) :
    block_manager_inv header_size o' := by
  obtain ⟨h1, h2, h3, h4, h5, h6⟩ := hinv
  unfold block_manager_s_child_free at hrun
  dsimp only at hrun
  by_cases hful : token_manager_s_is_full (o.data.getD slot default) = true
  · rw [if_pos hful] at hrun
    dsimp only at hrun
    obtain ⟨Flen, Ffi, Fget, Fpi, Fwf, Fpre, Fsuf, Ftail⟩ :=
      block_manager_s_full_to_free_spec ⟨h1, h2, h3, h4, h5, h6⟩ hslot hful
    have hsf : slot < o.free_index := by
      by_contra hc
      rw [h5 slot (by omega) hslot] at hful
      exact Bool.noConfusion hful
    refine block_manager_inv_free_write ?_ ?_ ?_ ?_ ?_ ?_ ?_ ?_ ?_ ?_ ?_ hrun
    · rw [Ffi, Flen]
      omega
    · intro k hk
      rw [Flen] at hk
      exact Fpi k hk
    · exact Fwf
    · intro k hk
      rw [Ffi] at hk
      exact Fpre k hk
    · intro k hk1 hk2 hk3
      rw [Ffi] at hk1
      rw [Flen] at hk2
      exact Fsuf k (by omega) hk2
    · intro j k hjk hk hej
      rw [Flen] at hk
      exact Ftail j k hjk hk hej
    · rw [Flen]
      omega
    · rw [Ffi]
    · rw [Fget]
      exact hlive
    · rw [Fget]
      exact htok1
    · rw [Fget]
      exact htok2
  · rw [if_neg hful] at hrun
    dsimp only at hrun
    have hsf : o.free_index ≤ slot := by
      by_contra hc
      exact hful (h4 slot (by omega))
    refine block_manager_inv_free_write h1 h2 h3 h4 ?_ h6 hslot hsf hlive htok1 htok2 hrun
    intro k hk1 hk2 _
    exact h5 k hk1 hk2

theorem list_getD_append_last {α : Type _} (l : List α) (x d : α) :
    (l ++ [x]).getD l.length d = x := by
  simp [List.getD_eq_getElem?_getD, List.getElem?_append_right (Nat.le_refl l.length)]

/-- Appending a fresh (empty, well-formed) token manager at the end of the
    vector preserves the invariant, whatever happens to the `aligned` flag. -/
theorem block_manager_inv_append {header_size : Nat} {o : block_manager_s}
    {tm : token_manager_s} (a : Bool)
    (hinv : block_manager_inv header_size o)
    (hwf : token_manager_wf header_size tm)
    (hemp : token_manager_s_is_empty tm = true)
    (hpi : tm.parent_index = o.data.length) :
    block_manager_inv header_size { o with data := (o.data ++ [tm]), aligned := a } := by
  obtain ⟨h1, h2, h3, h4, h5, h6⟩ := hinv
  have hlen : (o.data ++ [tm]).length = o.data.length + 1 := by simp
  have hget : ∀ k, k < o.data.length →
      (o.data ++ [tm]).getD k default = o.data.getD k default := by
    intro k hk
    exact list_getD_append_left hk default
  have hlast : (o.data ++ [tm]).getD o.data.length default = tm :=
    list_getD_append_last o.data tm default
  refine ⟨?_, ?_, ?_, ?_, ?_, ?_⟩
  · dsimp only
    rw [hlen]
    omega
  · intro k hk
    dsimp only at hk ⊢
    rw [hlen] at hk
    rcases Nat.lt_or_ge k o.data.length with hkl | hkl
    · rw [hget k hkl]
      exact h2 k hkl
    · have hke : k = o.data.length := by omega
      rw [hke, hlast]
      exact hpi
  · intro tmx htmx
    dsimp only at htmx
    rcases List.mem_append.mp htmx with htm1 | htm1
    · exact h3 tmx htm1
    · rw [List.mem_singleton.mp htm1]
      exact hwf
  · intro k hk
    dsimp only at hk ⊢
    rw [hget k (by omega)]
    exact h4 k hk
  · intro k hk1 hk2
    dsimp only at hk1 hk2 ⊢
    rw [hlen] at hk2
    rcases Nat.lt_or_ge k o.data.length with hkl | hkl
    · rw [hget k hkl]
      exact h5 k hk1 hkl
    · have hke : k = o.data.length := by omega
      rw [hke, hlast]
      exact token_manager_wf_empty_not_full hwf hemp
  · intro j k hjk hk hej
    dsimp only at hk hej ⊢
    rw [hlen] at hk
    rcases Nat.lt_or_ge k o.data.length with hkl | hkl
    · rw [hget k hkl]
      rw [hget j (by omega)] at hej
      exact h6 j k hjk hkl hej
    · have hke : k = o.data.length := by omega
      rw [hke, hlast]
      exact hemp

/-- The emptiness flag drops after an allocation. -/
theorem is_empty_alloc (tm : token_manager_s) :
    token_manager_s_is_empty (token_manager_s_alloc tm).1 = false := by
  simp [token_manager_s_is_empty, token_manager_s_alloc]

/-- Core of a block manager allocation: take a block from the token manager
    at `free_index` (which exists and is not full), write it back, and bump
    `free_index` if it just became full.  The invariant is preserved. -/
theorem block_manager_inv_alloc_core {header_size : Nat} (o : block_manager_s)
    (hinv : block_manager_inv header_size o)
    (hlt : o.free_index < o.data.length) :
    block_manager_inv header_size
      (if token_manager_s_is_full
          (token_manager_s_alloc (o.data.getD o.free_index default)).1 then
        { o with data := (o.data.set o.free_index (token_manager_s_alloc (o.data.getD o.free_index default)).1), free_index := o.free_index + 1 }
      else
        { o with data := (o.data.set o.free_index (token_manager_s_alloc (o.data.getD o.free_index default)).1) }) := by
  obtain ⟨h1, h2, h3, h4, h5, h6⟩ := hinv
  have hnf : token_manager_s_is_full (o.data.getD o.free_index default) = false :=
    h5 _ (Nat.le_refl _) hlt
  have hwfc : token_manager_wf header_size (o.data.getD o.free_index default) :=
    h3 _ (list_getD_mem hlt)
  have hwf2 := token_manager_wf_alloc hwfc hnf
  have hpi2 : (token_manager_s_alloc (o.data.getD o.free_index default)).1.parent_index =
      o.free_index := h2 _ hlt
  have Kget : ∀ k, (o.data.set o.free_index
      (token_manager_s_alloc (o.data.getD o.free_index default)).1).getD k default =
      if k = o.free_index then (token_manager_s_alloc (o.data.getD o.free_index default)).1
      else o.data.getD k default := by
    intro k
    by_cases hk : k = o.free_index
    · rw [if_pos hk, hk, list_getD_set_self' hlt]
    · rw [if_neg hk, list_getD_set_ne' (fun hh => hk hh.symm)]
  have Klen : (o.data.set o.free_index
      (token_manager_s_alloc (o.data.getD o.free_index default)).1).length =
      o.data.length := by simp
  have Kpi : ∀ k, k < o.data.length → ((o.data.set o.free_index
      (token_manager_s_alloc (o.data.getD o.free_index default)).1).getD k
        default).parent_index = k := by
    intro k hk
    rw [Kget k]
    by_cases hk1 : k = o.free_index
    · rw [if_pos hk1, hpi2, hk1]
    · rw [if_neg hk1]
      exact h2 k hk
  have Kwf : ∀ tm ∈ o.data.set o.free_index
      (token_manager_s_alloc (o.data.getD o.free_index default)).1,
      token_manager_wf header_size tm := by
    intro tm htm
    rcases List.mem_or_eq_of_mem_set htm with htm1 | htm1
    · exact h3 tm htm1
    · rw [htm1]
      exact hwf2
  have Ktail : ∀ j k, j ≤ k → k < o.data.length →
      token_manager_s_is_empty ((o.data.set o.free_index
        (token_manager_s_alloc (o.data.getD o.free_index default)).1).getD j default) =
        true →
      token_manager_s_is_empty ((o.data.set o.free_index
        (token_manager_s_alloc (o.data.getD o.free_index default)).1).getD k default) =
        true := by
    intro j k hjk hk hej
    rw [Kget j] at hej
    by_cases hj1 : j = o.free_index
    · rw [if_pos hj1, is_empty_alloc] at hej
      exact Bool.noConfusion hej
    · rw [if_neg hj1] at hej
      have hjgt : o.free_index < j := by
        by_contra hc
        have hfull := h4 j (by omega)
        rw [token_manager_wf_full_not_empty (h3 _ (list_getD_mem (by omega))) hfull] at hej
        exact Bool.noConfusion hej
      rw [Kget k, if_neg (by omega)]
      exact h6 j k hjk hk hej
  by_cases hful : token_manager_s_is_full
      (token_manager_s_alloc (o.data.getD o.free_index default)).1 = true
  · rw [if_pos hful]
    refine ⟨?_, ?_, ?_, ?_, ?_, ?_⟩
    · dsimp only
      rw [Klen]
      omega
    · intro k hk
      dsimp only at hk ⊢
      rw [Klen] at hk
      exact Kpi k hk
    · exact Kwf
    · intro k hk
      dsimp only at hk ⊢
      rw [Kget k]
      by_cases hk1 : k = o.free_index
      · rw [if_pos hk1]
        exact hful
      · rw [if_neg hk1]
        exact h4 k (by omega)
    · intro k hk1 hk2
      dsimp only at hk1 hk2 ⊢
      rw [Klen] at hk2
      rw [Kget k, if_neg (by omega)]
      exact h5 k (by omega) hk2
    · intro j k hjk hk hej
      dsimp only at hk hej ⊢
      rw [Klen] at hk
      exact Ktail j k hjk hk hej
  · rw [if_neg hful]
    refine ⟨?_, ?_, ?_, ?_, ?_, ?_⟩
    · dsimp only
      rw [Klen]
      omega
    · intro k hk
      dsimp only at hk ⊢
      rw [Klen] at hk
      exact Kpi k hk
    · exact Kwf
    · intro k hk
      dsimp only at hk ⊢
      rw [Kget k, if_neg (by omega)]
      exact h4 k hk
    · intro k hk1 hk2
      dsimp only at hk1 hk2 ⊢
      rw [Klen] at hk2
      rw [Kget k]
      by_cases hk3 : k = o.free_index
      · rw [if_pos hk3]
        simpa using hful
      · rw [if_neg hk3]
        exact h5 k hk1 hk2
    · intro j k hjk hk hej
      dsimp only at hk hej ⊢
      rw [Klen] at hk
      exact Ktail j k hjk hk hej

/-- A fresh token manager is empty. -/
theorem token_manager_s_create_empty {header_size pool_size block_size base : Nat}
    {o : token_manager_s}
    (h : token_manager_s_create header_size pool_size block_size base = some o) :
    token_manager_s_is_empty o = true := by
  obtain ⟨_, _, _, ho⟩ := token_manager_s_create_some h
  rw [ho]
  rfl

/-- A block manager allocation preserves the invariant. -/
theorem block_manager_inv_alloc {header_size : Nat} {o : block_manager_s}
    {btree : List Nat} {next_addr : Nat} {o' : block_manager_s} {btree' : List Nat}
    {ptr : Nat} {lost : Bool} {next' : Nat}
    (hinv : block_manager_inv header_size o)
    (hrun : block_manager_s_alloc header_size o btree next_addr =
      some (o', btree', ptr, lost, next')) :
    block_manager_inv header_size o' := by
  unfold block_manager_s_alloc at hrun
  by_cases hfi : (o.free_index == o.data.length) = true
  · rw [if_pos hfi] at hrun
    have hfieq : o.free_index = o.data.length := by simpa using hfi
    rw [show platform_aligned_alloc next_addr
        (if o.align = true then o.pool_size else TBMAN_ALIGN) o.pool_size =
        (align_up next_addr (if o.align = true then o.pool_size else TBMAN_ALIGN),
         align_up next_addr (if o.align = true then o.pool_size else TBMAN_ALIGN) +
           o.pool_size) from rfl] at hrun
    dsimp only at hrun
    rcases hcr : token_manager_s_create header_size o.pool_size o.block_size
        (align_up next_addr (if o.align = true then o.pool_size else TBMAN_ALIGN))
      with _ | tm0
    · rw [hcr] at hrun
      simp at hrun
    · rw [hcr] at hrun
      simp only [Option.bind_eq_bind, Option.some_bind] at hrun
      rcases hbs : btree_vd_s_set btree tm0.base with _ | btree1
      · rw [hbs] at hrun
        simp at hrun
      · rw [hbs] at hrun
        simp only [Option.pure_def, Option.some_bind, Option.some.injEq,
          Prod.mk.injEq] at hrun
        obtain ⟨ho', hb, hp, hl, hn⟩ := hrun
        have hinv1 : block_manager_inv header_size { o with data := (o.data ++ [{ tm0 with parent_index := o.data.length }]), aligned := (o.aligned && tm0.aligned) } :=
          block_manager_inv_append (o.aligned && tm0.aligned) hinv
            (token_manager_wf_parent_index _ (token_manager_wf_create hcr))
            (by rw [is_empty_parent_index]; exact token_manager_s_create_empty hcr) rfl
        have hlt1 : ({ o with data := (o.data ++ [{ tm0 with parent_index := o.data.length }]), aligned := (o.aligned && tm0.aligned) } : block_manager_s).free_index < ({ o with data := (o.data ++ [{ tm0 with parent_index := o.data.length }]), aligned := (o.aligned && tm0.aligned) } : block_manager_s).data.length := by
          dsimp only
          rw [List.length_append]
          simp [hfieq]
        have hcore := block_manager_inv_alloc_core _ hinv1 hlt1
        rw [← ho']
        exact hcore
  · rw [if_neg hfi] at hrun
    dsimp only at hrun
    simp only [Option.pure_def, Option.some_bind, Option.some.injEq, Prod.mk.injEq] at hrun
    obtain ⟨ho', hb, hp, hl, hn⟩ := hrun
    have hlt : o.free_index < o.data.length := by
      have h1 := hinv.1
      have hne : ¬(o.free_index = o.data.length) := by simpa using hfi
      omega
    have hcore := block_manager_inv_alloc_core o hinv hlt
    dsimp only
    exact hcore

/-- Every reachable block manager state satisfies the full invariant. -/
theorem block_manager_inv_reachable {header_size pool_size block_size : Nat} {align : Bool}
    {o : block_manager_s} {btree : List Nat}
    (h : block_manager_reachable header_size pool_size block_size align o btree) :
    block_manager_inv header_size o := by
  induction h with
  | init =>
    refine ⟨?_, ?_, ?_, ?_, ?_, ?_⟩ <;> simp [block_manager_s_create]
  | alloc o btree next_addr o' btree' ptr lost next' _ hrun ih =>
    exact block_manager_inv_alloc ih hrun
  | free o btree slot ptr o' btree' removed _ hslot hlive htok1 htok2 hrun ih =>
    exact block_manager_inv_child_free ih hslot hlive htok1 htok2 hrun

/-- C3: in every block manager state reachable by its alloc operation and by
    free requests on live blocks (with the full-to-free and free-to-empty
    callbacks they trigger), the partition invariant holds: every slot below
    `free_index` holds a full token manager, every slot at or above it holds
    a non-full one, and the empty token managers occupy a contiguous tail of
    the vector. -/
theorem claim_C3_partition (header_size pool_size block_size : Nat) (align : Bool)
    (o : block_manager_s) (btree : List Nat)
    (h : block_manager_reachable header_size pool_size block_size align o btree) :
    (∀ k, k < o.free_index →
      token_manager_s_is_full (o.data.getD k default) = true) ∧
    (∀ k, o.free_index ≤ k → k < o.data.length →
      token_manager_s_is_full (o.data.getD k default) = false) ∧
    (∀ j k, j ≤ k → k < o.data.length →
      token_manager_s_is_empty (o.data.getD j default) = true →
      token_manager_s_is_empty (o.data.getD k default) = true) := by
  obtain ⟨_, _, _, h4, h5, h6⟩ := block_manager_inv_reachable h
  exact ⟨h4, h5, h6⟩

/-- C3 witness: the reachable state after one allocation from a fresh block
    manager has a non-full pool at its `free_index`. -/
theorem claim_C3_partition_witness :
    token_manager_s_is_full
      ({ base := 256, pool_size := 512, block_size := 64, stack_size := 8, stack_index := 1,
         aligned := false, parent_index := 0,
         token_stack := [1, 2, 3, 4, 5, 6, 7, 0] } : token_manager_s) = false := by
  have h0 : block_manager_reachable 48 512 64 false
      (block_manager_s_create 512 64 false) [] := block_manager_reachable.init
  have h1 : block_manager_reachable 48 512 64 false
      { pool_size := 512, block_size := 64, align := false,
        data := [{ base := 256, pool_size := 512, block_size := 64, stack_size := 8,
                   stack_index := 1, aligned := false, parent_index := 0,
                   token_stack := [1, 2, 3, 4, 5, 6, 7, 0] }],
        free_index := 0, aligned := false } [256] :=
    block_manager_reachable.alloc _ _ 256 _ _ 320 true 768 h0 (by decide)
  have h := claim_C3_partition 48 512 64 false _ _ h1
  have h2 := h.2.1 0 (Nat.zero_le 0) (by decide)
  simpa using h2

/-! ### Claim C4: termination and shape of the size-class ladder -/

theorem testBit_false_of_dvd {a j i : Nat} (ha : 2 ^ j ∣ a) (hij : i < j) :
    a.testBit i = false := by
  obtain ⟨t, rfl⟩ := ha
  rw [Nat.testBit_to_div_mod]
  have h1 : 2 ^ j * t / 2 ^ i = 2 ^ (j - i) * t := by
    rw [show 2 ^ j = 2 ^ i * 2 ^ (j - i) by rw [← pow_add]; congr 1; omega]
    rw [Nat.mul_assoc, Nat.mul_div_cancel_left _ (Nat.pos_pow_of_pos i (by norm_num))]
  rw [h1]
  have h2 : 2 ^ (j - i) * t % 2 = 0 := by
    rw [show j - i = (j - i - 1) + 1 by omega, pow_succ]
    rw [show 2 ^ (j - i - 1) * 2 * t = 2 * (2 ^ (j - i - 1) * t) by ring, Nat.mul_mod_right]
  simp [h2]

theorem land_eq_zero_of_two_pow (j : Nat) {a b : Nat} (ha : 2 ^ j ∣ a) (hb : b < 2 ^ j) :
    a &&& b = 0 := by
  apply Nat.eq_of_testBit_eq
  intro i
  rw [Nat.testBit_land, Nat.zero_testBit]
  rcases Nat.lt_or_ge i j with hij | hij
  · rw [testBit_false_of_dvd ha hij, Bool.false_and]
  · have hb2 : b < 2 ^ i := lt_of_lt_of_le hb (Nat.pow_le_pow_right (by norm_num) hij)
    rw [Nat.testBit_eq_false_of_lt hb2, Bool.and_false]

/-- With `size_mask = 0` (stepping method 0) and a positive minimal block size,
    the mask-normalisation loop of `tbman_s_init` makes no progress: `0 << 1`
    is again `0`, so no amount of fuel reaches the exit condition. -/
theorem tbman_mask_loop_stuck (minB : Nat) (hB : 1 ≤ minB) :
    ∀ fuel, tbman_mask_loop minB fuel 0 = none := by
  intro fuel
  have hc : tbman_mask_cond minB 0 = true := by
    unfold tbman_mask_cond
    have h0 : 0 < minB := hB
    simp [h0]
  induction fuel with
  | zero => rw [tbman_mask_loop, if_pos hc]
  | succ f ih =>
    rw [tbman_mask_loop, if_pos hc]
    simpa using ih

theorem tbman_mask_loop_succeeds (minB : Nat) :
    ∀ fuel mask, (∃ k, k ≤ fuel ∧ tbman_mask_cond minB (mask <<< k) = false) →
    ∃ r, tbman_mask_loop minB fuel mask = some r := by
  intro fuel
  induction fuel with
  | zero =>
    rintro mask ⟨k, hk, hc⟩
    have hk0 : k = 0 := by omega
    subst hk0
    rw [Nat.shiftLeft_zero] at hc
    rw [tbman_mask_loop, if_neg (by simp [hc])]
    exact ⟨mask, rfl⟩
  | succ f ih =>
    rintro mask ⟨k, hk, hc⟩
    by_cases h0 : tbman_mask_cond minB mask = true
    · rw [tbman_mask_loop, if_pos h0]
      apply ih
      cases k with
      | zero =>
        rw [Nat.shiftLeft_zero] at hc
        simp [hc] at h0
      | succ kk =>
        refine ⟨kk, by omega, ?_⟩
        have hsh : (mask <<< 1) <<< kk = mask <<< (kk + 1) := by
          rw [← Nat.shiftLeft_add]
          congr 1
          omega
        rw [hsh]
        exact hc
    · rw [tbman_mask_loop, if_neg h0]
      exact ⟨mask, rfl⟩

theorem tbman_mask_cond_false_at (minB m : Nat) (hB : 1 ≤ minB) (hm : 1 ≤ m) :
    tbman_mask_cond minB (((1 <<< m) - 1) <<< (Nat.log2 minB + 1)) = false := by
  have hmask1 : 1 ≤ (1 <<< m) - 1 := by
    rw [Nat.shiftLeft_eq, one_mul]
    have h2 : 2 ^ 1 ≤ 2 ^ m := Nat.pow_le_pow_right (by norm_num) hm
    omega
  have hge : minB ≤ ((1 <<< m) - 1) <<< (Nat.log2 minB + 1) := by
    rw [Nat.shiftLeft_eq]
    have hlt : minB < 2 ^ (Nat.log2 minB + 1) := Nat.lt_log2_self
    have hle : 2 ^ (Nat.log2 minB + 1) ≤ ((1 <<< m) - 1) * 2 ^ (Nat.log2 minB + 1) :=
      Nat.le_mul_of_pos_left _ hmask1
    omega
  have hand : ((((1 <<< m) - 1) <<< (Nat.log2 minB + 1)) <<< 1) &&& minB = 0 := by
    apply land_eq_zero_of_two_pow (Nat.log2 minB + 1)
    · refine ⟨((1 <<< m) - 1) * 2, ?_⟩
      rw [Nat.shiftLeft_eq, Nat.shiftLeft_eq]
      ring
    · exact Nat.lt_log2_self
  unfold tbman_mask_cond
  rw [hand]
  simp [Nat.not_lt.mpr hge]

theorem tbman_mask_loop_total (minB m : Nat) (hB : 1 ≤ minB) (hm : 1 ≤ m) :
    ∃ r, tbman_mask_loop minB (minB + 1) ((1 <<< m) - 1) = some r := by
  apply tbman_mask_loop_succeeds
  refine ⟨Nat.log2 minB + 1, ?_, tbman_mask_cond_false_at minB m hB hm⟩
  have h1 : Nat.log2 minB < minB := (Nat.log2_lt (by omega)).mpr (Nat.lt_two_pow minB)
  omega

theorem tbman_ladder_loop_total (maxB : Nat) :
    ∀ fuel bs inc mask, 1 ≤ inc → maxB + 1 ≤ fuel + bs →
    ∃ l, tbman_ladder_loop maxB fuel bs inc mask = some l ∧
      l.head? = (if bs ≤ maxB then some bs else none) ∧
      List.Chain' (· < ·) l ∧
      ∀ b ∈ l, bs ≤ b ∧ b ≤ maxB := by
  intro fuel
  induction fuel with
  | zero =>
    intro bs inc mask hinc hfuel
    have hgt : ¬ bs ≤ maxB := by omega
    rw [tbman_ladder_loop, if_neg hgt]
    exact ⟨[], rfl, by simp [hgt], List.chain'_nil, by simp⟩
  | succ f ih =>
    intro bs inc mask hinc hfuel
    by_cases hle : bs ≤ maxB
    · by_cases hgt : bs > mask
      · have hinc2 : 1 ≤ inc <<< 1 := by rw [Nat.shiftLeft_eq, pow_one]; omega
        obtain ⟨l, h1, h2, h3, h4⟩ := ih (bs + (inc <<< 1)) (inc <<< 1) (mask <<< 1)
          hinc2 (by omega)
        have heq : tbman_ladder_loop maxB (f + 1) bs inc mask =
            (tbman_ladder_loop maxB f (bs + (inc <<< 1)) (inc <<< 1) (mask <<< 1)).map
              (fun l => bs :: l) := by
          rw [tbman_ladder_loop, if_pos hle]
          dsimp only
          rw [if_pos hgt]
        refine ⟨bs :: l, by rw [heq, h1]; rfl, by simp [hle], ?_, ?_⟩
        · rw [List.chain'_cons']
          refine ⟨?_, h3⟩
          intro y hy
          rw [h2] at hy
          by_cases hle2 : bs + (inc <<< 1) ≤ maxB
          · rw [if_pos hle2] at hy
            simp at hy
            omega
          · rw [if_neg hle2] at hy
            simp at hy
        · intro b hb
          rcases List.mem_cons.mp hb with hb | hb
          · subst hb; exact ⟨le_refl _, hle⟩
          · obtain ⟨hb1, hb2⟩ := h4 b hb
            exact ⟨by omega, hb2⟩
      · obtain ⟨l, h1, h2, h3, h4⟩ := ih (bs + inc) inc mask hinc (by omega)
        have heq : tbman_ladder_loop maxB (f + 1) bs inc mask =
            (tbman_ladder_loop maxB f (bs + inc) inc mask).map (fun l => bs :: l) := by
          rw [tbman_ladder_loop, if_pos hle]
          dsimp only
          rw [if_neg hgt]
        refine ⟨bs :: l, by rw [heq, h1]; rfl, by simp [hle], ?_, ?_⟩
        · rw [List.chain'_cons']
          refine ⟨?_, h3⟩
          intro y hy
          rw [h2] at hy
          by_cases hle2 : bs + inc ≤ maxB
          · rw [if_pos hle2] at hy
            simp at hy
            omega
          · rw [if_neg hle2] at hy
            simp at hy
        · intro b hb
          rcases List.mem_cons.mp hb with hb | hb
          · subst hb; exact ⟨le_refl _, hle⟩
          · obtain ⟨hb1, hb2⟩ := h4 b hb
            exact ⟨by omega, hb2⟩
    · rw [tbman_ladder_loop, if_neg hle]
      exact ⟨[], rfl, by simp [hle], List.chain'_nil, by simp⟩

/-- Counterexample to claim C4 as stated: for stepping parameter `m = 0` the
    ladder generation does NOT terminate.  `(1 << 0) - 1 = 0`, and the mask
    loop at tbman.cpp:548 (`while (size_mask < min_block_size || ...)
    size_mask <<= 1;`) shifts `0` forever: no amount of fuel yields a result,
    and `tbman_s_init` at the default configuration with `m = 0` fails. -/
theorem claim_C4_counterexample :
    tbman_s_init 65536 8 16384 0 true = none ∧
    ¬ ∃ fuel r, tbman_mask_loop 8 fuel ((1 <<< 0) - 1) = some r := by
  constructor
  · rfl
  · rintro ⟨fuel, r, h⟩
    rw [show (1 <<< 0) - 1 = 0 from rfl] at h
    rw [tbman_mask_loop_stuck 8 (by norm_num) fuel] at h
    cases h

/-- C4 (amended): for every stepping parameter `m ≥ 1` and block-size bounds
    `1 ≤ min_block_size ≤ max_block_size`, the size-class ladder generation of
    `tbman_s_init` (tbman.cpp:545-573) terminates and emits a strictly
    increasing sequence of block sizes starting at `min_block_size` and lying
    within `[min_block_size, max_block_size]`.  For `m = 0`, contrary to the
    original claim, the mask loop never terminates (second conjunct; the
    doubling ladder the spec ascribes to `m = 0` is in fact produced by
    `m = 1`). -/
theorem claim_C4_ladder :
    (∀ min_block_size max_block_size stepping_method : Nat,
      1 ≤ stepping_method → 1 ≤ min_block_size → min_block_size ≤ max_block_size →
      ∃ l, tbman_block_sizes min_block_size max_block_size stepping_method = some l ∧
        l.head? = some min_block_size ∧ List.Chain' (· < ·) l ∧
        ∀ b ∈ l, min_block_size ≤ b ∧ b ≤ max_block_size) ∧
    (∀ min_block_size : Nat, 1 ≤ min_block_size →
      ∀ fuel, tbman_mask_loop min_block_size fuel ((1 <<< 0) - 1) = none) := by
  constructor
  · intro minB maxB m hm hB hBB
    obtain ⟨r, hr⟩ := tbman_mask_loop_total minB m hB hm
    obtain ⟨l, h1, h2, h3, h4⟩ := tbman_ladder_loop_total maxB (maxB + 1) minB minB r hB
      (by omega)
    refine ⟨l, ?_, ?_, h3, h4⟩
    · unfold tbman_block_sizes
      rw [hr]
      simpa using h1
    · rw [h2, if_pos hBB]
  · intro minB hB fuel
    rw [show (1 <<< 0) - 1 = 0 from rfl]
    exact tbman_mask_loop_stuck minB hB fuel

/-- C4 witness: the amended theorem applied at the default configuration
    (`min_block_size = 8`, `max_block_size = 16384`, stepping method 1)
    produces a ladder. -/
theorem claim_C4_ladder_witness :
    (1 : Nat) ≤ 1 ∧ (1 : Nat) ≤ 8 ∧ (8 : Nat) ≤ 16384 ∧
    (tbman_block_sizes 8 16384 1).isSome = true := by
  refine ⟨le_refl 1, by norm_num, by norm_num, ?_⟩
  obtain ⟨l, hl, _⟩ := claim_C4_ladder.1 8 16384 1 (le_refl 1) (by norm_num) (by norm_num)
  rw [hl]
  rfl

/-! ### Claim C6: allocation-size classification -/

theorem tbman_find_class_none (l : List Nat) (n : Nat) :
    tbman_find_class l n = none ↔ ∀ b ∈ l, b < n := by
  induction l with
  | nil => simp [tbman_find_class]
  | cons b rest ih =>
    rw [tbman_find_class]
    by_cases h : n ≤ b
    · rw [if_pos h]
      simp
      intro hb
      omega
    · rw [if_neg h]
      rw [Option.map_eq_none']
      rw [ih]
      constructor
      · intro hall c hc
        rcases List.mem_cons.mp hc with rfl | hc
        · omega
        · exact hall c hc
      · intro hall c hc
        exact hall c (List.mem_cons_of_mem b hc)

theorem tbman_find_class_some (l : List Nat) (n : Nat) :
    ∀ i, tbman_find_class l n = some i →
    i < l.length ∧ n ≤ l.getD i 0 ∧ ∀ j, j < i → l.getD j 0 < n := by
  induction l with
  | nil => intro i h; simp [tbman_find_class] at h
  | cons b rest ih =>
    intro i h
    rw [tbman_find_class] at h
    by_cases hb : n ≤ b
    · rw [if_pos hb] at h
      have hi : i = 0 := (Option.some.inj h).symm
      subst hi
      refine ⟨by simp, by simpa using hb, ?_⟩
      intro j hj
      omega
    · rw [if_neg hb] at h
      rw [Option.map_eq_some'] at h
      obtain ⟨i0, hi0, hii⟩ := h
      obtain ⟨h1, h2, h3⟩ := ih i0 hi0
      subst hii
      refine ⟨by simpa using h1, by simpa using h2, ?_⟩
      intro j hj
      cases j with
      | zero => simpa using by omega
      | succ j0 =>
        rw [List.getD_cons_succ]
        exact h3 j0 (by omega)

theorem block_manager_s_alloc_block_size {header_size : Nat} {o : block_manager_s}
    {btree : List Nat} {next_addr : Nat} {o2 : block_manager_s} {btree2 : List Nat}
    {ptr : Nat} {lost : Bool} {next2 : Nat}
    (hrun : block_manager_s_alloc header_size o btree next_addr =
      some (o2, btree2, ptr, lost, next2)) :
    o2.block_size = o.block_size := by
  unfold block_manager_s_alloc at hrun
  by_cases hfi : (o.free_index == o.data.length) = true
  · rw [if_pos hfi] at hrun
    rw [show platform_aligned_alloc next_addr
        (if o.align = true then o.pool_size else TBMAN_ALIGN) o.pool_size =
        (align_up next_addr (if o.align = true then o.pool_size else TBMAN_ALIGN),
         align_up next_addr (if o.align = true then o.pool_size else TBMAN_ALIGN) +
           o.pool_size) from rfl] at hrun
    dsimp only at hrun
    rcases hcr : token_manager_s_create header_size o.pool_size o.block_size
        (align_up next_addr (if o.align = true then o.pool_size else TBMAN_ALIGN))
      with _ | tm0
    · rw [hcr] at hrun
      simp at hrun
    · rw [hcr] at hrun
      simp only [Option.bind_eq_bind, Option.some_bind] at hrun
      rcases hbs : btree_vd_s_set btree tm0.base with _ | btree1
      · rw [hbs] at hrun
        simp at hrun
      · rw [hbs] at hrun
        simp only [Option.pure_def, Option.some_bind, Option.some.injEq,
          Prod.mk.injEq] at hrun
        obtain ⟨ho2, hb, hp, hl, hn⟩ := hrun
        rw [← ho2]
        split <;> rfl
  · rw [if_neg hfi] at hrun
    dsimp only at hrun
    simp only [Option.pure_def, Option.some_bind, Option.some.injEq, Prod.mk.injEq] at hrun
    obtain ⟨ho2, hb, hp, hl, hn⟩ := hrun
    split <;> rfl

theorem list_getD_getElem {α : Type _} (l : List α) (d : α) (i : Nat) (h : i < l.length) :
    l.getD i d = l[i] := by
  rw [List.getD_eq_getElem?_getD, List.getElem?_eq_getElem h]
  rfl

/-- C6: classification of a fresh allocation of `n` bytes (tbman.cpp:659-680).
    If some ladder class can hold `n` (`n ≤ max_block_size`, with the block
    size array strictly increasing, bounded by and attaining
    `max_block_size`), a successful allocation is served by the smallest class
    whose block size is at least `n`, the granted size is that block size, and
    the external size tree is untouched.  If `n` exceeds `max_block_size`, the
    granted size is exactly `n` and `ptr ↦ n` is prepended to the external
    size tree. -/
theorem claim_C6_classification (header_size : Nat) (o : tbman_s) (n : Nat)
    (s2 : tbman_s) (p g : Nat)
    (harr : o.block_size_array = o.data.map block_manager_s.block_size)
    (hchain : List.Chain' (· < ·) o.block_size_array)
    (hmem : o.max_block_size ∈ o.block_size_array)
    (hub : ∀ b ∈ o.block_size_array, b ≤ o.max_block_size)
    (hrun : tbman_s_mem_alloc header_size o n = some (s2, p, g)) :
    (n ≤ o.max_block_size →
      g ∈ o.block_size_array ∧ n ≤ g ∧ (∀ b ∈ o.block_size_array, n ≤ b → g ≤ b) ∧
      s2.external_btree = o.external_btree) ∧
    (o.max_block_size < n →
      g = n ∧ s2.external_btree = (p, n) :: o.external_btree) := by
  unfold tbman_s_mem_alloc at hrun
  rcases hfc : tbman_find_class o.block_size_array n with _ | i
  · rw [hfc] at hrun
    dsimp only at hrun
    rw [show platform_aligned_alloc o.next_addr TBMAN_ALIGN n =
        (align_up o.next_addr TBMAN_ALIGN, align_up o.next_addr TBMAN_ALIGN + n)
        from rfl] at hrun
    dsimp only at hrun
    have hall := (tbman_find_class_none _ _).mp hfc
    rcases heb : btree_ps_s_set o.external_btree (align_up o.next_addr TBMAN_ALIGN) n
      with _ | eb
    · rw [heb] at hrun
      simp at hrun
    · rw [heb] at hrun
      simp only [Option.pure_def, Option.some_bind, Option.some.injEq, Prod.mk.injEq]
        at hrun
      obtain ⟨hs2, hp, hg⟩ := hrun
      have heb2 : eb = (align_up o.next_addr TBMAN_ALIGN, n) :: o.external_btree := by
        unfold btree_ps_s_set at heb
        split at heb
        · cases heb
        · exact (Option.some.inj heb).symm
      constructor
      · intro hle
        have hcontra := hall _ hmem
        omega
      · intro hgt
        refine ⟨rfl, ?_⟩
        dsimp only
        rw [heb2]
  · rw [hfc] at hrun
    dsimp only at hrun
    obtain ⟨hleni, hge, hfirst⟩ := tbman_find_class_some _ _ _ hfc
    rcases hba : block_manager_s_alloc header_size (o.data.getD i default)
        o.internal_btree o.next_addr with _ | r
    · rw [hba] at hrun
      simp at hrun
    · obtain ⟨bm2, ib2, ptr2, lost2, na2⟩ := r
      rw [hba] at hrun
      simp only [Option.pure_def, Option.some_bind, Option.some.injEq, Prod.mk.injEq]
        at hrun
      obtain ⟨hs2, hp, hg⟩ := hrun
      have hbs := block_manager_s_alloc_block_size hba
      have hlen2 : i < o.data.length := by
        rw [harr, List.length_map] at hleni
        exact hleni
      have hleni2 : i < o.block_size_array.length := by
        rw [harr, List.length_map]
        exact hlen2
      have harr_i : o.block_size_array.getD i 0 = (o.data.getD i default).block_size := by
        rw [harr, List.getD_eq_getElem?_getD, List.getElem?_map,
            List.getElem?_eq_getElem hlen2, list_getD_getElem _ _ _ hlen2]
        rfl
      have hg2 : bm2.block_size = o.block_size_array.getD i 0 := by
        rw [harr_i]
        exact hbs
      constructor
      · intro hle
        refine ⟨?_, ?_, ?_, ?_⟩
        · rw [hg2]
          exact list_getD_mem hleni2
        · rw [hg2]
          exact hge
        · intro b hb hnb
          rw [hg2, list_getD_getElem _ _ _ hleni2]
          obtain ⟨j, hj, hbj⟩ := List.mem_iff_getElem.mp hb
          have hpw := (List.chain'_iff_pairwise).mp hchain
          by_cases hji : j < i
          · exfalso
            have h1 := hfirst j hji
            rw [list_getD_getElem _ _ _ (by omega)] at h1
            rw [hbj] at h1
            omega
          · rcases Nat.lt_or_ge i j with hij | hij
            · have h2 := List.pairwise_iff_getElem.mp hpw i j hleni2 hj hij
              rw [hbj] at h2
              omega
            · have hij2 : i = j := by omega
              subst hij2
              rw [hbj]
        · rfl
      · intro hgt
        exfalso
        have h3 := hub _ (list_getD_mem hleni2)
        have h4 : o.block_size_array.getD i default = o.block_size_array.getD i 0 := rfl
        omega

/-- C6 witness: the default manager with request `17000 > 16384` takes the
    platform path, grants exactly 17000 bytes and registers the block in the
    external size tree. -/
theorem claim_C6_classification_witness :
    tbman_default_state.block_size_array
        = tbman_default_state.data.map block_manager_s.block_size ∧
    List.Chain' (· < ·) tbman_default_state.block_size_array ∧
    tbman_default_state.max_block_size ∈ tbman_default_state.block_size_array ∧
    (∀ b ∈ tbman_default_state.block_size_array, b ≤ tbman_default_state.max_block_size) ∧
    tbman_s_mem_alloc 48 tbman_default_state 17000 =
      some ({ tbman_default_state with external_btree := [(256, 17000)], next_addr := 17256 }, 256, 17000) ∧
    (tbman_default_state.max_block_size < 17000 →
      (17000 : Nat) = 17000 ∧
      ({ tbman_default_state with external_btree := [(256, 17000)], next_addr := 17256 } : tbman_s).external_btree =
        (256, 17000) :: tbman_default_state.external_btree) := by
  have hc : List.Chain' (· < ·) tbman_default_state.block_size_array := by
    rw [show tbman_default_state.block_size_array =
        [8, 16, 32, 64, 128, 256, 512, 1024, 2048, 4096, 8192, 16384] from rfl]
    simp [List.chain'_cons]
  refine ⟨rfl, hc, by decide, by decide, rfl, ?_⟩
  have h := claim_C6_classification 48 tbman_default_state 17000
      { tbman_default_state with external_btree := [(256, 17000)], next_addr := 17256 }
      256 17000 rfl hc (by decide) (by decide) rfl
  exact h.2

/-! ### Claim C9: locking discipline of the public entry points -/

/-- Counterexample to claim C9 as stated: `tbman_s_granted_space`
    (tbman.cpp:958-973) performs its reads of the internal pool tree and the
    external size tree WITHOUT acquiring the manager mutex — it is the one
    public entry point named by the specification that takes no `lock_guard`. -/
theorem claim_C9_counterexample :
    tbman_entry_point_locks tbman_entry_point.granted_space = false := rfl

/-- C9 (amended): of the six public entry points named by the specification,
    exactly the five others — `alloc` (tbman.cpp:779), `nalloc` (tbman.cpp:800),
    `total_granted_space` (tbman.cpp:985), `total_instances` (tbman.cpp:1007)
    and `for_each_instance` (tbman.cpp:1045) — hold the manager mutex for the
    duration of their work; `granted_space` (tbman.cpp:958-973) does not. -/
theorem claim_C9_locking :
    ∀ e : tbman_entry_point,
      tbman_entry_point_locks e = decide (e ≠ tbman_entry_point.granted_space) := by
  intro e
  cases e <;> rfl

/-! ### Claim C8: alignment flag soundness -/

theorem list_mem_set_strong {α : Type _} {l : List α} {i : Nat} {a x : α}
    (h : x ∈ l.set i a) : x ∈ l ∨ (i < l.length ∧ x = a) := by
  by_cases hi : i < l.length
  · rcases List.mem_or_eq_of_mem_set h with h1 | h1
    · exact Or.inl h1
    · exact Or.inr ⟨hi, h1⟩
  · rw [List.set_eq_of_length_le (by omega)] at h
    exact Or.inl h

theorem token_manager_s_alloc_aligned (tm : token_manager_s) :
    (token_manager_s_alloc tm).1.aligned = tm.aligned := rfl

theorem token_manager_s_alloc_parent (tm : token_manager_s) :
    (token_manager_s_alloc tm).1.parent_index = tm.parent_index := rfl

theorem token_manager_s_free_aligned (tm : token_manager_s) (ptr : Nat) :
    ((token_manager_s_free tm ptr).1).aligned = tm.aligned := rfl

theorem token_manager_s_free_parent (tm : token_manager_s) (ptr : Nat) :
    ((token_manager_s_free tm ptr).1).parent_index = tm.parent_index := rfl

theorem block_manager_struct_ok_default : block_manager_struct_ok default := by
  have h0 : (default : block_manager_s).data.length = 0 := rfl
  have h1 : (default : block_manager_s).free_index = 0 := rfl
  exact ⟨by omega, fun k hk => absurd hk (by omega), fun k hk => absurd hk (by omega),
    fun k hk => absurd hk (by omega)⟩

theorem block_manager_aligned_ok_default : block_manager_aligned_ok default := by
  intro h
  cases h

/-- Full-to-free on a slot-aware block manager: the flag is unchanged, the
    structure facts persist, and every pool of the result was (up to
    `parent_index`) already held before. -/
theorem block_manager_s_full_to_free_C8 (o : block_manager_s) (child_slot : Nat)
    (hst : block_manager_struct_ok o) (hslot : child_slot < o.data.length) :
    (block_manager_s_full_to_free o child_slot).aligned = o.aligned ∧
    (block_manager_s_full_to_free o child_slot).free_index = o.free_index - 1 ∧
    (block_manager_s_full_to_free o child_slot).data.length = o.data.length ∧
    block_manager_struct_ok (block_manager_s_full_to_free o child_slot) ∧
    ∀ tm2 ∈ (block_manager_s_full_to_free o child_slot).data,
      ∃ tm1 ∈ o.data, tm2.aligned = tm1.aligned := by
  obtain ⟨h1, h2, h3, h4⟩ := hst
  have hlen1 : 1 ≤ o.data.length := by omega
  have hfi1 : o.free_index - 1 < o.data.length := by omega
  have hpi : (o.data.getD child_slot default).parent_index = child_slot := h2 _ hslot
  have heq : block_manager_s_full_to_free o child_slot =
      { o with data := (o.data.set (o.free_index - 1) { o.data.getD child_slot default with parent_index := o.free_index - 1 }).set child_slot { o.data.getD (o.free_index - 1) default with parent_index := child_slot }, free_index := o.free_index - 1 } := by
    simp only [block_manager_s_full_to_free]
    rw [hpi]
  rw [heq]
  have K := list_swap_getD o.data (o.free_index - 1) child_slot
    { o.data.getD child_slot default with parent_index := o.free_index - 1 }
    { o.data.getD (o.free_index - 1) default with parent_index := child_slot }
    hfi1 hslot
  have Klen : ((o.data.set (o.free_index - 1)
      { o.data.getD child_slot default with parent_index := o.free_index - 1 }).set
      child_slot
      { o.data.getD (o.free_index - 1) default with parent_index := child_slot }).length =
      o.data.length := by simp
  refine ⟨rfl, rfl, Klen, ⟨?_, ?_, ?_, ?_⟩, ?_⟩
  · dsimp only
    rw [Klen]
    omega
  · intro k hk
    dsimp only at hk ⊢
    rw [Klen] at hk
    rw [K k]
    by_cases hkc : k = child_slot
    · rw [if_pos hkc, hkc]
    · rw [if_neg hkc]
      by_cases hkf : k = o.free_index - 1
      · rw [if_pos hkf, hkf]
      · rw [if_neg hkf]
        exact h2 k hk
  · intro k hk
    dsimp only at hk ⊢
    rw [K k]
    by_cases hkc : k = child_slot
    · rw [if_pos hkc, is_empty_parent_index]
      exact h3 _ (by omega)
    · rw [if_neg hkc]
      by_cases hkf : k = o.free_index - 1
      · omega
      · rw [if_neg hkf]
        exact h3 _ (by omega)
  · intro k hk
    dsimp only at hk ⊢
    rw [K k]
    by_cases hkc : k = child_slot
    · rw [if_pos hkc, is_full_parent_index]
      exact h4 _ (by omega)
    · rw [if_neg hkc]
      by_cases hkf : k = o.free_index - 1
      · omega
      · rw [if_neg hkf]
        exact h4 _ (by omega)
  · intro tm2 htm2
    dsimp only at htm2
    rcases list_mem_set_strong htm2 with hm | ⟨_, rfl⟩
    · rcases list_mem_set_strong hm with hm2 | ⟨_, rfl⟩
      · exact ⟨tm2, hm2, rfl⟩
      · exact ⟨o.data.getD child_slot default, list_getD_mem hslot, rfl⟩
    · exact ⟨o.data.getD (o.free_index - 1) default, list_getD_mem hfi1, rfl⟩

/-- The swap phase of a free-to-empty report, for an empty child of a
    slot-aware block manager: flag, `free_index` and length unchanged, the
    structure facts persist, and every pool of the result was already held. -/
theorem block_manager_s_f2e_phase_C8 (o : block_manager_s) (slot : Nat)
    (hst : block_manager_struct_ok o) (hslot : slot < o.data.length)
    (hemp : token_manager_s_is_empty (o.data.getD slot default) = true) :
    (block_manager_s_f2e_phase o slot).1.aligned = o.aligned ∧
    (block_manager_s_f2e_phase o slot).1.free_index = o.free_index ∧
    (block_manager_s_f2e_phase o slot).1.data.length = o.data.length ∧
    block_manager_struct_ok (block_manager_s_f2e_phase o slot).1 ∧
    ∀ tm2 ∈ (block_manager_s_f2e_phase o slot).1.data,
      ∃ tm1 ∈ o.data, tm2.aligned = tm1.aligned := by
  obtain ⟨h1, h2, h3, h4⟩ := hst
  have hpi : (o.data.getD slot default).parent_index = slot := h2 _ hslot
  have hfs : o.free_index ≤ slot := by
    by_contra hc
    have hf := h3 slot (by omega)
    rw [hf] at hemp
    exact Bool.noConfusion hemp
  by_cases het : block_manager_s_empty_tail o < o.data.length
  · by_cases hlt : slot < o.data.length - block_manager_s_empty_tail o - 1
    · have hsw : o.data.length - block_manager_s_empty_tail o - 1 < o.data.length := by
        omega
      have heq : block_manager_s_f2e_phase o slot =
          ({ o with data := (o.data.set slot { o.data.getD (o.data.length - block_manager_s_empty_tail o - 1) default with parent_index := slot }).set (o.data.length - block_manager_s_empty_tail o - 1) { o.data.getD slot default with parent_index := o.data.length - block_manager_s_empty_tail o - 1 } }, block_manager_s_empty_tail o + 1) := by
        simp only [block_manager_s_f2e_phase]
        rw [hpi, if_pos het, if_pos hlt]
      rw [heq]
      have K := list_swap_getD o.data slot
        (o.data.length - block_manager_s_empty_tail o - 1)
        { o.data.getD (o.data.length - block_manager_s_empty_tail o - 1) default with parent_index := slot }
        { o.data.getD slot default with parent_index := o.data.length - block_manager_s_empty_tail o - 1 }
        hslot hsw
      have Klen : ((o.data.set slot { o.data.getD (o.data.length - block_manager_s_empty_tail o - 1) default with parent_index := slot }).set (o.data.length - block_manager_s_empty_tail o - 1) { o.data.getD slot default with parent_index := o.data.length - block_manager_s_empty_tail o - 1 }).length = o.data.length := by
        simp
      refine ⟨rfl, rfl, Klen, ⟨?_, ?_, ?_, ?_⟩, ?_⟩
      · dsimp only
        rw [Klen]
        omega
      · intro k hk
        dsimp only at hk ⊢
        rw [Klen] at hk
        rw [K k]
        by_cases hks : k = o.data.length - block_manager_s_empty_tail o - 1
        · rw [if_pos hks, hks]
        · rw [if_neg hks]
          by_cases hkc : k = slot
          · rw [if_pos hkc, hkc]
          · rw [if_neg hkc]
            exact h2 k hk
      · intro k hk
        dsimp only at hk ⊢
        rw [K k]
        rw [if_neg (by omega), if_neg (by omega)]
        exact h3 _ hk
      · intro k hk
        dsimp only at hk ⊢
        rw [K k]
        rw [if_neg (by omega), if_neg (by omega)]
        exact h4 _ hk
      · intro tm2 htm2
        dsimp only at htm2
        rcases list_mem_set_strong htm2 with hm | ⟨_, rfl⟩
        · rcases list_mem_set_strong hm with hm2 | ⟨_, rfl⟩
          · exact ⟨tm2, hm2, rfl⟩
          · exact ⟨o.data.getD (o.data.length - block_manager_s_empty_tail o - 1) default,
              list_getD_mem hsw, rfl⟩
        · exact ⟨o.data.getD slot default, list_getD_mem hslot, rfl⟩
    · have heq : block_manager_s_f2e_phase o slot = (o, block_manager_s_empty_tail o) := by
        simp only [block_manager_s_f2e_phase]
        rw [hpi, if_pos het, if_neg hlt]
      rw [heq]
      exact ⟨rfl, rfl, rfl, ⟨h1, h2, h3, h4⟩, fun tm2 h => ⟨tm2, h, rfl⟩⟩
  · have heq : block_manager_s_f2e_phase o slot = (o, block_manager_s_empty_tail o) := by
      simp only [block_manager_s_f2e_phase]
      rw [if_neg het]
    rw [heq]
    exact ⟨rfl, rfl, rfl, ⟨h1, h2, h3, h4⟩, fun tm2 h => ⟨tm2, h, rfl⟩⟩

/-- A successful free-to-empty report (swap phase plus possible sweep) on a
    slot-aware block manager: flag and `free_index` unchanged, the structure
    facts persist, and every surviving pool was already held before. -/
theorem block_manager_s_free_to_empty_C8 {o : block_manager_s} {btree : List Nat}
    {slot : Nat} {o2 : block_manager_s} {btree2 : List Nat}
    {removed : List token_manager_s}
    (hst : block_manager_struct_ok o) (hslot : slot < o.data.length)
    (hemp : token_manager_s_is_empty (o.data.getD slot default) = true)
    (hrun : block_manager_s_free_to_empty o btree slot = some (o2, btree2, removed)) :
    o2.aligned = o.aligned ∧ o2.free_index = o.free_index ∧
    block_manager_struct_ok o2 ∧
    ∀ tm2 ∈ o2.data, ∃ tm1 ∈ o.data, tm2.aligned = tm1.aligned := by
  have HP := block_manager_s_f2e_phase_C8 o slot hst hslot hemp
  unfold block_manager_s_free_to_empty at hrun
  rcases hph : block_manager_s_f2e_phase o slot with ⟨o1, et1⟩
  rw [hph] at hrun HP
  dsimp only at hrun HP
  obtain ⟨HPa, HPf, HPl, HPs, HPt⟩ := HP
  by_cases hcond : 8 * et1 > o1.data.length - et1
  · rw [if_pos hcond] at hrun
    rcases hfold : (o1.data.reverse.takeWhile token_manager_s_is_empty).foldlM
        (fun t tm => btree_vd_s_remove t tm.base) btree with _ | bt
    · rw [hfold] at hrun
      simp at hrun
    · rw [hfold] at hrun
      simp only [Option.pure_def, Option.some_bind, Option.some.injEq,
        Prod.mk.injEq] at hrun
      obtain ⟨ho2x, hb2x, hrmx⟩ := hrun
      obtain ⟨hs1, hs2, hs3, hs4⟩ := HPs
      obtain ⟨het1, het2, het3⟩ := block_manager_s_empty_tail_spec o1
      have hklen : (o1.data.reverse.dropWhile token_manager_s_is_empty).reverse.length =
          o1.data.length - block_manager_s_empty_tail o1 := by
        have h := congrArg List.length (list_rev_decomp token_manager_s_is_empty o1.data)
        rw [List.length_append] at h
        simp only [List.length_reverse] at h ⊢
        unfold block_manager_s_empty_tail
        omega
      have hfik : o1.free_index ≤
          (o1.data.reverse.dropWhile token_manager_s_is_empty).reverse.length := by
        rw [hklen]
        by_contra hc
        have hlt : o1.data.length - block_manager_s_empty_tail o1 < o1.free_index := by
          omega
        have hidx : o1.data.length - block_manager_s_empty_tail o1 < o1.data.length := by
          omega
        have he := het2 (o1.data.length - block_manager_s_empty_tail o1)
          (Nat.le_refl _) hidx
        have hne := hs3 (o1.data.length - block_manager_s_empty_tail o1) hlt
        rw [he] at hne
        exact Bool.noConfusion hne
      refine ⟨HPa, HPf, ⟨hfik, ?_, ?_, ?_⟩, ?_⟩
      · intro k hk
        have hk2 : k < (o1.data.reverse.dropWhile token_manager_s_is_empty).reverse.length :=
          hk
        show ((o1.data.reverse.dropWhile
          token_manager_s_is_empty).reverse.getD k default).parent_index = k
        rw [list_getD_dropWhile_rev _ _ _ hk2]
        apply hs2
        omega
      · intro k hk
        have hk2 : k < o1.free_index := hk
        show token_manager_s_is_empty ((o1.data.reverse.dropWhile
          token_manager_s_is_empty).reverse.getD k default) = false
        rw [list_getD_dropWhile_rev _ _ _ (by omega)]
        exact hs3 k hk2
      · intro k hk
        have hk2 : k < o1.free_index := hk
        show token_manager_s_is_full ((o1.data.reverse.dropWhile
          token_manager_s_is_empty).reverse.getD k default) = true
        rw [list_getD_dropWhile_rev _ _ _ (by omega)]
        exact hs4 k hk2
      · intro tm2 htm2
        have htm2b : tm2 ∈ (o1.data.reverse.dropWhile token_manager_s_is_empty).reverse :=
          htm2
        have htm3 : tm2 ∈ o1.data := by
          rw [List.mem_reverse] at htm2b
          have hsub := (List.dropWhile_sublist token_manager_s_is_empty).mem htm2b
          rw [List.mem_reverse] at hsub
          exact hsub
        exact HPt tm2 htm3
  · rw [if_neg hcond] at hrun
    simp only [Option.pure_def, Option.some.injEq, Prod.mk.injEq] at hrun
    obtain ⟨ho2, hb2, hrm⟩ := hrun
    rw [← ho2]
    exact ⟨HPa, HPf, HPs, HPt⟩

/-- The tail of a child-free report (stack write, then the possible
    free-to-empty handling), for a slot at or above `free_index` of a
    slot-aware block manager. -/
theorem block_manager_child_free_tail_C8 {oA : block_manager_s} {btree : List Nat}
    {slot ptr : Nat} {o2 : block_manager_s} {btree2 : List Nat}
    {removed : List token_manager_s}
    (hstA : block_manager_struct_ok oA) (hslotA : slot < oA.data.length)
    (hfiA : oA.free_index ≤ slot)
    (hrun : (if token_manager_s_is_empty
          (token_manager_s_free (oA.data.getD slot default) ptr).1 then
        block_manager_s_free_to_empty { oA with data := oA.data.set slot (token_manager_s_free (oA.data.getD slot default) ptr).1 } btree slot
      else
        pure ({ oA with data := oA.data.set slot (token_manager_s_free (oA.data.getD slot default) ptr).1 }, btree, [])) =
      some (o2, btree2, removed)) :
    o2.aligned = oA.aligned ∧ block_manager_struct_ok o2 ∧
    ∀ tm2 ∈ o2.data, ∃ tm1 ∈ oA.data, tm2.aligned = tm1.aligned := by
  obtain ⟨a1, a2, a3, a4⟩ := hstA
  have hpf : (token_manager_s_free (oA.data.getD slot default) ptr).1.parent_index =
      slot := by
    rw [token_manager_s_free_parent]
    exact a2 _ hslotA
  have hlenB : ({ oA with data := oA.data.set slot (token_manager_s_free (oA.data.getD slot default) ptr).1 } : block_manager_s).data.length = oA.data.length := by
    simp
  have hstB : block_manager_struct_ok { oA with data := oA.data.set slot (token_manager_s_free (oA.data.getD slot default) ptr).1 } := by
    refine ⟨?_, ?_, ?_, ?_⟩
    · rw [hlenB]
      exact a1
    · intro k hk
      rw [hlenB] at hk
      show ((oA.data.set slot
        (token_manager_s_free (oA.data.getD slot default) ptr).1).getD k
          default).parent_index = k
      by_cases hks : k = slot
      · rw [hks, list_getD_set_self' hslotA, hpf]
      · rw [list_getD_set_ne' (fun hh => hks hh.symm)]
        exact a2 k hk
    · intro k hk
      have hk2 : k < oA.free_index := hk
      show token_manager_s_is_empty ((oA.data.set slot
        (token_manager_s_free (oA.data.getD slot default) ptr).1).getD k default) = false
      rw [list_getD_set_ne' (by omega)]
      exact a3 k hk2
    · intro k hk
      have hk2 : k < oA.free_index := hk
      show token_manager_s_is_full ((oA.data.set slot
        (token_manager_s_free (oA.data.getD slot default) ptr).1).getD k default) = true
      rw [list_getD_set_ne' (by omega)]
      exact a4 k hk2
  have hTB : ∀ tm2 ∈ ({ oA with data := oA.data.set slot (token_manager_s_free (oA.data.getD slot default) ptr).1 } : block_manager_s).data, ∃ tm1 ∈ oA.data, tm2.aligned = tm1.aligned := by
    intro tm2 htm2
    have htm2b : tm2 ∈ oA.data.set slot
        (token_manager_s_free (oA.data.getD slot default) ptr).1 := htm2
    rcases list_mem_set_strong htm2b with hm | ⟨_, rfl⟩
    · exact ⟨tm2, hm, rfl⟩
    · exact ⟨oA.data.getD slot default, list_getD_mem hslotA,
        token_manager_s_free_aligned _ _⟩
  by_cases hempF : token_manager_s_is_empty
      (token_manager_s_free (oA.data.getD slot default) ptr).1 = true
  · rw [if_pos hempF] at hrun
    have hempB : token_manager_s_is_empty (({ oA with data := oA.data.set slot (token_manager_s_free (oA.data.getD slot default) ptr).1 } : block_manager_s).data.getD slot default) = true := by
      show token_manager_s_is_empty ((oA.data.set slot
        (token_manager_s_free (oA.data.getD slot default) ptr).1).getD slot default) = true
      rw [list_getD_set_self' hslotA]
      exact hempF
    obtain ⟨e1, e2, e3, e4⟩ := block_manager_s_free_to_empty_C8 hstB
      (by rw [hlenB]; exact hslotA) hempB hrun
    refine ⟨e1, e3, ?_⟩
    intro tm2 htm2
    obtain ⟨tmB, htmB, he⟩ := e4 tm2 htm2
    obtain ⟨tm1, htm1, he2⟩ := hTB tmB htmB
    exact ⟨tm1, htm1, he.trans he2⟩
  · rw [if_neg hempF] at hrun
    simp only [Option.pure_def, Option.some.injEq, Prod.mk.injEq] at hrun
    obtain ⟨ho2, hb2, hrm⟩ := hrun
    rw [← ho2]
    exact ⟨rfl, hstB, hTB⟩

/-- A successful child-free report on a slot-aware block manager, for any
    pointer value (the code performs no validity check on it): the `aligned`
    flag is unchanged, the structure facts persist, and every surviving pool
    was already held before. -/
theorem block_manager_s_child_free_C8 {o : block_manager_s} {btree : List Nat}
    {child_slot ptr : Nat} {o2 : block_manager_s} {btree2 : List Nat}
    {removed : List token_manager_s}
    (hst : block_manager_struct_ok o) (hslot : child_slot < o.data.length)
    (hrun : block_manager_s_child_free o btree child_slot ptr =
      some (o2, btree2, removed)) :
    o2.aligned = o.aligned ∧ block_manager_struct_ok o2 ∧
    ∀ tm2 ∈ o2.data, ∃ tm1 ∈ o.data, tm2.aligned = tm1.aligned := by
  simp only [block_manager_s_child_free] at hrun
  by_cases hful : token_manager_s_is_full (o.data.getD child_slot default) = true
  · rw [if_pos hful] at hrun
    dsimp only at hrun
    obtain ⟨Fa, Ff, Fl, Fs, Ft⟩ := block_manager_s_full_to_free_C8 o child_slot hst hslot
    have hfi_len : o.free_index ≤ o.data.length := hst.1
    have hslotA : o.free_index - 1 <
        (block_manager_s_full_to_free o child_slot).data.length := by
      rw [Fl]
      omega
    have hfiA : (block_manager_s_full_to_free o child_slot).free_index ≤
        o.free_index - 1 := by
      rw [Ff]
    obtain ⟨t1, t2, t3⟩ := block_manager_child_free_tail_C8 Fs hslotA hfiA hrun
    refine ⟨t1.trans Fa, t2, ?_⟩
    intro tm2 htm2
    obtain ⟨tA, htA, he⟩ := t3 tm2 htm2
    obtain ⟨tm1, htm1, he2⟩ := Ft tA htA
    exact ⟨tm1, htm1, he.trans he2⟩
  · rw [if_neg hful] at hrun
    dsimp only at hrun
    have hfiA : o.free_index ≤ child_slot := by
      by_contra hc
      exact hful (hst.2.2.2 child_slot (by omega))
    exact block_manager_child_free_tail_C8 hst hslot hfiA hrun

/-- The take-a-block core of `block_manager_s_alloc` preserves the structure
    facts, leaves the flag unchanged, and preserves flag soundness. -/
theorem block_manager_alloc_core_C8 (o : block_manager_s)
    (hst : block_manager_struct_ok o) (hlt : o.free_index < o.data.length) :
    block_manager_struct_ok
      (if token_manager_s_is_full (token_manager_s_alloc (o.data.getD o.free_index default)).1 then { o with data := (o.data.set o.free_index (token_manager_s_alloc (o.data.getD o.free_index default)).1), free_index := o.free_index + 1 } else { o with data := (o.data.set o.free_index (token_manager_s_alloc (o.data.getD o.free_index default)).1) }) ∧
    (if token_manager_s_is_full (token_manager_s_alloc (o.data.getD o.free_index default)).1 then { o with data := (o.data.set o.free_index (token_manager_s_alloc (o.data.getD o.free_index default)).1), free_index := o.free_index + 1 } else { o with data := (o.data.set o.free_index (token_manager_s_alloc (o.data.getD o.free_index default)).1) } : block_manager_s).aligned = o.aligned ∧
    (block_manager_aligned_ok o → block_manager_aligned_ok
      (if token_manager_s_is_full (token_manager_s_alloc (o.data.getD o.free_index default)).1 then { o with data := (o.data.set o.free_index (token_manager_s_alloc (o.data.getD o.free_index default)).1), free_index := o.free_index + 1 } else { o with data := (o.data.set o.free_index (token_manager_s_alloc (o.data.getD o.free_index default)).1) })) := by
  obtain ⟨a1, a2, a3, a4⟩ := hst
  have Kget : ∀ k, (o.data.set o.free_index
      (token_manager_s_alloc (o.data.getD o.free_index default)).1).getD k default =
      if k = o.free_index then (token_manager_s_alloc (o.data.getD o.free_index default)).1
      else o.data.getD k default := by
    intro k
    by_cases hk : k = o.free_index
    · rw [if_pos hk, hk, list_getD_set_self' hlt]
    · rw [if_neg hk, list_getD_set_ne' (fun hh => hk hh.symm)]
  have Kok : block_manager_aligned_ok o → ∀ tm2 ∈ o.data.set o.free_index
      (token_manager_s_alloc (o.data.getD o.free_index default)).1,
      o.aligned = true → tm2.aligned = true := by
    intro hok tm2 htm2 hal
    rcases list_mem_set_strong htm2 with hm | ⟨_, rfl⟩
    · exact hok hal tm2 hm
    · rw [token_manager_s_alloc_aligned]
      exact hok hal _ (list_getD_mem hlt)
  have Kpar : ∀ k, k < o.data.length → ((o.data.set o.free_index
      (token_manager_s_alloc (o.data.getD o.free_index default)).1).getD k
        default).parent_index = k := by
    intro k hk
    rw [Kget k]
    by_cases hk1 : k = o.free_index
    · rw [if_pos hk1, token_manager_s_alloc_parent, hk1]
      exact a2 _ hlt
    · rw [if_neg hk1]
      exact a2 k hk
  by_cases hful : token_manager_s_is_full
      (token_manager_s_alloc (o.data.getD o.free_index default)).1 = true
  · rw [if_pos hful]
    refine ⟨⟨?_, ?_, ?_, ?_⟩, rfl, ?_⟩
    · show o.free_index + 1 ≤ (o.data.set o.free_index
        (token_manager_s_alloc (o.data.getD o.free_index default)).1).length
      rw [List.length_set]
      omega
    · intro k hk
      rw [List.length_set] at hk
      exact Kpar k hk
    · intro k hk
      have hk2 : k < o.free_index + 1 := hk
      show token_manager_s_is_empty ((o.data.set o.free_index
        (token_manager_s_alloc (o.data.getD o.free_index default)).1).getD k default) =
        false
      rw [Kget k]
      by_cases hk1 : k = o.free_index
      · rw [if_pos hk1]
        exact is_empty_alloc _
      · rw [if_neg hk1]
        exact a3 k (by omega)
    · intro k hk
      have hk2 : k < o.free_index + 1 := hk
      show token_manager_s_is_full ((o.data.set o.free_index
        (token_manager_s_alloc (o.data.getD o.free_index default)).1).getD k default) =
        true
      rw [Kget k]
      by_cases hk1 : k = o.free_index
      · rw [if_pos hk1]
        exact hful
      · rw [if_neg hk1]
        exact a4 k (by omega)
    · intro hok hal tm2 htm2
      exact Kok hok tm2 htm2 hal
  · rw [if_neg hful]
    refine ⟨⟨?_, ?_, ?_, ?_⟩, rfl, ?_⟩
    · show o.free_index ≤ (o.data.set o.free_index
        (token_manager_s_alloc (o.data.getD o.free_index default)).1).length
      rw [List.length_set]
      omega
    · intro k hk
      rw [List.length_set] at hk
      exact Kpar k hk
    · intro k hk
      have hk2 : k < o.free_index := hk
      show token_manager_s_is_empty ((o.data.set o.free_index
        (token_manager_s_alloc (o.data.getD o.free_index default)).1).getD k default) =
        false
      rw [Kget k, if_neg (by omega)]
      exact a3 k hk2
    · intro k hk
      have hk2 : k < o.free_index := hk
      show token_manager_s_is_full ((o.data.set o.free_index
        (token_manager_s_alloc (o.data.getD o.free_index default)).1).getD k default) =
        true
      rw [Kget k, if_neg (by omega)]
      exact a4 k hk2
    · intro hok hal tm2 htm2
      exact Kok hok tm2 htm2 hal

theorem block_manager_struct_ok_append (o : block_manager_s) (tmN : token_manager_s)
    (al : Bool) (hst : block_manager_struct_ok o)
    (hparN : tmN.parent_index = o.data.length) :
    block_manager_struct_ok { o with data := o.data ++ [tmN], aligned := al } := by
  obtain ⟨a1, a2, a3, a4⟩ := hst
  refine ⟨?_, ?_, ?_, ?_⟩
  · show o.free_index ≤ (o.data ++ [tmN]).length
    rw [List.length_append]
    omega
  · intro k hk
    have hk2 : k < (o.data ++ [tmN]).length := hk
    rw [List.length_append, List.length_singleton] at hk2
    show ((o.data ++ [tmN]).getD k default).parent_index = k
    by_cases hkl : k < o.data.length
    · rw [list_getD_append_left hkl]
      exact a2 k hkl
    · have hke : k = o.data.length := by omega
      rw [hke, list_getD_append_last]
      exact hparN
  · intro k hk
    have hk2 : k < o.free_index := hk
    show token_manager_s_is_empty ((o.data ++ [tmN]).getD k default) = false
    rw [list_getD_append_left (by omega)]
    exact a3 k hk2
  · intro k hk
    have hk2 : k < o.free_index := hk
    show token_manager_s_is_full ((o.data ++ [tmN]).getD k default) = true
    rw [list_getD_append_left (by omega)]
    exact a4 k hk2

/-- A successful `block_manager_s_alloc`: the structure facts persist; the
    flag survives when it stood and no alignment was lost; and flag soundness
    is preserved. -/
theorem block_manager_s_alloc_C8 {header_size : Nat} {o : block_manager_s}
    {btree : List Nat} {next_addr : Nat} {o2 : block_manager_s} {btree2 : List Nat}
    {ptr : Nat} {lost : Bool} {next2 : Nat}
    (hst : block_manager_struct_ok o)
    (hrun : block_manager_s_alloc header_size o btree next_addr =
      some (o2, btree2, ptr, lost, next2)) :
    block_manager_struct_ok o2 ∧
    (o.aligned = true → lost = false → o2.aligned = true) ∧
    (block_manager_aligned_ok o → block_manager_aligned_ok o2) := by
  unfold block_manager_s_alloc at hrun
  by_cases hfi : (o.free_index == o.data.length) = true
  · rw [if_pos hfi] at hrun
    have hfieq : o.free_index = o.data.length := by simpa using hfi
    rw [show platform_aligned_alloc next_addr
        (if o.align = true then o.pool_size else TBMAN_ALIGN) o.pool_size =
        (align_up next_addr (if o.align = true then o.pool_size else TBMAN_ALIGN),
         align_up next_addr (if o.align = true then o.pool_size else TBMAN_ALIGN) +
           o.pool_size) from rfl] at hrun
    dsimp only at hrun
    rcases hcr : token_manager_s_create header_size o.pool_size o.block_size
        (align_up next_addr (if o.align = true then o.pool_size else TBMAN_ALIGN))
      with _ | tm0
    · rw [hcr] at hrun
      simp at hrun
    · rw [hcr] at hrun
      simp only [Option.bind_eq_bind, Option.some_bind] at hrun
      rcases hbs : btree_vd_s_set btree tm0.base with _ | btree1
      · rw [hbs] at hrun
        simp at hrun
      · rw [hbs] at hrun
        simp only [Option.pure_def, Option.some_bind, Option.some.injEq,
          Prod.mk.injEq] at hrun
        obtain ⟨ho2, hb, hp, hl, hn⟩ := hrun
        have hstruct1 : block_manager_struct_ok { o with data := (o.data ++ [{ tm0 with parent_index := o.data.length }]), aligned := (o.aligned && tm0.aligned) } :=
          block_manager_struct_ok_append o _ _ hst rfl
        have hlt1 : ({ o with data := (o.data ++ [{ tm0 with parent_index := o.data.length }]), aligned := (o.aligned && tm0.aligned) } : block_manager_s).free_index < ({ o with data := (o.data ++ [{ tm0 with parent_index := o.data.length }]), aligned := (o.aligned && tm0.aligned) } : block_manager_s).data.length := by
          show o.free_index < (o.data ++ [{ tm0 with parent_index := o.data.length }]).length
          rw [List.length_append, List.length_singleton]
          omega
        have hcore := block_manager_alloc_core_C8 _ hstruct1 hlt1
        refine ⟨?_, ?_, ?_⟩
        · rw [← ho2]
          exact hcore.1
        · intro hal hlost
          rw [← ho2, hcore.2.1]
          have hl2 : (o.aligned && !tm0.aligned) = lost := hl
          rw [hal, hlost] at hl2
          have htm0 : tm0.aligned = true := by
            cases htm : tm0.aligned
            · rw [htm] at hl2
              simp at hl2
            · rfl
          show (o.aligned && tm0.aligned) = true
          rw [hal, htm0]
          rfl
        · intro hok
          rw [← ho2]
          apply hcore.2.2
          intro hal1 tm2 htm2
          have hal2 : (o.aligned && tm0.aligned) = true := hal1
          rw [Bool.and_eq_true] at hal2
          have htm2b : tm2 ∈ o.data ++ [{ tm0 with parent_index := o.data.length }] := htm2
          rcases List.mem_append.mp htm2b with hm | hm
          · exact hok hal2.1 tm2 hm
          · have htm2c : tm2 = { tm0 with parent_index := o.data.length } := by
              simpa using hm
            rw [htm2c]
            show tm0.aligned = true
            exact hal2.2
  · rw [if_neg hfi] at hrun
    dsimp only at hrun
    simp only [Option.pure_def, Option.some_bind, Option.some.injEq, Prod.mk.injEq] at hrun
    obtain ⟨ho2, hb, hp, hl, hn⟩ := hrun
    have hlt : o.free_index < o.data.length := by
      have hne : ¬(o.free_index = o.data.length) := by simpa using hfi
      have ha1 := hst.1
      omega
    have hcore := block_manager_alloc_core_C8 o hst hlt
    refine ⟨hcore.1, ?_, hcore.2.2⟩
    intro hal _
    rw [hcore.2.1]
    exact hal

theorem list_getD_oob {α : Type _} {l : List α} {i : Nat} (h : l.length ≤ i) (d : α) :
    l.getD i d = d := by
  rw [List.getD_eq_getElem?_getD, List.getElem?_eq_none h]
  rfl

/-- The slot returned by the pool-header lookup is in range of the owning
    block manager's vector. -/
theorem tbman_find_token_manager_lt {o : tbman_s} {base : Nat} {bi ti : Nat}
    (h : tbman_find_token_manager o base = some (bi, ti)) :
    ti < (o.data.getD bi default).data.length := by
  unfold tbman_find_token_manager at h
  rcases hf1 : o.data.findIdx? (fun bm => (tm_slot_of_base bm.data base).isSome)
    with _ | bi1
  · rw [hf1] at h
    simp at h
  · rw [hf1] at h
    rw [Option.some_bind] at h
    rcases hf2 : tm_slot_of_base (o.data.getD bi1 default).data base with _ | ti1
    · rw [hf2] at h
      simp at h
    · rw [hf2] at h
      simp only [Option.map_some'] at h
      have hp := Option.some.inj h
      have hbi : bi1 = bi := congrArg Prod.fst hp
      have hti : ti1 = ti := congrArg Prod.snd hp
      unfold tm_slot_of_base at hf2
      have hlt := (List.findIdx?_eq_some_iff_findIdx_eq.mp hf2).1
      rw [← hbi, ← hti]
      exact hlt

/-- The internal-class state update shared by `tbman_s_mem_alloc` and the
    class-move branch of `tbman_s_mem_realloc` preserves the claim C8
    invariant. -/
theorem tbman_internal_update_C8 {header_size : Nat} {o : tbman_s} {i : Nat}
    {bm2 : block_manager_s} {ib2 : List Nat} {rp : Nat} {lost2 : Bool} {na2 : Nat}
    (hinv : tbman_C8_inv o)
    (hba : block_manager_s_alloc header_size (o.data.getD i default) o.internal_btree
      o.next_addr = some (bm2, ib2, rp, lost2, na2)) :
    tbman_C8_inv { o with data := o.data.set i bm2, internal_btree := ib2, next_addr := na2, aligned := if lost2 then false else o.aligned } := by
  obtain ⟨⟨hA, hB⟩, hS⟩ := hinv
  have hsti : block_manager_struct_ok (o.data.getD i default) := by
    by_cases hi : i < o.data.length
    · exact hS _ (list_getD_mem hi)
    · rw [list_getD_oob (by omega) default]
      exact block_manager_struct_ok_default
  have hoki : block_manager_aligned_ok (o.data.getD i default) := by
    by_cases hi : i < o.data.length
    · exact hB _ (list_getD_mem hi)
    · rw [list_getD_oob (by omega) default]
      exact block_manager_aligned_ok_default
  obtain ⟨c1, c2, c3⟩ := block_manager_s_alloc_C8 hsti hba
  refine ⟨⟨?_, ?_⟩, ?_⟩
  · intro hal bm hbm
    have hal2 : (if lost2 = true then false else o.aligned) = true := hal
    by_cases hl2 : lost2 = true
    · rw [if_pos hl2] at hal2
      exact Bool.noConfusion hal2
    · rw [if_neg hl2] at hal2
      have hbm2 : bm ∈ o.data.set i bm2 := hbm
      rcases list_mem_set_strong hbm2 with hm | ⟨hi, rfl⟩
      · exact hA hal2 bm hm
      · have hl3 : lost2 = false := by
          revert hl2
          cases lost2 <;> simp
        exact c2 (hA hal2 _ (list_getD_mem hi)) hl3
  · intro bm hbm
    have hbm2 : bm ∈ o.data.set i bm2 := hbm
    rcases list_mem_set_strong hbm2 with hm | ⟨hi, rfl⟩
    · exact hB bm hm
    · exact c3 hoki
  · intro bm hbm
    have hbm2 : bm ∈ o.data.set i bm2 := hbm
    rcases list_mem_set_strong hbm2 with hm | ⟨hi, rfl⟩
    · exact hS bm hm
    · exact c1

/-- `tbman_s_mem_alloc` preserves the claim C8 invariant. -/
theorem tbman_s_mem_alloc_C8 {header_size : Nat} {o : tbman_s} {n : Nat}
    {s2 : tbman_s} {p g : Nat}
    (hinv : tbman_C8_inv o)
    (hrun : tbman_s_mem_alloc header_size o n = some (s2, p, g)) :
    tbman_C8_inv s2 := by
  unfold tbman_s_mem_alloc at hrun
  rcases hfc : tbman_find_class o.block_size_array n with _ | i
  · rw [hfc] at hrun
    dsimp only at hrun
    rw [show platform_aligned_alloc o.next_addr TBMAN_ALIGN n =
        (align_up o.next_addr TBMAN_ALIGN, align_up o.next_addr TBMAN_ALIGN + n)
        from rfl] at hrun
    dsimp only at hrun
    rcases heb : btree_ps_s_set o.external_btree (align_up o.next_addr TBMAN_ALIGN) n
      with _ | eb
    · rw [heb] at hrun
      simp at hrun
    · rw [heb] at hrun
      simp only [Option.pure_def, Option.some_bind, Option.some.injEq,
        Prod.mk.injEq] at hrun
      obtain ⟨hs2, hp, hg⟩ := hrun
      obtain ⟨⟨hA, hB⟩, hS⟩ := hinv
      exact ⟨⟨hA, hB⟩, hS⟩
  · rw [hfc] at hrun
    dsimp only at hrun
    rcases hba : block_manager_s_alloc header_size (o.data.getD i default)
        o.internal_btree o.next_addr with _ | r
    · rw [hba] at hrun
      simp at hrun
    · obtain ⟨bm2, ib2, ptr2, lost2, na2⟩ := r
      rw [hba] at hrun
      simp only [Option.pure_def, Option.some_bind, Option.some.injEq,
        Prod.mk.injEq] at hrun
      obtain ⟨hs2, hp, hg⟩ := hrun
      exact tbman_internal_update_C8 hinv hba

/-- `tbman_s_free_internal` preserves the claim C8 invariant. -/
theorem tbman_s_free_internal_C8 {o : tbman_s} {base ptr : Nat} {s2 : tbman_s}
    (hinv : tbman_C8_inv o)
    (hrun : tbman_s_free_internal o base ptr = some s2) :
    tbman_C8_inv s2 := by
  obtain ⟨⟨hA, hB⟩, hS⟩ := hinv
  unfold tbman_s_free_internal at hrun
  rcases hf : tbman_find_token_manager o base with _ | bt
  · rw [hf] at hrun
    simp at hrun
  · obtain ⟨bi, ti⟩ := bt
    rw [hf] at hrun
    simp only [Option.bind_eq_bind, Option.some_bind] at hrun
    rcases hcf : block_manager_s_child_free (o.data.getD bi default) o.internal_btree
        ti ptr with _ | cf
    · rw [hcf] at hrun
      simp at hrun
    · obtain ⟨bm2, ib2, rm⟩ := cf
      rw [hcf] at hrun
      simp only [Option.bind_eq_bind, Option.pure_def, Option.some_bind,
        Option.some.injEq] at hrun
      have hsti : block_manager_struct_ok (o.data.getD bi default) := by
        by_cases hi : bi < o.data.length
        · exact hS _ (list_getD_mem hi)
        · rw [list_getD_oob (by omega) default]
          exact block_manager_struct_ok_default
      have hoki : block_manager_aligned_ok (o.data.getD bi default) := by
        by_cases hi : bi < o.data.length
        · exact hB _ (list_getD_mem hi)
        · rw [list_getD_oob (by omega) default]
          exact block_manager_aligned_ok_default
      have hti := tbman_find_token_manager_lt hf
      obtain ⟨c1, c2, c3⟩ := block_manager_s_child_free_C8 hsti hti hcf
      rw [← hrun]
      refine ⟨⟨?_, ?_⟩, ?_⟩
      · intro hal bm hbm
        have hbm2 : bm ∈ o.data.set bi bm2 := hbm
        rcases list_mem_set_strong hbm2 with hm | ⟨hi, rfl⟩
        · exact hA hal bm hm
        · rw [c1]
          exact hA hal _ (list_getD_mem hi)
      · intro bm hbm
        have hbm2 : bm ∈ o.data.set bi bm2 := hbm
        rcases list_mem_set_strong hbm2 with hm | ⟨hi, rfl⟩
        · exact hB bm hm
        · intro hal tm2 htm2
          obtain ⟨tm1, htm1, he⟩ := c3 tm2 htm2
          rw [he]
          refine hB _ (list_getD_mem hi) ?_ tm1 htm1
          rw [← c1]
          exact hal
      · intro bm hbm
        have hbm2 : bm ∈ o.data.set bi bm2 := hbm
        rcases list_mem_set_strong hbm2 with hm | ⟨hi, rfl⟩
        · exact hS bm hm
        · exact c2

/-- `tbman_s_mem_free` preserves the claim C8 invariant. -/
theorem tbman_s_mem_free_C8 {o : tbman_s} {cp : Nat} {cs : Option Nat} {s2 : tbman_s}
    (hinv : tbman_C8_inv o)
    (hrun : tbman_s_mem_free o cp cs = some s2) :
    tbman_C8_inv s2 := by
  unfold tbman_s_mem_free at hrun
  rcases ho : tbman_owner_base o cp cs with _ | base
  · rw [ho] at hrun
    dsimp only at hrun
    rcases hrm : btree_ps_s_remove o.external_btree cp with _ | eb
    · rw [hrm] at hrun
      simp at hrun
    · rw [hrm] at hrun
      simp only [Option.bind_eq_bind, Option.pure_def, Option.some_bind,
        Option.some.injEq] at hrun
      obtain ⟨⟨hA, hB⟩, hS⟩ := hinv
      rw [← hrun]
      exact ⟨⟨hA, hB⟩, hS⟩
  · rw [ho] at hrun
    dsimp only at hrun
    exact tbman_s_free_internal_C8 hinv hrun

/-- `tbman_s_mem_realloc` preserves the claim C8 invariant. -/
theorem tbman_s_mem_realloc_C8 {header_size : Nat} {o : tbman_s} {cp : Nat}
    {cs : Option Nat} {rq : Nat} {s2 : tbman_s} {p g : Nat}
    (hinv : tbman_C8_inv o)
    (hrun : tbman_s_mem_realloc header_size o cp cs rq = some (s2, p, g)) :
    tbman_C8_inv s2 := by
  unfold tbman_s_mem_realloc at hrun
  rcases ho : tbman_owner_base o cp cs with _ | base
  · rw [ho] at hrun
    dsimp only at hrun
    by_cases hle : rq ≤ o.max_block_size
    · rw [if_pos hle] at hrun
      rcases hma : tbman_s_mem_alloc header_size o rq with _ | r1
      · rw [hma] at hrun
        simp at hrun
      · obtain ⟨o1, rp1, g1⟩ := r1
        rw [hma] at hrun
        simp only [Option.bind_eq_bind, Option.some_bind] at hrun
        rcases hrm : btree_ps_s_remove o1.external_btree cp with _ | eb
        · rw [hrm] at hrun
          simp at hrun
        · rw [hrm] at hrun
          simp only [Option.bind_eq_bind, Option.pure_def, Option.some_bind,
            Option.some.injEq, Prod.mk.injEq] at hrun
          obtain ⟨⟨hA, hB⟩, hS⟩ := tbman_s_mem_alloc_C8 hinv hma
          rw [← hrun.1]
          exact ⟨⟨hA, hB⟩, hS⟩
    · rw [if_neg hle] at hrun
      rcases hv : btree_ps_s_val o.external_btree cp with _ | ceb
      · rw [hv] at hrun
        simp at hrun
      · rw [hv] at hrun
        simp only [Option.bind_eq_bind, Option.some_bind] at hrun
        by_cases hkeep : (decide (rq < ceb) && decide (rq ≥ ceb >>> 1)) = true
        · rw [if_pos hkeep] at hrun
          simp only [Option.pure_def, Option.some.injEq, Prod.mk.injEq] at hrun
          rw [← hrun.1]
          exact hinv
        · rw [if_neg hkeep] at hrun
          rw [show platform_aligned_alloc o.next_addr TBMAN_ALIGN rq =
              (align_up o.next_addr TBMAN_ALIGN, align_up o.next_addr TBMAN_ALIGN + rq)
              from rfl] at hrun
          dsimp only at hrun
          rcases hset : btree_ps_s_set o.external_btree (align_up o.next_addr TBMAN_ALIGN)
              rq with _ | eb1
          · rw [hset] at hrun
            simp at hrun
          · rw [hset] at hrun
            simp only [Option.bind_eq_bind, Option.some_bind] at hrun
            rcases hrm2 : btree_ps_s_remove eb1 cp with _ | eb2
            · rw [hrm2] at hrun
              simp at hrun
            · rw [hrm2] at hrun
              simp only [Option.pure_def, Option.some_bind, Option.some.injEq,
                Prod.mk.injEq] at hrun
              obtain ⟨⟨hA, hB⟩, hS⟩ := hinv
              rw [← hrun.1]
              exact ⟨⟨hA, hB⟩, hS⟩
  · rw [ho] at hrun
    dsimp only at hrun
    rcases hf : tbman_find_token_manager o base with _ | bt
    · rw [hf] at hrun
      simp at hrun
    · obtain ⟨bi, ti⟩ := bt
      rw [hf] at hrun
      simp only [Option.bind_eq_bind, Option.some_bind] at hrun
      by_cases hgt : rq > ((o.data.getD bi default).data.getD ti default).block_size
      · rw [if_pos hgt] at hrun
        rcases hma : tbman_s_mem_alloc header_size o rq with _ | r1
        · rw [hma] at hrun
          simp at hrun
        · obtain ⟨o1, rp1, g1⟩ := r1
          rw [hma] at hrun
          simp only [Option.bind_eq_bind, Option.some_bind] at hrun
          rcases hfr : tbman_s_free_internal o1 base cp with _ | o2x
          · rw [hfr] at hrun
            simp at hrun
          · rw [hfr] at hrun
            simp only [Option.pure_def, Option.some_bind, Option.some.injEq,
              Prod.mk.injEq] at hrun
            rw [← hrun.1]
            exact tbman_s_free_internal_C8 (tbman_s_mem_alloc_C8 hinv hma) hfr
      · rw [if_neg hgt] at hrun
        rcases hfc : tbman_find_class o.block_size_array rq with _ | i
        · rw [hfc] at hrun
          simp at hrun
        · rw [hfc] at hrun
          dsimp only at hrun
          by_cases hne : ((o.data.getD i default).block_size !=
              ((o.data.getD bi default).data.getD ti default).block_size) = true
          · rw [if_pos hne] at hrun
            rcases hba : block_manager_s_alloc header_size (o.data.getD i default)
                o.internal_btree o.next_addr with _ | r2
            · rw [hba] at hrun
              simp at hrun
            · obtain ⟨bm2, ib2, rp2, lost2, na2⟩ := r2
              rw [hba] at hrun
              simp only [Option.bind_eq_bind, Option.some_bind] at hrun
              rcases hfr : tbman_s_free_internal { o with data := o.data.set i bm2, internal_btree := ib2, next_addr := na2, aligned := if lost2 then false else o.aligned } base cp with _ | o2x
              · rw [hfr] at hrun
                simp at hrun
              · rw [hfr] at hrun
                simp only [Option.pure_def, Option.some_bind, Option.some.injEq,
                  Prod.mk.injEq] at hrun
                rw [← hrun.1]
                exact tbman_s_free_internal_C8 (tbman_internal_update_C8 hinv hba) hfr
          · rw [if_neg hne] at hrun
            simp only [Option.pure_def, Option.some.injEq, Prod.mk.injEq] at hrun
            rw [← hrun.1]
            exact hinv

/-- `tbman_s_alloc` (the unified entry point) preserves the claim C8
    invariant. -/
theorem tbman_s_alloc_C8 {header_size : Nat} {o : tbman_s} {cp rq : Nat}
    {s2 : tbman_s} {p g : Nat}
    (hinv : tbman_C8_inv o)
    (hrun : tbman_s_alloc header_size o cp rq = some (s2, p, g)) :
    tbman_C8_inv s2 := by
  unfold tbman_s_alloc at hrun
  by_cases h0 : (rq == 0) = true
  · rw [if_pos h0] at hrun
    by_cases h1 : (cp != 0) = true
    · rw [if_pos h1] at hrun
      rcases hmf : tbman_s_mem_free o cp none with _ | o1
      · rw [hmf] at hrun
        simp at hrun
      · rw [hmf] at hrun
        simp only [Option.bind_eq_bind, Option.some_bind, Option.pure_def,
          Option.some.injEq, Prod.mk.injEq] at hrun
        rw [← hrun.1]
        exact tbman_s_mem_free_C8 hinv hmf
    · rw [if_neg h1] at hrun
      simp only [Option.pure_def, Option.some.injEq, Prod.mk.injEq] at hrun
      rw [← hrun.1]
      exact hinv
  · rw [if_neg h0] at hrun
    by_cases h1 : (cp != 0) = true
    · rw [if_pos h1] at hrun
      exact tbman_s_mem_realloc_C8 hinv hrun
    · rw [if_neg h1] at hrun
      exact tbman_s_mem_alloc_C8 hinv hrun

/-- `tbman_s_nalloc` preserves the claim C8 invariant. -/
theorem tbman_s_nalloc_C8 {header_size : Nat} {o : tbman_s} {cp csz rq : Nat}
    {s2 : tbman_s} {p g : Nat}
    (hinv : tbman_C8_inv o)
    (hrun : tbman_s_nalloc header_size o cp csz rq = some (s2, p, g)) :
    tbman_C8_inv s2 := by
  unfold tbman_s_nalloc at hrun
  by_cases h0 : (rq == 0) = true
  · rw [if_pos h0] at hrun
    by_cases h1 : (csz != 0) = true
    · rw [if_pos h1] at hrun
      rcases hmf : tbman_s_mem_free o cp (some csz) with _ | o1
      · rw [hmf] at hrun
        simp at hrun
      · rw [hmf] at hrun
        simp only [Option.bind_eq_bind, Option.some_bind, Option.pure_def,
          Option.some.injEq, Prod.mk.injEq] at hrun
        rw [← hrun.1]
        exact tbman_s_mem_free_C8 hinv hmf
    · rw [if_neg h1] at hrun
      simp only [Option.pure_def, Option.some.injEq, Prod.mk.injEq] at hrun
      rw [← hrun.1]
      exact hinv
  · rw [if_neg h0] at hrun
    by_cases h1 : (csz != 0) = true
    · rw [if_pos h1] at hrun
      exact tbman_s_mem_realloc_C8 hinv hrun
    · rw [if_neg h1] at hrun
      exact tbman_s_mem_alloc_C8 hinv hrun

/-- A freshly initialised manager satisfies the claim C8 invariant. -/
theorem tbman_s_init_C8 {ps mbs Mbs sm : Nat} {fa : Bool} {s : tbman_s}
    (h : tbman_s_init ps mbs Mbs sm fa = some s) : tbman_C8_inv s := by
  unfold tbman_s_init at h
  rcases hbs : tbman_block_sizes mbs Mbs sm with _ | sizes
  · rw [hbs] at h
    simp at h
  · rw [hbs] at h
    simp only [Option.bind_eq_bind, Option.some_bind, Option.pure_def,
      Option.some.injEq] at h
    rw [← h]
    refine ⟨⟨?_, ?_⟩, ?_⟩
    · intro _ bm hbm
      simp only [List.mem_map] at hbm
      obtain ⟨b, hb, rfl⟩ := hbm
      rfl
    · intro bm hbm
      simp only [List.mem_map] at hbm
      obtain ⟨b, hb, rfl⟩ := hbm
      intro hal tm htm
      simp [block_manager_s_create] at htm
    · intro bm hbm
      simp only [List.mem_map] at hbm
      obtain ⟨b, hb, rfl⟩ := hbm
      refine ⟨Nat.le_refl 0, ?_, ?_, ?_⟩ <;> intro k hk <;>
        simp [block_manager_s_create] at hk

/-- Every reachable manager state satisfies the claim C8 invariant. -/
theorem tbman_reachable_C8 {header_size : Nat} {s : tbman_s}
    (h : tbman_reachable header_size s) : tbman_C8_inv s := by
  induction h with
  | init ps mbs Mbs sm fa s hs => exact tbman_s_init_C8 hs
  | alloc s cp rq s2 p g _ hrun ih => exact tbman_s_alloc_C8 ih hrun
  | nalloc s cp csz rq s2 p g _ hrun ih => exact tbman_s_nalloc_C8 ih hrun

/-- Counterexample to claim C8 as stated: the aligned flags are one-way.  From
    a manager initialised with `pool_size = 512` and one 64-byte class without
    full alignment, one allocation creates a pool at address 256, which is not
    512-aligned, so the class's `aligned` flag (and the manager's) drops to
    `false`.  Freeing that allocation empties the pool and the sweep destroys
    it, after which the class holds NO pool at all - "every token manager it
    holds is aligned" is vacuously true - yet its `aligned` flag remains
    `false` (the code never raises it again, tbman.cpp:360-363 only ever
    lowers it), refuting the claimed "if and only if". -/
theorem claim_C8_counterexample :
    ((tbman_s_alloc 48 ((tbman_s_init 512 64 64 1 false).getD default) 0 64).bind
      (fun r => tbman_s_alloc 48 r.1 r.2.1 0)).map
      (fun r => ((r.1.data.getD 0 default).aligned,
        (r.1.data.getD 0 default).data.length)) = some (false, 0) := by
  decide

/-- C8 (amended): in every state reachable by any sequence of public entry
    point calls, the alignment flags are SOUND but not complete: a standing
    manager flag means every block manager flag stands, and a standing block
    manager flag means every pool it currently holds is pool-size aligned.
    The converse directions claimed by the specification do not hold: the
    flags are never raised again once dropped (see the counterexample). -/
theorem claim_C8_alignment (header_size : Nat) (s : tbman_s)
    (h : tbman_reachable header_size s) :
    (s.aligned = true → ∀ bm ∈ s.data, bm.aligned = true) ∧
    ∀ bm ∈ s.data, bm.aligned = true → ∀ tm ∈ bm.data, tm.aligned = true := by
  obtain ⟨⟨hA, hB⟩, _⟩ := tbman_reachable_C8 h
  exact ⟨hA, fun bm hbm => hB bm hbm⟩

/-- C8 witness: the default manager state is reachable and satisfies the
    amended soundness properties. -/
theorem claim_C8_alignment_witness :
    tbman_reachable 48 tbman_default_state ∧
    ((tbman_default_state.aligned = true →
      ∀ bm ∈ tbman_default_state.data, bm.aligned = true) ∧
     ∀ bm ∈ tbman_default_state.data, bm.aligned = true →
       ∀ tm ∈ bm.data, tm.aligned = true) := by
  have hr : tbman_reachable 48 tbman_default_state :=
    tbman_reachable.init 65536 8 16384 1 true _ rfl
  exact ⟨hr, claim_C8_alignment 48 tbman_default_state hr⟩

/-! ### Claim C1: immediate same-size realloc -/

theorem list_findIdx_aux_some {α : Type _} [Inhabited α] (pr : α → Bool) :
    ∀ (l : List α) (i acc : Nat), i < l.length → pr (l.getD i default) = true →
    (∀ j, j < i → pr (l.getD j default) = false) →
    List.findIdx? pr l acc = some (acc + i) := by
  intro l
  induction l with
  | nil =>
    intro i acc hi _ _
    simp at hi
  | cons x xs ih =>
    intro i acc hi hp hlt
    rw [List.findIdx?_cons]
    cases i with
    | zero =>
      rw [if_pos (by simpa using hp)]
      rfl
    | succ i0 =>
      have hx : pr x = false := by simpa using hlt 0 (Nat.succ_pos i0)
      rw [if_neg (by simp [hx])]
      rw [ih i0 (acc + 1) (by simpa using hi) (by simpa using hp)
        (fun j hj => by simpa using hlt (j + 1) (by omega))]
      congr 1
      omega

theorem list_findIdx?_eq_some_of {α : Type _} [Inhabited α] {pr : α → Bool}
    {l : List α} {i : Nat} (hi : i < l.length) (hp : pr (l.getD i default) = true)
    (hlt : ∀ j, j < i → pr (l.getD j default) = false) :
    l.findIdx? pr = some i := by
  have h := list_findIdx_aux_some pr l i 0 hi hp hlt
  simpa using h

set_option maxRecDepth 4000 in
theorem tbman_small_data_length : tbman_small_state.data.length = 8 := by decide

/-- Second call of the claim C1 internal case, over an abstract state with the
    relevant field facts: a realloc of `n` bytes on pointer `p1` owned by the
    single pool (at address 4096) of class `i` whose block size is at least
    `n` stays in place: same state, same pointer, granted the block size. -/
theorem tbman_C1_second (s1 : tbman_s) (bm1 : block_manager_s) (i n p1 : Nat)
    (hn : (n == 0) = false) (hp0 : (p1 != 0) = true)
    (hi' : i < tbman_small_state.data.length)
    (hdata : s1.data = tbman_small_state.data.set i bm1)
    (hib : s1.internal_btree = [4096])
    (hps : s1.pool_size = 4096)
    (hbsa : s1.block_size_array = tbman_small_state.block_size_array)
    (hfc : tbman_find_class tbman_small_state.block_size_array n = some i)
    (hbase1 : 4096 ≤ p1) (hbase2 : p1 - 4096 < 4096)
    (hslot0 : tm_slot_of_base bm1.data 4096 = some 0)
    (htm : (bm1.data.getD 0 default).block_size = bm1.block_size)
    (hbs : n ≤ bm1.block_size)
    (hempty : ∀ j, j < 8 → ¬ j = i →
      tm_slot_of_base (tbman_small_state.data.getD j default).data 4096 = none) :
    tbman_s_alloc 48 s1 p1 n = some (s1, p1, bm1.block_size) := by
  have hi8 : i < 8 := by
    rw [tbman_small_data_length] at hi'
    exact hi'
  have hDi : s1.data.getD i default = bm1 := by
    rw [hdata]
    exact list_getD_set_self' hi'
  unfold tbman_s_alloc
  rw [if_neg (by simp [hn]), if_pos hp0]
  unfold tbman_s_mem_realloc
  have howner : tbman_owner_base s1 p1 none = some 4096 := by
    unfold tbman_owner_base
    rw [if_neg (by simp)]
    have hlbe : btree_vd_s_largest_below_equal s1.internal_btree p1 = some 4096 := by
      rw [hib]
      unfold btree_vd_s_largest_below_equal
      rw [show (([4096] : List Nat).filter fun k => decide (k ≤ p1)) = [4096] from
        by simp [hbase1]]
      rfl
    rw [hlbe]
    dsimp only
    rw [if_pos (by rw [hps]; exact hbase2)]
  simp only [howner]
  have hftm : tbman_find_token_manager s1 4096 = some (i, 0) := by
    unfold tbman_find_token_manager
    have hidx : List.findIdx? (fun bm => (tm_slot_of_base bm.data 4096).isSome)
        s1.data = some i := by
      rw [hdata]
      apply list_findIdx?_eq_some_of
      · rw [List.length_set]
        exact hi'
      · rw [list_getD_set_self' hi', hslot0]
        rfl
      · intro j hj
        rw [list_getD_set_ne' (fun hh => by omega)]
        rw [hempty j (by omega) (by omega)]
        rfl
    rw [hidx, Option.some_bind]
    rw [hDi, hslot0]
    rfl
  simp only [hftm, Option.bind_eq_bind, Option.some_bind]
  rw [hDi]
  rw [if_neg (by rw [htm]; omega)]
  rw [hbsa, hfc]
  dsimp only
  rw [hDi]
  rw [if_neg (by rw [htm]; simp)]
  rw [htm]
  rfl

/-- Core of the claim C1 internal case: from the fresh small configuration, an
    allocation of `n` bytes lands in class `i` and the immediately following
    same-size realloc on the returned pointer is a no-op: same state, same
    pointer, same granted size. -/
theorem tbman_C1_internal_core (i n : Nat) (hn : (n == 0) = false) (hi : i < 8)
    (hfc : tbman_find_class tbman_small_state.block_size_array n = some i)
    (bm1 : block_manager_s) (ib1 : List Nat) (p1 : Nat) (lost1 : Bool) (na1 : Nat)
    (hba : block_manager_s_alloc 48 (tbman_small_state.data.getD i default)
      tbman_small_state.internal_btree tbman_small_state.next_addr =
      some (bm1, ib1, p1, lost1, na1))
    (hp0 : (p1 != 0) = true)
    (hib : ib1 = [4096])
    (hbase1 : 4096 ≤ p1) (hbase2 : p1 - 4096 < 4096)
    (hslot0 : tm_slot_of_base bm1.data 4096 = some 0)
    (htm : (bm1.data.getD 0 default).block_size = bm1.block_size)
    (hbs : n ≤ bm1.block_size)
    (hempty : ∀ j, j < 8 → ¬ j = i →
      tm_slot_of_base (tbman_small_state.data.getD j default).data 4096 = none) :
    ∃ s1, tbman_s_alloc 48 tbman_small_state 0 n = some (s1, p1, bm1.block_size) ∧
      tbman_s_alloc 48 s1 p1 n = some (s1, p1, bm1.block_size) := by
  have hi' : i < tbman_small_state.data.length := by
    rw [tbman_small_data_length]
    exact hi
  refine ⟨{ tbman_small_state with data := tbman_small_state.data.set i bm1, internal_btree := ib1, next_addr := na1, aligned := if lost1 then false else tbman_small_state.aligned }, ?_, ?_⟩
  · unfold tbman_s_alloc
    rw [if_neg (by simp [hn])]
    rw [if_neg (by decide)]
    unfold tbman_s_mem_alloc
    rw [hfc]
    dsimp only
    rw [hba]
    simp only [Option.bind_eq_bind, Option.some_bind, Option.pure_def]
  · exact tbman_C1_second _ bm1 i n p1 hn hp0 hi' rfl hib rfl rfl hfc hbase1 hbase2
      hslot0 htm hbs hempty

/-- Per-class wrapper: the decidable class facts imply the internal no-op
    round trip. -/
theorem tbman_C1_internal (i n : Nat) (hn : (n == 0) = false) (hi : i < 8)
    (hfc : tbman_find_class tbman_small_state.block_size_array n = some i)
    (hbs : n ≤ tbman_small_state.block_size_array.getD i 0)
    (hok : tbman_C1_class_ok i = true) :
    ∃ s1 p1 g, tbman_s_alloc 48 tbman_small_state 0 n = some (s1, p1, g) ∧
      tbman_s_alloc 48 s1 p1 n = some (s1, p1, g) := by
  unfold tbman_C1_class_ok at hok
  rcases hba : block_manager_s_alloc 48 (tbman_small_state.data.getD i default)
      tbman_small_state.internal_btree tbman_small_state.next_addr with _ | r
  · simp only [hba] at hok
    exact Bool.noConfusion hok
  · obtain ⟨bm1, ib1, p1, lost1, na1⟩ := r
    simp only [hba, Bool.and_eq_true, beq_iff_eq, bne_iff_ne, decide_eq_true_eq,
      List.all_eq_true, List.mem_range, Bool.or_eq_true,
      Option.isNone_iff_eq_none] at hok
    obtain ⟨⟨⟨⟨⟨⟨⟨hp0, hib⟩, hb1⟩, hb2⟩, hslot⟩, htm⟩, hbseq⟩, hemp⟩ := hok
    have hemp2 : ∀ j, j < 8 → ¬ j = i →
        tm_slot_of_base (tbman_small_state.data.getD j default).data 4096 = none := by
      intro j hj hne
      rcases hemp j hj with h1 | h1
      · exact absurd h1 hne
      · exact h1
    have hp0b : (p1 != 0) = true := by
      simp [hp0]
    obtain ⟨s1, h1, h2⟩ := tbman_C1_internal_core i n hn hi hfc bm1 ib1 p1 lost1 na1
      hba hp0b hib hb1 hb2 hslot htm (by omega) hemp2
    exact ⟨s1, p1, bm1.block_size, h1, h2⟩

/-- Second call of the claim C1 external case, over an abstract state with the
    relevant field facts: a same-size realloc of an oversize external block
    RELOCATES it - the keep-in-place test `requested < current` fails for
    `requested = current` - returning a fresh platform address. -/
theorem tbman_C1_external_second (s1 : tbman_s) (n : Nat)
    (hn : (n == 0) = false)
    (hib : s1.internal_btree = [])
    (hmax : s1.max_block_size = 1024)
    (heb : s1.external_btree = [(256, n)])
    (hna : s1.next_addr = 256 + n)
    (hgt : 1024 < n) :
    tbman_s_alloc 48 s1 256 n =
      some ({ s1 with external_btree := [(align_up (256 + n) 256, n)], next_addr := align_up (256 + n) 256 + n }, align_up (256 + n) 256, n) ∧
    align_up (256 + n) 256 ≠ 256 := by
  have hal : 256 + n ≤ align_up (256 + n) 256 := by
    unfold align_up
    have h1 := Nat.div_add_mod (256 + n + 256 - 1) 256
    have h2 : (256 + n + 256 - 1) % 256 < 256 := Nat.mod_lt _ (by omega)
    omega
  have hne256 : (align_up (256 + n) 256 == 256) = false := by
    simp only [beq_eq_false_iff_ne]
    omega
  refine ⟨?_, by omega⟩
  unfold tbman_s_alloc
  rw [if_neg (by simp [hn]), if_pos (by decide)]
  unfold tbman_s_mem_realloc
  have howner : tbman_owner_base s1 256 none = none := by
    unfold tbman_owner_base
    rw [if_neg (by simp)]
    rw [show btree_vd_s_largest_below_equal s1.internal_btree 256 = none from
      by rw [hib]; rfl]
  simp only [howner]
  rw [if_neg (by rw [hmax]; omega)]
  rw [show btree_ps_s_val s1.external_btree 256 = some n from by rw [heb]; rfl]
  simp only [Option.bind_eq_bind, Option.some_bind]
  rw [if_neg (by simp)]
  rw [hna]
  rw [show platform_aligned_alloc (256 + n) TBMAN_ALIGN n =
    (align_up (256 + n) 256, align_up (256 + n) 256 + n) from rfl]
  dsimp only
  rw [show btree_ps_s_set s1.external_btree (align_up (256 + n) 256) n =
      some ((align_up (256 + n) 256, n) :: s1.external_btree) from by
    unfold btree_ps_s_set
    rw [heb]
    rw [show List.lookup (align_up (256 + n) 256) [(256, n)] = none from by
      simp [List.lookup, hne256]]
    rw [if_neg (by simp)]]
  simp only [Option.some_bind]
  rw [show btree_ps_s_remove ((align_up (256 + n) 256, n) :: s1.external_btree) 256 =
      some [(align_up (256 + n) 256, n)] from by
    unfold btree_ps_s_remove
    rw [heb]
    rw [show List.lookup 256 ((align_up (256 + n) 256, n) :: [(256, n)]) = some n from by
      have hb : ((256 : Nat) == align_up (256 + n) 256) = false := by
        simp only [beq_eq_false_iff_ne]
        omega
      simp [List.lookup, hb]]
    rw [if_pos (by rfl)]
    rw [show (((align_up (256 + n) 256, n) :: [((256 : Nat), n)]).filter
        fun kv => kv.1 != 256) = [(align_up (256 + n) 256, n)] from by
      simp only [List.filter]
      rw [show ((align_up (256 + n) 256, n).1 != 256) = true from by
        simp only [bne_iff_ne]
        intro hh
        omega]
      rw [show (((256 : Nat), n).1 != 256) = false from by simp]]]
  simp only [Option.some_bind]
  rfl

/-- First call of the claim C1 external case: an oversize request from the
    fresh small configuration takes the platform path at address 256. -/
theorem tbman_C1_external_first (n : Nat) (hn : (n == 0) = false) (hgt : 1024 < n) :
    tbman_s_alloc 48 tbman_small_state 0 n =
      some ({ tbman_small_state with external_btree := [(256, n)], next_addr := 256 + n }, 256, n) := by
  have hfcn : tbman_find_class tbman_small_state.block_size_array n = none := by
    rw [tbman_find_class_none]
    intro b hb
    have hall : ∀ b ∈ tbman_small_state.block_size_array, b ≤ 1024 := by decide
    have := hall b hb
    omega
  unfold tbman_s_alloc
  rw [if_neg (by simp [hn]), if_neg (by decide)]
  unfold tbman_s_mem_alloc
  rw [hfcn]
  dsimp only
  rw [show platform_aligned_alloc tbman_small_state.next_addr TBMAN_ALIGN n =
    (256, 256 + n) from rfl]
  dsimp only
  rw [show btree_ps_s_set tbman_small_state.external_btree 256 n = some [(256, n)]
    from rfl]
  simp only [Option.bind_eq_bind, Option.some_bind, Option.pure_def]

/-- Counterexample to claim C1 as stated: with the default configuration, an
    oversize request (`n = 17000 > max_block_size = 16384`) is served
    externally at address 256, and the immediately following same-size
    `alloc(p, 17000)` does NOT return the same pointer: the keep-in-place test
    at tbman.cpp:755 requires `requested_size < current_size`, which fails for
    equal sizes, so the block is relocated (to address 17408 here) even though
    the granted size is unchanged. -/
theorem claim_C1_counterexample :
    (tbman_s_alloc 48 tbman_default_state 0 17000).map (fun r => (r.2.1, r.2.2)) =
      some (256, 17000) ∧
    ((tbman_s_alloc 48 tbman_default_state 0 17000).bind
      (fun r => tbman_s_alloc 48 r.1 r.2.1 17000)).map (fun r => (r.2.1, r.2.2)) =
      some (17408, 17000) := by
  constructor <;> decide

set_option maxRecDepth 4000 in
/-- C1 (amended): for every request size `n ≥ 1` from a fresh manager (small
    configuration, classes 8 to 1024): the first allocation succeeds, and the
    immediately following same-size `alloc(p, n)` is a no-op - same state,
    same pointer, same granted size - WHEN the request is served internally
    (`n ≤ max_block_size`).  For an oversize request the granted size is again
    `n` but the call relocates the block: the returned pointer differs,
    contrary to the original claim. -/
theorem claim_C1_realloc_noop (n : Nat) (hn : 1 ≤ n) :
    ∃ s1 p g, tbman_s_alloc 48 tbman_small_state 0 n = some (s1, p, g) ∧
      (n ≤ tbman_small_state.max_block_size →
        tbman_s_alloc 48 s1 p n = some (s1, p, g)) ∧
      (tbman_small_state.max_block_size < n →
        g = n ∧ ∃ s2 p2 g2, tbman_s_alloc 48 s1 p n = some (s2, p2, g2) ∧
          g2 = n ∧ p2 ≠ p) := by
  have hmax : tbman_small_state.max_block_size = 1024 := by decide
  have hn0 : (n == 0) = false := by
    simp only [beq_eq_false_iff_ne]
    omega
  by_cases hle : n ≤ 1024
  · rcases hfc0 : tbman_find_class tbman_small_state.block_size_array n with _ | i
    · exfalso
      have hall := (tbman_find_class_none _ _).mp hfc0
      have hmem : (1024 : Nat) ∈ tbman_small_state.block_size_array := by decide
      have := hall _ hmem
      omega
    · obtain ⟨hleni, hge, _⟩ := tbman_find_class_some _ _ _ hfc0
      have hi8 : i < 8 := by
        have hl : tbman_small_state.block_size_array.length = 8 := by decide
        omega
      have hok : tbman_C1_class_ok i = true := by
        interval_cases i <;> decide
      obtain ⟨s1, p, g, h1, h2⟩ := tbman_C1_internal i n hn0 hi8 hfc0 hge hok
      refine ⟨s1, p, g, h1, fun _ => h2, fun hgt => ?_⟩
      rw [hmax] at hgt
      omega
  · have h1 := tbman_C1_external_first n hn0 (by omega)
    have h2 := tbman_C1_external_second
      { tbman_small_state with external_btree := [(256, n)], next_addr := 256 + n }
      n hn0 rfl hmax rfl rfl (by omega)
    refine ⟨_, 256, n, h1, ?_, ?_⟩
    · intro hcon
      rw [hmax] at hcon
      omega
    · intro _
      exact ⟨rfl, _, align_up (256 + n) 256, n, h2.1, rfl, h2.2⟩

/-- C1 witness: for `n = 8` the chained second call returns exactly the first
    call's result. -/
theorem claim_C1_realloc_noop_witness :
    (1 : Nat) ≤ 8 ∧
    ((tbman_s_alloc 48 tbman_small_state 0 8).bind
      (fun r => tbman_s_alloc 48 r.1 r.2.1 8) = tbman_s_alloc 48 tbman_small_state 0 8) := by
  obtain ⟨s1, p, g, h1, h2, _⟩ := claim_C1_realloc_noop 8 (by norm_num)
  refine ⟨by norm_num, ?_⟩
  rw [h1, Option.some_bind]
  rw [h2 (by decide)]
